import Mathlib

/-!
# vifm I/O engine: primitive (`iop.c`) and recursive (`ior.c`) operations

A shallow embedding of `src/io/iop.c` and `src/io/ior.c` (POSIX branches of the
`#ifndef _WIN32` conditionals) over an executable model of a POSIX filesystem.
The scrolling commands of `src/modes/menu.c` that the last statement is about
are embedded on the fields of the menu state they use, as C `int` arithmetic
over `Int`.

Model conventions
* A C string is a `List Char` (no embedded NUL); the terminator is the position
  `length`.
* The filesystem is a finite tree, given by its root directory.  Directory
  contents are kept in listing order.
  Name resolution is lexical: a path string is cut at `/`, empty components are
  dropped, and the resulting names are looked up from the root directory, which
  also plays the role of the working directory.  The entries `.` and `..`,
  symbolic links in intermediate components, hard links, ownership and permission
  checks are outside the model.
* `stat` follows a symbolic link in the last component (at most `SYMLOOP_MAX`
  times); a link target is resolved like any other path string.
* External state the code reads: the cancellation signal (set from some poll
  onwards), a short-write fault of `fwrite`, the cross-device answer of
  `rename`, the process umask, and the progress tracker.
* The recursion of the traversal and of `ior_mv` is bounded by a `fuel`
  argument; the answer `none` means that the bound was hit.
-/

namespace Vifm

/-! ## Strings and paths -/

abbrev CStr := List Char
abbrev Name := List Char
abbrev Path := List Name

/-- Cuts a path string at separators; `cur` is the component being read. -/
def comps : CStr → Name → Path
  | [], cur => if cur = [] then [] else [cur]
  | c :: s, cur =>
    if c = '/' then (if cur = [] then comps s [] else cur :: comps s [])
    else comps s (cur ++ [c])

/-- The names of a path string, empty components dropped. -/
def components (s : CStr) : Path := comps s []

/-- Pathname resolution: the empty string does not resolve (ENOENT). -/
def resolve (s : CStr) : Option Path :=
  if s = [] then none else some (components s)

/-- A directory entry name: non-empty and free of separators. -/
def validName (n : Name) : Bool := n ≠ [] && !n.contains '/'

/-! ## Filesystem tree -/

/-- The entries of one directory, in listing order. -/
inductive Forest
  | nil
  | file (name : Name) (mode : Nat) (content : List Nat) (rest : Forest)
  | link (name : Name) (target : CStr) (rest : Forest)
  | dir (name : Name) (mode : Nat) (kids : Forest) (rest : Forest)
  deriving DecidableEq, Repr

/-- One filesystem object. -/
inductive Node
  | file (mode : Nat) (content : List Nat)
  | link (target : CStr)
  | dir (mode : Nat) (kids : Forest)
  deriving DecidableEq, Repr

/-- First entry of a directory with the given name. -/
def Forest.find : Forest → Name → Option Node
  | .nil, _ => none
  | .file n m c r, x => if n = x then some (.file m c) else r.find x
  | .link n t r, x => if n = x then some (.link t) else r.find x
  | .dir n m k r, x => if n = x then some (.dir m k) else r.find x

/-- Puts an entry in front of a directory listing. -/
def Forest.cons (x : Name) (nd : Node) (r : Forest) : Forest :=
  match nd with
  | .file m c => .file x m c r
  | .link t => .link x t r
  | .dir m k => .dir x m k r

/-- Replaces the entry called `x` in place, or appends it when absent. -/
def Forest.put : Forest → Name → Node → Forest
  | .nil, x, nd => Forest.cons x nd .nil
  | .file n m c r, x, nd => if n = x then Forest.cons x nd r else .file n m c (r.put x nd)
  | .link n t r, x, nd => if n = x then Forest.cons x nd r else .link n t (r.put x nd)
  | .dir n m k r, x, nd => if n = x then Forest.cons x nd r else .dir n m k (r.put x nd)

/-- Removes the entries called `x`. -/
def Forest.erase : Forest → Name → Forest
  | .nil, _ => .nil
  | .file n m c r, x => if n = x then r.erase x else .file n m c (r.erase x)
  | .link n t r, x => if n = x then r.erase x else .link n t (r.erase x)
  | .dir n m k r, x => if n = x then r.erase x else .dir n m k (r.erase x)

/-- Names of a directory in listing order (what `readdir` yields). -/
def Forest.names : Forest → List Name
  | .nil => []
  | .file n _ _ r => n :: r.names
  | .link n _ r => n :: r.names
  | .dir n _ _ r => n :: r.names

/-- The object reached from `nd` along a path of names. -/
def lookupIn : Node → Path → Option Node
  | nd, [] => some nd
  | .dir _ k, x :: p =>
    match k.find x with
    | some c => lookupIn c p
    | none => none
  | _, _ :: _ => none

/-- Error numbers (Linux values, see `Errno.code`). -/
inductive Errno
  | ENOENT | EEXIST | EXDEV | ENOTDIR | EISDIR | EINVAL | ENOTEMPTY | ELOOP | EBUSY
  deriving DecidableEq, Repr

def Errno.code : Errno → Int
  | .ENOENT => 2
  | .EBUSY => 16
  | .EEXIST => 17
  | .EXDEV => 18
  | .ENOTDIR => 20
  | .EISDIR => 21
  | .EINVAL => 22
  | .ENOTEMPTY => 39
  | .ELOOP => 40

/-- Applies `h` to the object at path `p` below `nd` and rebuilds the
directories on the way. -/
def modifyIn (h : Node → Except Errno Node) : Node → Path → Except Errno Node
  | nd, [] => h nd
  | .dir m k, x :: p =>
    match k.find x with
    | some c =>
      match modifyIn h c p with
      | .ok c2 => .ok (.dir m (k.put x c2))
      | .error e => .error e
    | none => .error .ENOENT
  | _, _ :: _ => .error .ENOTDIR

/-- Rewrites the entry called `x` of a directory: `g` sees the present entry
(or its absence) and answers with the new one (`none` removes it) or an error. -/
def alterEntry (g : Option Node → Except Errno (Option Node)) (x : Name) :
    Node → Except Errno Node
  | .dir m k =>
    match g (k.find x) with
    | .ok (some nd) => .ok (.dir m (k.put x nd))
    | .ok none => .ok (.dir m (k.erase x))
    | .error e => .error e
  | _ => .error .ENOTDIR

/-- Rewrites the directory entry at path `p` (the root directory has none). -/
def alter (g : Option Node → Except Errno (Option Node)) (root : Node) (p : Path) :
    Except Errno Node :=
  match p.getLast? with
  | none => .error .EBUSY
  | some x => modifyIn (alterEntry g x) root p.dropLast

/-! ## World state -/

/-- Progress tracker (`ioeta_estim_t`), as far as this layer drives it. -/
structure Estim where
  silent : Bool
  items : Nat
  bytes : Nat
  deriving DecidableEq, Repr

/-- Everything the operations read or write. -/
structure World where
  /-- the root directory, which is also the working directory -/
  fs : Node
  /-- process umask -/
  umask : Nat
  /-- rename answers EXDEV (source and destination on different devices) -/
  xdev : Bool
  /-- result of has_atomic_file_replace() -/
  atomic_replace : Bool
  /-- index of the first poll that sees the cancellation request, if any -/
  cancelAt : Option Nat
  /-- number of polls of the cancellation signal made so far -/
  clock : Nat
  /-- nesting depth of ui_cancellation_enable() -/
  cancelDepth : Nat
  /-- number of further fwrite calls that write their whole block -/
  wfault : Option Nat
  /-- the tracker behind args->estim (none is the NULL handle) -/
  estim : Option Estim
  deriving DecidableEq, Repr

/-! ## System calls -/

def SYMLOOP_MAX : Nat := 40

/-- Clears the umask bits of a mode: m & ~umask. -/
def maskMode (m umask : Nat) : Nat := m - (m &&& umask)

/-- Follows symbolic links in the last component; the answer is the place the
name finally designates (which may not exist). -/
def chase : Nat → Node → Path → Option Path
  | 0, _, _ => none
  | n + 1, fs, p =>
    match lookupIn fs p with
    | some (.link t) =>
      match resolve t with
      | some q => chase n fs q
      | none => none
    | _ => some p

def os_lstat (w : World) (s : CStr) : Option Node :=
  match resolve s with
  | some p => lookupIn w.fs p
  | none => none

def os_stat (w : World) (s : CStr) : Option Node :=
  match resolve s with
  | some p =>
    match chase SYMLOOP_MAX w.fs p with
    | some q => lookupIn w.fs q
    | none => none
  | none => none

def os_mkdir (w : World) (s : CStr) (mode : Nat) : Except Errno World :=
  match resolve s with
  | none => .error .ENOENT
  | some [] => .error .EEXIST
  | some p =>
    match alter (fun old => match old with
        | none => .ok (some (.dir (maskMode mode w.umask) .nil))
        | some _ => .error .EEXIST) w.fs p with
    | .ok fs2 => .ok { w with fs := fs2 }
    | .error e => .error e

def os_unlink (w : World) (s : CStr) : Except Errno World :=
  match resolve s with
  | none => .error .ENOENT
  | some p =>
    match alter (fun old => match old with
        | none => .error .ENOENT
        | some (.dir _ _) => .error .EISDIR
        | some _ => .ok none) w.fs p with
    | .ok fs2 => .ok { w with fs := fs2 }
    | .error e => .error e

def os_rmdir (w : World) (s : CStr) : Except Errno World :=
  match resolve s with
  | none => .error .ENOENT
  | some p =>
    match alter (fun old => match old with
        | none => .error .ENOENT
        | some (.dir _ .nil) => .ok none
        | some (.dir _ _) => .error .ENOTEMPTY
        | some _ => .error .ENOTDIR) w.fs p with
    | .ok fs2 => .ok { w with fs := fs2 }
    | .error e => .error e

def os_chmod (w : World) (s : CStr) (mode : Nat) : Except Errno World :=
  match resolve s with
  | none => .error .ENOENT
  | some p =>
    match chase SYMLOOP_MAX w.fs p with
    | none => .error .ELOOP
    | some q =>
      match modifyIn (fun nd => match nd with
          | .file _ c => .ok (.file mode c)
          | .dir _ k => .ok (.dir mode k)
          | .link _ => .error .ELOOP) w.fs q with
      | .ok fs2 => .ok { w with fs := fs2 }
      | .error e => .error e

/-- The stream of `fopen(path, "rb")`: the bytes still to be read.  A
directory or a missing file gives no stream. -/
def fopen_rb (w : World) (s : CStr) : Option (List Nat) :=
  match os_stat w s with
  | some (.file _ c) => some c
  | _ => none

/-- The stream of `fopen(path, "wb")`: creates the file (mode `0666 & ~umask`)
or truncates it, and answers the place to write to. -/
def fopen_wb (w : World) (s : CStr) : Option (Path × World) :=
  match resolve s with
  | none => none
  | some p =>
    match chase SYMLOOP_MAX w.fs p with
    | none => none
    | some q =>
      match alter (fun old => match old with
          | none => .ok (some (.file (maskMode 0o666 w.umask) []))
          | some (.file m _) => .ok (some (.file m []))
          | some _ => .error .EISDIR) w.fs q with
      | .ok fs2 => some (q, { w with fs := fs2 })
      | .error _ => none

/-- Result of `fwrite(block, 1, n, out)`: the count written and the new state.
A faulty write puts nothing on disk. -/
def os_fwrite (w : World) (out : Path) (block : List Nat) : Nat × World :=
  match w.wfault with
  | some 0 => (0, w)
  | wf =>
    match modifyIn (fun nd => match nd with
        | .file m c => .ok (.file m (c ++ block))
        | _ => .error .EINVAL) w.fs out with
    | .ok fs2 => (block.length, { w with fs := fs2, wfault := wf.map Nat.pred })
    | .error _ => (0, w)

/-- Renames `src` to `dst` (neither followed when a symbolic link).  With
`xdev` set the two names are on different devices. -/
def os_rename (w : World) (src dst : CStr) : Except Errno World :=
  match resolve src, resolve dst with
  | some sp, some dp =>
    match lookupIn w.fs sp with
    | none => .error .ENOENT
    | some nd =>
      if w.xdev then .error .EXDEV
      else if sp = dp then .ok w
      else if sp = [] ∨ dp = [] then .error .EBUSY
      else if sp <+: dp then
        .error (match nd with
          | .dir _ _ => .EINVAL
          | _ => .ENOTDIR)
      else
        match alter (fun old => match old, nd with
            | none, _ => .ok (some nd)
            | some (.dir _ .nil), .dir _ _ => .ok (some nd)
            | some (.dir _ _), .dir _ _ => .error .ENOTEMPTY
            | some (.dir _ _), _ => .error .EISDIR
            | some _, .dir _ _ => .error .ENOTDIR
            | some _, _ => .ok (some nd)) w.fs dp with
        | .error e => .error e
        | .ok fs1 =>
          match alter (fun _ => .ok none) fs1 sp with
          | .ok fs2 => .ok { w with fs := fs2 }
          | .error e => .error e
  | _, _ => .error .ENOENT

/-- Creates the symbolic link `linkpath` with contents `target`. -/
def os_symlink (w : World) (target linkpath : CStr) : Except Errno World :=
  match resolve linkpath with
  | none => .error .ENOENT
  | some [] => .error .EEXIST
  | some p =>
    match alter (fun old => match old with
        | none => .ok (some (.link target))
        | some _ => .error .EEXIST) w.fs p with
    | .ok fs2 => .ok { w with fs := fs2 }
    | .error e => .error e

/-! ## Helpers of `utils/` and `ui/` that the two files call -/

/-- Modelled from the spec: `is_dir` (utils/fs.c) is not among the sources; §6
lists stat among the platform primitives and the helper is the stat-based
directory test, which follows a symbolic link. -/
def is_dir (w : World) (s : CStr) : Bool :=
  match os_stat w s with
  | some (.dir _ _) => true
  | _ => false

/-- Modelled from the spec: `is_symlink` (utils/fs.c) is not among the sources;
it is the lstat-based test of §6. -/
def is_symlink (w : World) (s : CStr) : Bool :=
  match os_lstat w s with
  | some (.link _) => true
  | _ => false

/-- Modelled from the spec: `path_exists` (utils/fs.c) is not among the
sources; with `deref` it asks whether the name resolves through symbolic links
(the `DEREF` of `ior_mv`, also used for the one-argument call of `iop_cp`),
without it whether the entry itself is there. -/
def path_exists (w : World) (s : CStr) (deref : Bool) : Bool :=
  if deref then (os_stat w s).isSome else (os_lstat w s).isSome

/-- Modelled from the spec: `is_in_subtree` (utils/path.c) is not among the
sources; §4.3 and §9 describe it as the test that `path` is located inside the
subtree of `root`, decided on the path strings.  Here: the names of `root` are
an initial segment of the names of `path`. -/
def is_in_subtree (path root : CStr) : Bool :=
  decide (components root <+: components path)

/-- Modelled from the spec: `until_first` (utils/str.c) is not among the
sources; it answers the position of the first `c` at or after `start`, or the
position of the terminator when there is none. -/
def until_first (s : CStr) (start : Nat) (c : Char) : Nat :=
  start + ((s.drop start).takeWhile (fun d => d != c)).length

/-- Modelled from the spec: `ui_cancellation_requested` (ui/cancellation.c) is
not among the sources; §6 gives it as the poll `request_pending()` of the
external signal.  A poll advances the clock; the request is seen from poll
number `cancelAt` on. -/
def ui_cancellation_requested (w : World) : Bool × World :=
  (match w.cancelAt with
   | some k => decide (k ≤ w.clock)
   | none => false,
   { w with clock := w.clock + 1 })

/-- Modelled from the spec: the scoped `enable()` of §6. -/
def ui_cancellation_enable (w : World) : World :=
  { w with cancelDepth := w.cancelDepth + 1 }

/-- Modelled from the spec: the scoped `disable()` of §6. -/
def ui_cancellation_disable (w : World) : World :=
  { w with cancelDepth := w.cancelDepth - 1 }

/-! ## Request arguments (`ioc.h`) -/

/-- Conflict resolution strategy. -/
inductive IoCrs
  | IO_CRS_FAIL
  | IO_CRS_REPLACE_ALL
  | IO_CRS_REPLACE_FILES
  | IO_CRS_APPEND_TO_FILES
  deriving DecidableEq, Repr

/-- The argument bundle `io_args_t`; the members of the union `arg3` are kept
apart.  Where the code fills one member and the callee reads another, the
embedding fills in what the callee reads from the shared storage (see
`cp_mv_visitor`). -/
structure io_args_t where
  /-- arg1.path, arg1.src -/
  arg1 : CStr
  /-- arg2.dst, arg2.target -/
  arg2 : CStr := []
  crs : IoCrs := .IO_CRS_FAIL
  mode : Nat := 0
  process_parents : Bool := false
  cancellable : Bool := false
  deriving DecidableEq, Repr

/-! ## `iop.c`: primitive operations -/

/-- Amount of data to transfer at once. -/
def BLOCK_SIZE : Nat := 8192

/-- The `do ... while(sep != '\0')` loop of `iop_mkdir`.  The index `sep_pos`
points into `path_copy`; the character there is `none` at the terminator;
`fuel` bounds the iterations. -/
def iop_mkdir_loop (path : CStr) : Nat → Nat → World → Int × World
  | 0, _, w => (-1, w)
  | fuel + 1, sep_pos, w =>
    let sep : Option Char := path[sep_pos]?
    let path_copy := path.take sep_pos
    let made : Option World :=
      if is_dir w path_copy then some w
      else
        match os_mkdir w path_copy 0o755 with
        | .ok w2 => some w2
        | .error _ => none
    match made with
    | none => (-1, w)
    | some w2 =>
      let next := until_first path (sep_pos + 1) '/'
      if sep.isSome then iop_mkdir_loop path fuel next w2
      else (0, w2)

def iop_mkdir (args : io_args_t) (w : World) : Int × World :=
  let path := args.arg1
  let create_parent := args.process_parents
  let path_prefix_len := 0
  if create_parent then
    iop_mkdir_loop path (path.length + 1) (until_first path path_prefix_len '/') w
  else
    match os_mkdir w path 0o755 with
    | .ok w2 => (0, w2)
    | .error _ => (-1, w)

def iop_rmfile (args : io_args_t) (w : World) : Int × World :=
  match os_unlink w args.arg1 with
  | .ok w2 => (0, w2)
  | .error _ => (-1, w)

def iop_rmdir (args : io_args_t) (w : World) : Int × World :=
  match os_rmdir w args.arg1 with
  | .ok w2 => (0, w2)
  | .error _ => (-1, w)

/-- The block loop of `iop_cp`: `rest` is what `in` has not delivered yet, so
each `fread` delivers `min BLOCK_SIZE rest.length` bytes. -/
def iop_cp_loop (cancellable : Bool) (out : Path) : Nat → List Nat → World → Int × World
  | 0, _, w => (1, w)
  | fuel + 1, rest, w =>
    let block := rest.take BLOCK_SIZE
    if block.length = 0 then (0, w)
    else
      let polled := if cancellable then ui_cancellation_requested w else (false, w)
      if polled.1 then (1, polled.2)
      else
        let wr := os_fwrite polled.2 out block
        if wr.1 ≠ block.length then (1, wr.2)
        else iop_cp_loop cancellable out fuel (rest.drop BLOCK_SIZE) wr.2

def iop_cp (args : io_args_t) (w : World) : Int × World :=
  let src := args.arg1
  let dst := args.arg2
  let overwrite := args.crs != .IO_CRS_FAIL
  let cancellable := args.cancellable
  if is_dir w src then (1, w)
  else
    match fopen_rb w src with
    | none => (1, w)
    | some input =>
      let prepared : Except Int World :=
        if overwrite then
          match os_unlink w dst with
          | .ok w2 => .ok w2
          | .error e => if e ≠ .ENOENT then .error (-1) else .ok w
        else if path_exists w dst true then .error 1
        else .ok w
      match prepared with
      | .error ec => (ec, w)
      | .ok w1 =>
        match fopen_wb w1 dst with
        | none => (1, w1)
        | some (out, w2) =>
          let w3 := if cancellable then ui_cancellation_enable w2 else w2
          let r := iop_cp_loop cancellable out (input.length + 1) input w3
          let w4 := if cancellable then ui_cancellation_disable r.2 else r.2
          (r.1, w4)

def iop_ln (args : io_args_t) (w : World) : Int × World :=
  let path := args.arg1
  let target := args.arg2
  let overwrite := args.crs != .IO_CRS_FAIL
  match os_symlink w path target with
  | .ok w2 => (0, w2)
  | .error e =>
    if e = .EEXIST ∧ overwrite = true ∧ is_symlink w target = true then
      match os_unlink w target with
      | .error _ => (-1, w)
      | .ok w2 =>
        match os_symlink w2 path target with
        | .ok w3 => (0, w3)
        | .error _ => (-1, w2)
    else (-1, w)

/-! ## Traversal (`private/traverser.h`) -/

/-- Modelled from the spec: the enumeration `VisitAction` of
private/traverser.h is not among the sources; §3 lists its three events. -/
inductive VisitAction
  | VA_DIR_ENTER
  | VA_FILE
  | VA_DIR_LEAVE
  deriving DecidableEq, Repr

/-- Modelled from the spec: a `VisitResult` (private/traverser.h) is kept as
the C integer it is, because the visitors return results of primitive
operations through it. -/
abbrev VisitResult := Int

/-- Modelled from the spec: the enumeration `VisitResult` of
private/traverser.h is not among the sources; §3 lists Continue, Error,
Cancelled and SkipDirectoryLeave, numbered here in that order.  Zero for
success is what the comments of ior.c state. -/
def VR_OK : VisitResult := 0

/-- Modelled from the spec: see `VR_OK`. -/
def VR_ERROR : VisitResult := 1

/-- Modelled from the spec: see `VR_OK`. -/
def VR_CANCELLED : VisitResult := 2

/-- Modelled from the spec: see `VR_OK`. -/
def VR_SKIP_DIR_LEAVE : VisitResult := 3

/-- Modelled from the spec: a visitor with its `param` applied.  The answer
`none` means that the recursion bound of the model was hit before the visitor
returned. -/
abbrev Visitor := CStr → VisitAction → World → Option (VisitResult × World)

/-- Modelled from the spec: the traversal hands each entry to the visitor by
its full path (§4.2); the path of an entry is the path of its directory, a
separator, and the name. -/
def join_paths (path : CStr) (name : Name) : CStr := path ++ '/' :: name

/-- Modelled from the spec: the listing of the children of a directory (§4.2),
taken when the directory is opened; a path that is no directory has none. -/
def listdir (w : World) (s : CStr) : List Name :=
  match os_lstat w s with
  | some (.dir _ k) => k.names
  | _ => []

/-- Modelled from the spec: the test that an entry is a directory itself; a
symbolic link is a leaf (`VisitFile` includes symlinks-as-leaves, §3). -/
def entry_is_dir (w : World) (s : CStr) : Bool :=
  match os_lstat w s with
  | some (.dir _ _) => true
  | _ => false

/-- Modelled from the spec: the children loop of `traverse` (§4.2): files get
`VisitFile`, sub-directories recurse through `sub`, and the first result other
than Continue ends the loop and is handed up. -/
def visit_entries (visitor : Visitor) (sub : CStr → World → Option (VisitResult × World))
    (path : CStr) : List Name → World → Option (VisitResult × World)
  | [], w => some (VR_OK, w)
  | n :: ns, w =>
    let full := join_paths path n
    match (if entry_is_dir w full then sub full w else visitor full .VA_FILE w) with
    | none => none
    | some (r, w2) =>
      if r ≠ VR_OK then some (r, w2)
      else visit_entries visitor sub path ns w2

/-- Modelled from the spec: the directory case of `traverse` (§4.2):
`EnterDirectory`, then the children unless the visitor answered Error or
Cancelled, then `LeaveDirectory` unless the answer to `EnterDirectory` was
SkipDirectoryLeave. -/
def traverse_subtree (visitor : Visitor) : Nat → CStr → World → Option (VisitResult × World)
  | 0, _, _ => none
  | fuel + 1, path, w =>
    match visitor path .VA_DIR_ENTER w with
    | none => none
    | some (enter_result, w1) =>
      if enter_result ≠ VR_OK ∧ enter_result ≠ VR_SKIP_DIR_LEAVE then some (enter_result, w1)
      else
        match visit_entries visitor (traverse_subtree visitor fuel) path (listdir w1 path) w1 with
        | none => none
        | some (r, w2) =>
          if r ≠ VR_OK then some (r, w2)
          else if enter_result = VR_SKIP_DIR_LEAVE then some (VR_OK, w2)
          else visitor path .VA_DIR_LEAVE w2

/-- Modelled from the spec: `traverse` (private/traverser.c) is not among the
sources; §4.2: a root that is no directory is visited once with `VisitFile`,
a directory root is walked depth first. -/
def traverse (visitor : Visitor) (fuel : Nat) (path : CStr) (w : World) :
    Option (VisitResult × World) :=
  if entry_is_dir w path then traverse_subtree visitor fuel path w
  else visitor path .VA_FILE w

/-! ## Progress tracker (`private/ioeta.h`) -/

/-- Modelled from the spec: `ioeta_update` (§6): adds the deltas unless the
tracker is absent or silenced. -/
def ioeta_update (w : World) (finished : Nat) (bytes : Nat) : World :=
  match w.estim with
  | none => w
  | some e =>
    if e.silent then w
    else { w with estim := some { e with items := e.items + finished, bytes := e.bytes + bytes } }

/-- Modelled from the spec: `ioeta_silent_on` (§6): silences the tracker and
answers the previous state. -/
def ioeta_silent_on (w : World) : Bool × World :=
  match w.estim with
  | none => (false, w)
  | some e => (e.silent, { w with estim := some { e with silent := true } })

/-- Modelled from the spec: `ioeta_silent_set` (§6). -/
def ioeta_silent_set (w : World) (silent : Bool) : World :=
  match w.estim with
  | none => w
  | some e => { w with estim := some { e with silent := silent } }

/-! ## `ior.c`: recursive operations -/

def rm_visitor (full_path : CStr) (action : VisitAction) (rm_args : io_args_t) (w : World) :
    VisitResult × World :=
  let polled := if rm_args.cancellable then ui_cancellation_requested w else (false, w)
  if polled.1 then (VR_CANCELLED, polled.2)
  else
    match action with
    | .VA_DIR_ENTER => (VR_OK, polled.2)
    | .VA_FILE =>
      iop_rmfile { arg1 := full_path, cancellable := rm_args.cancellable } polled.2
    | .VA_DIR_LEAVE =>
      iop_rmdir { arg1 := full_path, cancellable := rm_args.cancellable } polled.2

def ior_rm (fuel : Nat) (args : io_args_t) (w : World) : Option (Int × World) :=
  traverse (fun p a v => some (rm_visitor p a args v)) fuel args.arg1 w

/-- Modelled from the spec: `get_symlink_type` (utils/fs.c) is not among the
sources; its answer is SLT_UNKNOWN (false here) unless the link leads to a
directory. -/
def symlink_type_known (w : World) (s : CStr) : Bool := is_dir w s

def is_file (w : World) (path : CStr) : Bool :=
  !is_dir w path || (is_symlink w path && symlink_type_known w path)

/-- Modelled from the spec: `is_case_change` (utils/path.c) is not among the
sources; §4.3 calls it a case-only rename of the same path. -/
def is_case_change (src dst : CStr) : Bool :=
  src != dst && src.map Char.toLower == dst.map Char.toLower

/-- The visitor of copying and moving.  `mv` stands for the call of `ior_mv`
made for a file when moving. -/
def cp_mv_visitor (mv : io_args_t → World → Option (Int × World))
    (full_path : CStr) (action : VisitAction) (cp_args : io_args_t) (cp : Bool) (w : World) :
    Option (VisitResult × World) :=
  let polled := if cp_args.cancellable then ui_cancellation_requested w else (false, w)
  if polled.1 then some (VR_CANCELLED, polled.2)
  else
    let w0 := polled.2
    let rel_part := full_path.drop cp_args.arg1.length
    let dst_full_path := if rel_part = [] then cp_args.arg2 else cp_args.arg2 ++ '/' :: rel_part
    match action with
    | .VA_DIR_ENTER =>
      if cp_args.crs ≠ .IO_CRS_REPLACE_FILES ∨ is_dir w0 dst_full_path = false then
        -- `.arg3.mode = 0700` fills the union `arg3`, which `iop_mkdir` reads as
        -- `arg3.process_parents`: a non-zero value, so parents are created
        let r := iop_mkdir
          { arg1 := dst_full_path, mode := 0o700, process_parents := true,
            cancellable := cp_args.cancellable } w0
        some (if r.1 = 0 then VR_OK else VR_ERROR, r.2)
      else some (VR_SKIP_DIR_LEAVE, w0)
    | .VA_FILE =>
      let args : io_args_t :=
        { arg1 := full_path, arg2 := dst_full_path, crs := cp_args.crs,
          cancellable := cp_args.cancellable }
      match (if cp then some (iop_cp args w0) else mv args w0) with
      | none => none
      | some r => some (if r.1 = 0 then VR_OK else VR_ERROR, r.2)
    | .VA_DIR_LEAVE =>
      match os_stat w0 full_path with
      | some nd =>
        let st_mode := match nd with
          | .file m _ => m
          | .dir m _ => m
          | .link _ => 0o777
        match os_chmod w0 dst_full_path (st_mode &&& 0o7777) with
        | .ok w2 => some (VR_OK, w2)
        | .error _ => some (VR_ERROR, w0)
      | none => some (VR_ERROR, w0)

def cp_visitor (args : io_args_t) : Visitor :=
  fun full_path action w => cp_mv_visitor (fun _ _ => none) full_path action args true w

def ior_cp (fuel : Nat) (args : io_args_t) (w : World) : Option (Int × World) :=
  let src := args.arg1
  let dst := args.arg2
  if is_in_subtree dst src then some (1, w)
  else
    let cleared : Option (Int × World) :=
      if args.crs = .IO_CRS_REPLACE_ALL then
        ior_rm fuel { arg1 := dst, cancellable := args.cancellable } w
      else some (0, w)
    match cleared with
    | none => none
    | some (result, w1) =>
      if result ≠ 0 then some (result, w1)
      else traverse (cp_visitor args) fuel src w1

/-- The `case EXDEV` of `ior_mv` (ior.c:176-195).  The copy and the removal it
calls are parameters, so that the state each callee is handed can be stated;
`ior_mv` passes `ior_cp` and `ior_rm`. -/
def ior_mv_exdev (cp rm : io_args_t → World → Option (Int × World)) (args : io_args_t)
    (w : World) : Option (Int × World) :=
  match cp args w with
  | none => none
  | some (result, w1) =>
    if result = 0 then
      let s := ioeta_silent_on w1
      match rm { arg1 := args.arg1, cancellable := args.cancellable } s.2 with
      | none => none
      | some (result2, w2) => some (result2, ioeta_silent_set w2 s.1)
    else some (result, w1)

/-- The function `ior_mv`; `fuel` bounds the depth of the recursion through
`mv_visitor`. -/
def ior_mv : Nat → io_args_t → World → Option (Int × World)
  | 0, _, _ => none
  | fuel + 1, args, w =>
    let src := args.arg1
    let dst := args.arg2
    let crs := args.crs
    if crs = .IO_CRS_FAIL ∧ path_exists w dst true = true ∧ is_case_change src dst = false then
      some (1, w)
    else if crs = .IO_CRS_APPEND_TO_FILES ∧ (is_file w src = false ∨ is_file w dst = false) then
      some (1, w)
    else
      match os_rename w src dst with
      | .ok w1 => some (0, ioeta_update w1 1 0)
      | .error errno =>
        if errno = .EXDEV then ior_mv_exdev (ior_cp fuel) (ior_rm fuel) args w
        else if errno = .EISDIR ∨ errno = .ENOTEMPTY ∨ errno = .EEXIST then
          if crs = .IO_CRS_REPLACE_ALL then
            match ior_rm fuel { arg1 := dst, cancellable := args.cancellable } w with
            | none => none
            | some (error, w1) =>
              if error ≠ 0 then some (error, w1)
              else
                match os_rename w1 src dst with
                | .ok w2 => some (0, w2)
                | .error _ => some (-1, w1)
          else if crs = .IO_CRS_REPLACE_FILES ∨
              (w.atomic_replace = false ∧ crs = .IO_CRS_APPEND_TO_FILES) then
            let removed : Except Int World :=
              if w.atomic_replace = false ∧ is_file w dst = true then
                match iop_rmfile { arg1 := dst, cancellable := args.cancellable } w with
                | (0, w1) => .ok w1
                | (error, _) => .error error
              else .ok w
            match removed with
            | .error error => some (error, w)
            | .ok w1 =>
              traverse (fun p a v => cp_mv_visitor (ior_mv fuel) p a args false v) fuel src w1
          else some (errno.code, w)
        else some (errno.code, w)

def mv_visitor (fuel : Nat) (args : io_args_t) : Visitor :=
  fun full_path action w => cp_mv_visitor (ior_mv fuel) full_path action args false w

/-! ## `modes/menu.c`: scrolling of the menu window -/

/-- The fields of `menu_info` (menus/menus.h) that the scrolling commands read
and write: the first line shown, the line of the cursor, the number of lines
and the height of the window, borders included. -/
structure menu_info where
  top : Int
  pos : Int
  len : Int
  win_rows : Int
  deriving DecidableEq, Repr

/-- Modelled from the spec: the macro `MAX` (utils/macros.h) is not among the
sources and the spec does not describe it; by its name and use it is the larger
of its two arguments. -/
def MAX (a b : Int) : Int := if a > b then a else b

/-- Modelled from the spec: the macro `MIN` (utils/macros.h) is not among the
sources and the spec does not describe it; by its name and use it is the
smaller of its two arguments. -/
def MIN (a b : Int) : Int := if a < b then a else b

/-- Modelled from the spec: the macro `DIV_ROUND_UP` (utils/macros.h) is not
among the sources and the spec does not describe it; by its name it is the
quotient rounded up, taken here as `(a + (b - 1))/b` in C arithmetic. -/
def DIV_ROUND_UP (a b : Int) : Int := (a + (b - 1)).tdiv b

/-- Moves top line of the menu ensuring that its value is correct. -/
def change_menu_top (menu : menu_info) (delta : Int) : menu_info :=
  { menu with top := MAX (MIN (menu.top + delta) (menu.len - (menu.win_rows - 2))) 0 }

def get_last_visible_line (menu : menu_info) : Int :=
  menu.top + (menu.win_rows - 2) - 1

/-- Returns non-zero if menu can be scrolled down. -/
def can_scroll_menu_down (menu : menu_info) : Bool :=
  decide (get_last_visible_line menu < menu.len - 1)

/-- Returns non-zero if all menu lines are visible, so no scrolling is needed. -/
def all_lines_visible (menu : menu_info) : Bool :=
  decide (menu.len ≤ menu.win_rows - 2)

/-- The handler `cmd_zz` on the menu state, up to its call of `update_menu`,
which redraws through `draw_menu` and `move_to_menu_pos` (menus/menus.c, not
among the sources). -/
def cmd_zz (menu : menu_info) : menu_info :=
  if !all_lines_visible menu then
    if menu.pos ≤ (menu.win_rows - 3).tdiv 2 then
      { menu with top := 0 }
    else if menu.pos > menu.len - DIV_ROUND_UP (menu.win_rows - 3) 2 then
      { menu with top := menu.len - (menu.win_rows - 3 + 1) }
    else
      { menu with top := menu.pos - DIV_ROUND_UP (menu.win_rows - 3) 2 }
  else menu


/-! ## Vocabulary of the statements -/

/-- Sets (`some`) or removes (`none`) the directory entry at path `p`. -/
def setEntry (root : Node) (p : Path) (o : Option Node) : Except Errno Node :=
  alter (fun _ => .ok o) root p

/-- Directories persist from `fs` to `fs2`, and a directory keeps its
permission bits unless its path satisfies `A`. -/
def GrowP (A : Path → Prop) (fs fs2 : Node) : Prop :=
  ∀ q m k, lookupIn fs q = some (.dir m k) →
    ∃ m2 k2, lookupIn fs2 q = some (.dir m2 k2) ∧ (¬ A q → m2 = m)

/-- The part of a visited path after the source path: empty for the source
itself, otherwise it starts with a separator. -/
def RelOK (rel : CStr) : Prop := rel = [] ∨ ∃ r0, rel = '/' :: r0

/-- The destination path that `cp_mv_visitor` computes for a visited path. -/
def dstOf (args : io_args_t) (full_path : CStr) : CStr :=
  if full_path.drop args.arg1.length = [] then args.arg2
  else args.arg2 ++ '/' :: full_path.drop args.arg1.length

/-- The poll that opens every visitor. -/
def polled (args : io_args_t) (w : World) : Bool × World :=
  if args.cancellable = true then ui_cancellation_requested w else (false, w)

/-- The arguments `cp_mv_visitor` hands to `iop_mkdir`: the mode 0700 it
writes to the union `arg3` is what `iop_mkdir` reads as `process_parents`. -/
def visitMkdirArgs (args : io_args_t) (full_path : CStr) : io_args_t :=
  { arg1 := dstOf args full_path, mode := 0o700, process_parents := true,
    cancellable := args.cancellable }

/-- The arguments `cp_mv_visitor` hands to `iop_cp` or `ior_mv`. -/
def visitCpArgs (args : io_args_t) (full_path : CStr) : io_args_t :=
  { arg1 := full_path, arg2 := dstOf args full_path, crs := args.crs,
    cancellable := args.cancellable }

/-- The field `st_mode` of a stat result, type bits left out. -/
def st_mode (nd : Node) : Nat :=
  match nd with
  | .file m _ => m
  | .dir m _ => m
  | .link _ => 0o777

/-- Nesting depth of directories in a listing. -/
def Forest.height : Forest → Nat
  | .nil => 0
  | .file _ _ _ r => r.height
  | .link _ _ r => r.height
  | .dir _ _ k r => max (k.height + 1) r.height

/-- Nesting depth of an object: 0 for a leaf. -/
def Node.height : Node → Nat
  | .dir _ k => k.height + 1
  | _ => 0

/-- Every name in the listing (and below) is a valid entry name and occurs
once in its directory. -/
def Forest.wf : Forest → Bool
  | .nil => true
  | .file n _ _ r => validName n && !r.names.contains n && r.wf
  | .link n _ r => validName n && !r.names.contains n && r.wf
  | .dir n _ k r => validName n && !r.names.contains n && k.wf && r.wf

/-- The names below an object are valid and distinct per directory. -/
def Node.wf : Node → Bool
  | .dir _ k => k.wf
  | _ => true

/-- No symbolic link in the listing or below. -/
def Forest.noLinks : Forest → Bool
  | .nil => true
  | .file _ _ _ r => r.noLinks
  | .link _ _ _ => false
  | .dir _ _ k r => k.noLinks && r.noLinks

/-- The object is no symbolic link and holds none. -/
def Node.noLinks : Node → Bool
  | .dir _ k => k.noLinks
  | .link _ => false
  | .file _ _ => true

/-- What a copy of a listing looks like: the same names and contents, the
permission bits of a directory kept, those of a regular file replaced by the
creation default `0666 & ~umask`. -/
def Forest.copyImage (umask : Nat) : Forest → Forest
  | .nil => .nil
  | .file n _ c r => .file n (maskMode 0o666 umask) c (r.copyImage umask)
  | .link n t r => .link n t (r.copyImage umask)
  | .dir n m k r => .dir n (m &&& 0o7777) (k.copyImage umask) (r.copyImage umask)

/-- What a copy of an object looks like, see `Forest.copyImage`. -/
def Node.copyImage (umask : Nat) : Node → Node
  | .file _ c => .file (maskMode 0o666 umask) c
  | .link t => .link t
  | .dir m k => .dir (m &&& 0o7777) (k.copyImage umask)

/-- One listing after another. -/
def Forest.append : Forest → Forest → Forest
  | .nil, g => g
  | .file n m c r, g => .file n m c (r.append g)
  | .link n t r, g => .link n t (r.append g)
  | .dir n m k r, g => .dir n m k (r.append g)

/-- The state `w` with another tree and `n` more polls made. -/
def World.at (w : World) (fs : Node) (n : Nat) : World :=
  { w with fs := fs, clock := w.clock + n }

/-- The state with source and destination on different devices. -/
def World.crossDevice (w : World) : World := { w with xdev := true }

/-- The arguments `ior_cp` and `ior_mv` hand to `ior_rm` and `iop_rmfile`. -/
def rmArgsOf (path : CStr) (args : io_args_t) : io_args_t :=
  { arg1 := path, cancellable := args.cancellable }

/-- The silenced flag of the progress tracker, when there is a tracker. -/
def World.silenced (w : World) : Option Bool := w.estim.map Estim.silent

/-- The arguments `cp_mv_visitor` builds for a file event from the visited path
and the destination path it computed. -/
def leafArgs (args : io_args_t) (src dst : CStr) : io_args_t :=
  { arg1 := src, arg2 := dst, crs := args.crs, cancellable := args.cancellable }

/-- The result of a primitive operation as `cp_mv_visitor` hands it on. -/
def asVisit (o : Option (Int × World)) : Option (VisitResult × World) :=
  match o with
  | none => none
  | some r => some (if r.1 = 0 then VR_OK else VR_ERROR, r.2)

/-- A run of the parent-creating loop of `iop_mkdir` together with what it did
on `path_copy`. -/
structure MkdirRun where
  /-- the value returned -/
  result : Int
  /-- the state left -/
  world : World
  /-- the offsets into `path_copy` at which a search `until_first` started, in
  the order of the calls -/
  searches : List Nat
  /-- how many times the loop body was entered -/
  iterations : Nat
  /-- the recursion bound of the model was hit -/
  exhausted : Bool
  deriving DecidableEq, Repr

/-- The `do ... while(sep != '\0')` loop of `iop_mkdir`, as `iop_mkdir_loop`,
keeping a record of the searches `until_first(sep_pos + 1, '/')` and of the
iterations. -/
def iop_mkdir_loop_run (path : CStr) : Nat → Nat → World → MkdirRun
  | 0, _, w => { result := -1, world := w, searches := [], iterations := 0, exhausted := true }
  | fuel + 1, sep_pos, w =>
    let sep : Option Char := path[sep_pos]?
    let path_copy := path.take sep_pos
    let made : Option World :=
      if is_dir w path_copy then some w
      else
        match os_mkdir w path_copy 0o755 with
        | .ok w2 => some w2
        | .error _ => none
    match made with
    | none => { result := -1, world := w, searches := [], iterations := 1, exhausted := false }
    | some w2 =>
      let next := until_first path (sep_pos + 1) '/'
      if sep.isSome then
        let run := iop_mkdir_loop_run path fuel next w2
        { run with searches := (sep_pos + 1) :: run.searches, iterations := run.iterations + 1 }
      else
        { result := 0, world := w2, searches := [sep_pos + 1], iterations := 1,
          exhausted := false }

/-- The branch `if(create_parent)` of `iop_mkdir` with the record of its
searches: the first one starts at `path_copy + path_prefix_len`. -/
def iop_mkdir_run (args : io_args_t) (w : World) : MkdirRun :=
  let path := args.arg1
  let path_prefix_len := 0
  let run :=
    iop_mkdir_loop_run path (path.length + 1) (until_first path path_prefix_len '/') w
  { run with searches := path_prefix_len :: run.searches }

/-- The number of separators in a path string. -/
def separators (path : CStr) : Nat := path.count '/'

/-- The state in which the block loop of `iop_cp` starts: the destination is
open, and cancellation is enabled when the copy is cancellable. -/
def cpLoopEnter (args : io_args_t) (w : World) : World :=
  if args.cancellable = true then ui_cancellation_enable w else w

/-- The state `iop_cp` returns after its block loop ended in `w`. -/
def cpLoopLeave (args : io_args_t) (w : World) : World :=
  if args.cancellable = true then ui_cancellation_disable w else w

/-- No symbolic link comes into being from `fs` to `fs2`: every link of `fs2`
is a link of `fs` at the same path with the same contents. -/
def NoNewLinks (fs fs2 : Node) : Prop :=
  ∀ q t, lookupIn fs2 q = some (.link t) → lookupIn fs q = some (.link t)

/-- No symbolic link at or below the path `D`. -/
def NoLinkUnder (D : Path) (fs : Node) : Prop :=
  ∀ q t, D <+: q → lookupIn fs q ≠ some (.link t)

/-- Every entry outside `U` that exists in `fs` still exists in `fs2`. -/
def KeepOut (U : Path → Prop) (fs fs2 : Node) : Prop :=
  ∀ q, ¬ U q → (lookupIn fs q).isSome = true → (lookupIn fs2 q).isSome = true

/-- The state with the silenced flag of the progress tracker, when there is a
tracker, set to `b`. -/
def World.withSilent (w : World) (b : Bool) : World :=
  { w with estim := w.estim.map (fun e => { e with silent := b }) }

/-! ## Sample states -/

/-- A small tree: `a` (mode 0705) holds the file `f` and the empty directory
`s`; `b` is an empty directory. -/
def demoRoot : Node :=
  .dir 0o755
    (.dir "a".toList 0o705
      (.file "f".toList 0o600 [1, 2, 3] (.dir "s".toList 0o711 .nil .nil))
      (.dir "b".toList 0o755 .nil .nil))

/-- The sample tree in a quiet environment: umask 022, one device, no
cancellation request, no write fault, no tracker. -/
def demoWorld : World :=
  { fs := demoRoot, umask := 0o022, xdev := false, atomic_replace := true,
    cancelAt := none, clock := 0, cancelDepth := 0, wfault := none, estim := none }

/-- Copy the file `a/f` onto the existing directory `b`. -/
def demoCpOntoDir : io_args_t := { arg1 := "a/f".toList, arg2 := "b".toList }

/-- Copy `a` into its own subtree, replacing the destination. -/
def demoCpInside : io_args_t :=
  { arg1 := "a".toList, arg2 := "a/s/t".toList, crs := .IO_CRS_REPLACE_ALL }

/-- Copy the file `a/f` to the new name `b/g`. -/
def demoCpFresh : io_args_t := { arg1 := "a/f".toList, arg2 := "b/g".toList }

/-- The sample tree with a file `g` (four bytes) already in `b`. -/
def demoWorld2 : World :=
  { demoWorld with
    fs := .dir 0o755
      (.dir "a".toList 0o705
        (.file "f".toList 0o600 [1, 2, 3] (.dir "s".toList 0o711 .nil .nil))
        (.dir "b".toList 0o755 (.file "g".toList 0o644 [9, 9, 9, 9] .nil) .nil)) }

/-- Copy the file `a/f` over `b/g`, replacing it. -/
def demoCpReplace : io_args_t :=
  { arg1 := "a/f".toList, arg2 := "b/g".toList, crs := .IO_CRS_REPLACE_ALL }

/-- Remove the path `nope`, which does not exist in the sample tree. -/
def demoRmAbsent : io_args_t := { arg1 := "nope".toList }

/-- Create `/x/y` and its parents (an absolute path). -/
def demoMkdirAbs : io_args_t := { arg1 := "/x/y".toList, process_parents := true }

/-- Create the directory `d` with all permission bits requested. -/
def demoMkdirMode : io_args_t := { arg1 := "d".toList, mode := 0o777 }

/-- Create `p/q` and its parents with all permission bits requested. -/
def demoMkdirModeParents : io_args_t :=
  { arg1 := "p/q".toList, mode := 0o777, process_parents := true }

/-- The sample tree under an empty umask. -/
def demoWorldNoUmask : World := { demoWorld with umask := 0 }

/-- Copy the directory `a` (mode 0705) to the new name `b/c`. -/
def demoCpTree : io_args_t := { arg1 := "a".toList, arg2 := "b/c".toList }

/-- The state after `demoCpTree` in the sample tree. -/
def demoAfterCpTree : World :=
  match ior_cp 3 demoCpTree demoWorld with
  | some r => r.2
  | none => demoWorld

/-- Copy the directory `a` (mode 0705) to `b/x/c`, where `b/x` is missing too. -/
def demoCpDeep : io_args_t := { arg1 := "a".toList, arg2 := "b/x/c".toList }

/-- The state after `demoCpDeep` in the sample tree. -/
def demoAfterCpDeep : World :=
  match ior_cp 3 demoCpDeep demoWorld with
  | some r => r.2
  | none => demoWorld

/-- Move the directory `a` to the new name `b/c`. -/
def demoMvTree : io_args_t := { arg1 := "a".toList, arg2 := "b/c".toList }

/-- Move the file `a/f` (mode 0600) to the new name `b/g`. -/
def demoMvFile : io_args_t := { arg1 := "a/f".toList, arg2 := "b/g".toList }

/-- A tree with the file `f` and a symbolic link `l` to it. -/
def demoLinkWorld : World :=
  { demoWorld with
    fs := .dir 0o755 (.file "f".toList 0o644 [7] (.link "l".toList "f".toList .nil)) }

/-- Move the file `a/f` onto the existing directory `b`. -/
def demoMvOnto : io_args_t := { arg1 := "a/f".toList, arg2 := "b".toList }

/-- Move the file `a/f` to the missing name `b/g` with policy AppendToFiles. -/
def demoMvFileAppend : io_args_t := { demoMvFile with crs := .IO_CRS_APPEND_TO_FILES }

/-- Move the missing path `nope` onto the file `a/f` with policy AppendToFiles. -/
def demoMvAbsentAppend : io_args_t :=
  { arg1 := "nope".toList, arg2 := "a/f".toList, crs := .IO_CRS_APPEND_TO_FILES }

/-- Move the missing path `nope` to the new name `b/g`. -/
def demoMvAbsent : io_args_t := { arg1 := "nope".toList, arg2 := "b/g".toList }

/-- A tree with the empty directory `A` next to the directory `a`, which holds
the file `f`. -/
def demoCaseWorld : World :=
  { demoWorld with
    fs := .dir 0o755
      (.dir "A".toList 0o755 .nil (.dir "a".toList 0o755 (.file "f".toList 0o644 [5] .nil) .nil)) }

/-- Rename `A` to `a`, a change of case only. -/
def demoMvCase : io_args_t := { arg1 := "A".toList, arg2 := "a".toList }

/-- The sample tree on two devices, with a progress tracker that is not
silenced and a cancellation request that poll number `k` is the first to see. -/
def demoTrackedWorld (k : Nat) : World :=
  { demoWorld with
    xdev := true, cancelAt := some k,
    estim := some { silent := false, items := 4, bytes := 100 } }

/-- Move the directory `a` to the new name `b/c`, cancellably. -/
def demoMvTreeCancellable : io_args_t := { demoMvTree with cancellable := true }

/-- Create the link `l` with contents `a` over the existing link `l`,
overwriting. -/
def demoLnReplace : io_args_t :=
  { arg1 := "a".toList, arg2 := "l".toList, crs := .IO_CRS_REPLACE_FILES }

/-- The same request with policy Fail. -/
def demoLnFail : io_args_t := { arg1 := "a".toList, arg2 := "l".toList }

/-- Create the link `f` over the regular file `f`, overwriting. -/
def demoLnOverFile : io_args_t :=
  { arg1 := "a".toList, arg2 := "f".toList, crs := .IO_CRS_REPLACE_ALL }

/-- Move the file `a/f` onto the directory `b`, replacing files. -/
def demoMvFileOntoDir : io_args_t :=
  { arg1 := "a/f".toList, arg2 := "b".toList, crs := .IO_CRS_REPLACE_FILES }

/-- A stand-in for `ior_mv` that succeeds exactly when it is handed the
destination path `dst`. -/
def probeDst (dst : CStr) : io_args_t → World → Option (Int × World) :=
  fun a v => some (if a.arg2 = dst then 0 else 1, v)

/-- Create the directory `d`, with parent creation asked for. -/
def demoMkdirParents : io_args_t := { arg1 := "d".toList, process_parents := true }

/-- 9000 bytes: one full block and a part of a second one. -/
def demoBigContent : List Nat := List.replicate 9000 0

/-- A tree with the directory `d`, which holds the two-block file `big`, and
the empty directory `b`; poll number `k` is the first to see the cancellation
request. -/
def demoBigWorld (k : Nat) : World :=
  { demoWorld with
    fs := .dir 0o755
      (.dir "d".toList 0o750 (.file "big".toList 0o640 demoBigContent .nil)
        (.dir "b".toList 0o755 .nil .nil)),
    cancelAt := some k }

/-- Copy the file `d/big` to the new name `b/g`, cancellably. -/
def demoCpBig : io_args_t :=
  { arg1 := "d/big".toList, arg2 := "b/g".toList, cancellable := true }

/-- Copy the directory `d` to the new name `b/c`, cancellably. -/
def demoCpBigTree : io_args_t :=
  { arg1 := "d".toList, arg2 := "b/c".toList, cancellable := true }

/-- The state after the directory `b/c` has been made in `demoBigWorld k` at
the cost of one poll. -/
def demoBigWorldEntered (k : Nat) : World :=
  { demoBigWorld k with
    fs := .dir 0o755
      (.dir "d".toList 0o750 (.file "big".toList 0o640 demoBigContent .nil)
        (.dir "b".toList 0o755 (.dir "c".toList 0o755 .nil .nil) .nil)),
    clock := 1 }

/-- A menu of 4 lines in a window of 5 rows (3 lines shown), the cursor on the
last line. -/
def demoMenu : menu_info := { top := 0, pos := 3, len := 4, win_rows := 5 }

/-- A menu of 10 lines in a window of 6 rows (4 lines shown), the cursor on
line 5. -/
def demoMenuEven : menu_info := { top := 0, pos := 5, len := 10, win_rows := 6 }

/-- Move the file `a/f` onto the directory `a` that holds it, with policy
ReplaceAll. -/
def demoMvOntoParent : io_args_t :=
  { arg1 := "a/f".toList, arg2 := "a".toList, crs := .IO_CRS_REPLACE_ALL }

/-- A stand-in for `ior_rm` that removes nothing and succeeds exactly when it
is handed a silenced progress tracker. -/
def probeSilenced : io_args_t → World → Option (Int × World) :=
  fun _ v => some (if v.silenced = some true then 0 else 1, v)

/-! ## Lemmas -/

theorem comps_append_sep (a b : CStr) (cur : Name) :
    comps (a ++ '/' :: b) cur = comps a cur ++ comps b [] := by
  induction a generalizing cur with
  | nil => simp [comps]; split <;> simp
  | cons c a ih =>
    simp only [List.cons_append, comps]
    by_cases hc : c = '/'
    · simp only [hc, if_true]
      by_cases hcur : cur = []
      · simp [hcur, ih]
      · simp [hcur, ih]
    · simp [hc, ih]

theorem find_cons (x y : Name) (nd : Node) (r : Forest) :
    (Forest.cons x nd r).find y = if x = y then some nd else r.find y := by
  cases nd <;> simp [Forest.cons, Forest.find]

theorem find_put (f : Forest) (x y : Name) (nd : Node) :
    (f.put x nd).find y = if x = y then some nd else f.find y := by
  induction f with
  | nil => simp [Forest.put, find_cons, Forest.find]
  | file n m c r ih =>
    simp only [Forest.put]
    by_cases h : n = x
    · subst h; simp only [find_cons, Forest.find, if_true]; by_cases h2 : n = y <;> simp [h2]
    · simp only [h, if_false, Forest.find, ih]
      by_cases h2 : n = y
      · subst h2; simp [Ne.symm h]
      · simp [h2]
  | link n t r ih =>
    simp only [Forest.put]
    by_cases h : n = x
    · subst h; simp only [find_cons, Forest.find, if_true]; by_cases h2 : n = y <;> simp [h2]
    · simp only [h, if_false, Forest.find, ih]
      by_cases h2 : n = y
      · subst h2; simp [Ne.symm h]
      · simp [h2]
  | dir n m k r _ ih =>
    simp only [Forest.put]
    by_cases h : n = x
    · subst h; simp only [find_cons, Forest.find, if_true]; by_cases h2 : n = y <;> simp [h2]
    · simp only [h, if_false, Forest.find, ih]
      by_cases h2 : n = y
      · subst h2; simp [Ne.symm h]
      · simp [h2]

theorem find_erase (f : Forest) (x y : Name) :
    (f.erase x).find y = if x = y then none else f.find y := by
  induction f with
  | nil => simp [Forest.erase, Forest.find]
  | file n m c r ih =>
    simp only [Forest.erase]
    by_cases h : n = x
    · subst h; simp only [if_true, ih, Forest.find]; by_cases h2 : n = y <;> simp [h2]
    · simp only [h, if_false, Forest.find, ih]
      by_cases h2 : n = y
      · subst h2; simp [Ne.symm h]
      · simp [h2]
  | link n t r ih =>
    simp only [Forest.erase]
    by_cases h : n = x
    · subst h; simp only [if_true, ih, Forest.find]; by_cases h2 : n = y <;> simp [h2]
    · simp only [h, if_false, Forest.find, ih]
      by_cases h2 : n = y
      · subst h2; simp [Ne.symm h]
      · simp [h2]
  | dir n m k r _ ih =>
    simp only [Forest.erase]
    by_cases h : n = x
    · subst h; simp only [if_true, ih, Forest.find]; by_cases h2 : n = y <;> simp [h2]
    · simp only [h, if_false, Forest.find, ih]
      by_cases h2 : n = y
      · subst h2; simp [Ne.symm h]
      · simp [h2]

theorem put_put (f : Forest) (x : Name) (a b : Node) :
    (f.put x a).put x b = f.put x b := by
  induction f with
  | nil => cases a <;> simp [Forest.put, Forest.cons]
  | file n m c r ih =>
    simp only [Forest.put]
    by_cases h : n = x
    · subst h; cases a <;> simp [Forest.put, Forest.cons]
    · simp [h, Forest.put, ih]
  | link n t r ih =>
    simp only [Forest.put]
    by_cases h : n = x
    · subst h; cases a <;> simp [Forest.put, Forest.cons]
    · simp [h, Forest.put, ih]
  | dir n m k r _ ih =>
    simp only [Forest.put]
    by_cases h : n = x
    · subst h; cases a <;> simp [Forest.put, Forest.cons]
    · simp [h, Forest.put, ih]

theorem lookupIn_append (nd : Node) (p q : Path) :
    lookupIn nd (p ++ q) = (lookupIn nd p).bind (fun c => lookupIn c q) := by
  induction p generalizing nd with
  | nil => simp [lookupIn]
  | cons x p ih =>
    cases nd with
    | dir m k =>
      simp only [List.cons_append, lookupIn]
      cases k.find x with
      | none => simp
      | some c => simp [ih]
    | file m c => simp [lookupIn]
    | link t => simp [lookupIn]

theorem modifyIn_append (h : Node → Except Errno Node) (nd : Node) (p q : Path) :
    modifyIn h nd (p ++ q) = modifyIn (fun c => modifyIn h c q) nd p := by
  induction p generalizing nd with
  | nil => simp [modifyIn]
  | cons x p ih =>
    cases nd with
    | dir m k =>
      simp only [List.cons_append, modifyIn]
      cases k.find x with
      | none => simp
      | some c => simp [ih]
    | file m c => simp [modifyIn]
    | link t => simp [modifyIn]

/-- what modifyIn does, given the object at `p` -/
theorem modifyIn_ok (h : Node → Except Errno Node) (nd nd2 : Node) (p : Path)
    (hm : modifyIn h nd p = .ok nd2) :
    ∃ c c2, lookupIn nd p = some c ∧ h c = .ok c2 ∧ lookupIn nd2 p = some c2 := by
  induction p generalizing nd nd2 with
  | nil => exact ⟨nd, nd2, by simp [lookupIn], by simpa [modifyIn] using hm, by simp [lookupIn]⟩
  | cons x p ih =>
    cases nd with
    | dir m k =>
      simp only [modifyIn] at hm
      cases hf : k.find x with
      | none => simp [hf] at hm
      | some c =>
        simp only [hf] at hm
        cases hr : modifyIn h c p with
        | error e => simp [hr] at hm
        | ok c2 =>
          simp only [hr, Except.ok.injEq] at hm
          subst hm
          obtain ⟨d, d2, h1, h2, h3⟩ := ih c c2 hr
          exact ⟨d, d2, by simp [lookupIn, hf, h1], h2, by simp [lookupIn, find_put, h3]⟩
    | file m c => simp [modifyIn] at hm
    | link t => simp [modifyIn] at hm

/-- modifyIn only depends on what `h` does to the object found -/
theorem modifyIn_congr (h h2 : Node → Except Errno Node) (nd c : Node) (p : Path)
    (hl : lookupIn nd p = some c) (hh : h c = h2 c) :
    modifyIn h nd p = modifyIn h2 nd p := by
  induction p generalizing nd with
  | nil => simp [lookupIn] at hl; subst hl; simpa [modifyIn] using hh
  | cons x p ih =>
    cases nd with
    | dir m k =>
      simp only [lookupIn] at hl
      simp only [modifyIn]
      cases hf : k.find x with
      | none => simp [hf] at hl
      | some d =>
        simp only [hf] at hl
        simp [ih d hl]
    | file m c => simp [lookupIn] at hl
    | link t => simp [lookupIn] at hl

theorem modifyIn_modifyIn (h1 h2 : Node → Except Errno Node) (nd nd1 : Node) (p : Path)
    (hm : modifyIn h1 nd p = .ok nd1) :
    modifyIn h2 nd1 p = modifyIn (fun c => match h1 c with
      | .ok c1 => h2 c1
      | .error e => .error e) nd p := by
  induction p generalizing nd nd1 with
  | nil => simp only [modifyIn] at hm ⊢; simp [hm]
  | cons x p ih =>
    cases nd with
    | dir m k =>
      simp only [modifyIn] at hm
      cases hf : k.find x with
      | none => simp [hf] at hm
      | some c =>
        simp only [hf] at hm
        cases hr : modifyIn h1 c p with
        | error e => simp [hr] at hm
        | ok c2 =>
          simp only [hr, Except.ok.injEq] at hm
          subst hm
          simp only [modifyIn, find_put, if_true, hf, ih c c2 hr]
          cases modifyIn (fun c => match h1 c with
            | .ok c1 => h2 c1
            | .error e => .error e) c p with
          | error e => rfl
          | ok c3 => simp [put_put]
    | file m c => simp [modifyIn] at hm
    | link t => simp [modifyIn] at hm

/-- success of modifyIn from the object found -/
theorem modifyIn_isOk (h : Node → Except Errno Node) (nd c c2 : Node) (p : Path)
    (hl : lookupIn nd p = some c) (hh : h c = .ok c2) :
    ∃ nd2, modifyIn h nd p = .ok nd2 := by
  induction p generalizing nd with
  | nil => simp [lookupIn] at hl; subst hl; exact ⟨c2, by simpa [modifyIn] using hh⟩
  | cons x p ih =>
    cases nd with
    | dir m k =>
      simp only [lookupIn] at hl
      cases hf : k.find x with
      | none => simp [hf] at hl
      | some d =>
        simp only [hf] at hl
        obtain ⟨d2, hd⟩ := ih d hl
        exact ⟨.dir m (k.put x d2), by simp [modifyIn, hf, hd]⟩
    | file m c => simp [lookupIn] at hl
    | link t => simp [lookupIn] at hl

/-- frame: objects at places not comparable with `p` are untouched -/
theorem lookupIn_modifyIn_frame (h : Node → Except Errno Node) (nd nd2 : Node) (p q : Path)
    (hm : modifyIn h nd p = .ok nd2) (h1 : ¬ p <+: q) (h2 : ¬ q <+: p) :
    lookupIn nd2 q = lookupIn nd q := by
  induction p generalizing nd nd2 q with
  | nil => exact absurd List.nil_prefix h1
  | cons x p ih =>
    cases q with
    | nil => exact absurd List.nil_prefix h2
    | cons y q =>
      cases nd with
      | dir m k =>
        simp only [modifyIn] at hm
        cases hf : k.find x with
        | none => simp [hf] at hm
        | some c =>
          simp only [hf] at hm
          cases hr : modifyIn h c p with
          | error e => simp [hr] at hm
          | ok c2 =>
            simp only [hr, Except.ok.injEq] at hm
            subst hm
            simp only [lookupIn, find_put]
            by_cases hxy : x = y
            · subst hxy
              simp only [if_true, hf]
              apply ih c c2 q hr
              · intro hp; exact h1 (by simpa using hp)
              · intro hp; exact h2 (by simpa using hp)
            · simp [hxy]
      | file m c => simp [modifyIn] at hm
      | link t => simp [modifyIn] at hm

theorem alter_concat (g : Option Node → Except Errno (Option Node)) (root : Node) (P : Path)
    (x : Name) : alter g root (P ++ [x]) = modifyIn (alterEntry g x) root P := by
  simp [alter]

theorem put_find_self (f : Forest) (x : Name) (c : Node) (h : f.find x = some c) :
    f.put x c = f := by
  induction f with
  | nil => simp [Forest.find] at h
  | file n m d r ih =>
    simp only [Forest.find] at h
    by_cases hn : n = x
    · subst hn; simp only [if_true, Option.some.injEq] at h; subst h; simp [Forest.put, Forest.cons]
    · simp only [hn, if_false] at h; simp [Forest.put, hn, ih h]
  | link n t r ih =>
    simp only [Forest.find] at h
    by_cases hn : n = x
    · subst hn; simp only [if_true, Option.some.injEq] at h; subst h; simp [Forest.put, Forest.cons]
    · simp only [hn, if_false] at h; simp [Forest.put, hn, ih h]
  | dir n m k r _ ih =>
    simp only [Forest.find] at h
    by_cases hn : n = x
    · subst hn; simp only [if_true, Option.some.injEq] at h; subst h; simp [Forest.put, Forest.cons]
    · simp only [hn, if_false] at h; simp [Forest.put, hn, ih h]

theorem erase_absent (f : Forest) (x : Name) (h : f.find x = none) : f.erase x = f := by
  induction f with
  | nil => rfl
  | file n m d r ih =>
    simp only [Forest.find] at h
    by_cases hn : n = x
    · simp [hn] at h
    · simp only [hn, if_false] at h; simp [Forest.erase, hn, ih h]
  | link n t r ih =>
    simp only [Forest.find] at h
    by_cases hn : n = x
    · simp [hn] at h
    · simp only [hn, if_false] at h; simp [Forest.erase, hn, ih h]
  | dir n m k r _ ih =>
    simp only [Forest.find] at h
    by_cases hn : n = x
    · simp [hn] at h
    · simp only [hn, if_false] at h; simp [Forest.erase, hn, ih h]

theorem modifyIn_self (nd c : Node) (p : Path) (hl : lookupIn nd p = some c) :
    modifyIn (fun _ => .ok c) nd p = .ok nd := by
  induction p generalizing nd with
  | nil => simp [lookupIn] at hl; subst hl; simp [modifyIn]
  | cons x p ih =>
    cases nd with
    | dir m k =>
      simp only [lookupIn] at hl
      cases hf : k.find x with
      | none => simp [hf] at hl
      | some d =>
        simp only [hf] at hl
        simp [modifyIn, hf, ih d hl, put_find_self k x d hf]
    | file m c => simp [lookupIn] at hl
    | link t => simp [lookupIn] at hl

/-- The entry at `P ++ [x]`, read off the directory at `P`. -/
theorem lookupIn_entry (root : Node) (P : Path) (x : Name) (m : Nat) (k : Forest)
    (hP : lookupIn root P = some (.dir m k)) (q : Path) :
    lookupIn root (P ++ x :: q) = (k.find x).bind (fun c => lookupIn c q) := by
  rw [lookupIn_append, hP]
  simp only [Option.some_bind, lookupIn]
  cases k.find x <;> rfl

theorem modifyIn_error (h : Node → Except Errno Node) (nd c : Node) (p : Path) (e : Errno)
    (hl : lookupIn nd p = some c) (hh : h c = .error e) : modifyIn h nd p = .error e := by
  induction p generalizing nd with
  | nil => simp [lookupIn] at hl; subst hl; simpa [modifyIn] using hh
  | cons x p ih =>
    cases nd with
    | dir m k =>
      simp only [lookupIn] at hl
      cases hf : k.find x with
      | none => simp [hf] at hl
      | some d =>
        simp only [hf] at hl
        simp [modifyIn, hf, ih d hl]
    | file m c => simp [lookupIn] at hl
    | link t => simp [lookupIn] at hl

/-- An entry rewrite, given the directory that holds the entry. -/
theorem alter_eq (g : Option Node → Except Errno (Option Node)) (root : Node) (P : Path)
    (x : Name) (m : Nat) (k : Forest) (hP : lookupIn root P = some (.dir m k)) :
    alter g root (P ++ [x]) =
      match g (k.find x) with
      | .ok o => setEntry root (P ++ [x]) o
      | .error e => .error e := by
  rw [alter_concat]
  cases hg : g (k.find x) with
  | error e => exact modifyIn_error _ _ _ _ _ hP (by simp [alterEntry, hg])
  | ok o =>
    simp only [setEntry, alter_concat]
    exact modifyIn_congr _ _ _ _ _ hP (by simp [alterEntry, hg])

/-- Setting an entry succeeds as soon as its parent is a directory. -/
theorem setEntry_ok (root : Node) (P : Path) (x : Name) (m : Nat) (k : Forest)
    (hP : lookupIn root P = some (.dir m k)) (o : Option Node) :
    ∃ r1, setEntry root (P ++ [x]) o = .ok r1 := by
  simp only [setEntry, alter_concat]
  cases o with
  | none => exact modifyIn_isOk _ _ _ (.dir m (k.erase x)) _ hP (by simp [alterEntry])
  | some nd => exact modifyIn_isOk _ _ _ (.dir m (k.put x nd)) _ hP (by simp [alterEntry])

/-- A successful entry update had a directory as parent. -/
theorem setEntry_parent (root r1 : Node) (P : Path) (x : Name) (o : Option Node)
    (hs : setEntry root (P ++ [x]) o = .ok r1) :
    ∃ m k, lookupIn root P = some (.dir m k) := by
  simp only [setEntry, alter_concat] at hs
  obtain ⟨c, c2, h1, h2, _⟩ := modifyIn_ok _ _ _ _ hs
  cases c with
  | dir m k => exact ⟨m, k, h1⟩
  | file m d => simp [alterEntry] at h2
  | link t => simp [alterEntry] at h2

/-- Reading below an entry that was just set. -/
theorem lookupIn_setEntry (root r1 : Node) (P : Path) (x : Name) (o : Option Node)
    (hs : setEntry root (P ++ [x]) o = .ok r1) (q : Path) :
    lookupIn r1 (P ++ x :: q) = o.bind (fun c => lookupIn c q) := by
  simp only [setEntry, alter_concat] at hs
  obtain ⟨c, c2, h1, h2, h3⟩ := modifyIn_ok _ _ _ _ hs
  cases c with
  | dir m k =>
    cases o with
    | none =>
      simp only [alterEntry, Except.ok.injEq] at h2; subst h2
      rw [lookupIn_entry r1 P x m _ h3]; simp [find_erase]
    | some nd =>
      simp only [alterEntry, Except.ok.injEq] at h2; subst h2
      rw [lookupIn_entry r1 P x m _ h3]; simp [find_put]
  | file m d => simp [alterEntry] at h2
  | link t => simp [alterEntry] at h2

theorem lookupIn_setEntry_self (root r1 : Node) (P : Path) (x : Name) (o : Option Node)
    (hs : setEntry root (P ++ [x]) o = .ok r1) :
    lookupIn r1 (P ++ [x]) = o := by
  rw [lookupIn_setEntry root r1 P x o hs []]
  cases o <;> simp [lookupIn]

/-- An update of the object at an entry that was just set. -/
theorem modifyIn_setEntry (h : Node → Except Errno Node) (root r1 : Node)
    (P : Path) (x : Name) (c : Node)
    (hs : setEntry root (P ++ [x]) (some c) = .ok r1) :
    modifyIn h r1 (P ++ [x]) =
      match h c with
      | .ok c2 => setEntry root (P ++ [x]) (some c2)
      | .error e => .error e := by
  obtain ⟨m, k, hP⟩ := setEntry_parent _ _ _ _ _ hs
  simp only [setEntry, alter_concat] at hs ⊢
  rw [modifyIn_append, modifyIn_modifyIn _ _ _ _ _ hs]
  cases hg : h c with
  | error e =>
    apply modifyIn_error _ _ _ _ _ hP
    simp [alterEntry, modifyIn, find_put, hg]
  | ok c2 =>
    apply modifyIn_congr _ _ _ _ _ hP
    simp [alterEntry, modifyIn, find_put, hg, put_put]

/-- Frame: an entry rewrite leaves every place alone that is neither at or
below the entry nor above it. -/
theorem lookupIn_alter_frame (g : Option Node → Except Errno (Option Node)) (root r1 : Node)
    (p q : Path) (hs : alter g root p = .ok r1) (h1 : ¬ p <+: q) (h2 : ¬ q <+: p) :
    lookupIn r1 q = lookupIn root q := by
  rcases List.eq_nil_or_concat p with hp | ⟨P, x, hp⟩
  · subst hp; exact absurd List.nil_prefix h1
  · subst hp
    rw [List.concat_eq_append] at hs h1 h2
    rw [alter_concat] at hs
    by_cases hPq : P <+: q
    · obtain ⟨r, hr⟩ := hPq
      subst hr
      obtain ⟨c, c2, hc1, hc2, hc3⟩ := modifyIn_ok _ _ _ _ hs
      cases r with
      | nil => exact absurd (by simp) h2
      | cons y r =>
        have hxy : x ≠ y := by
          intro hxy; subst hxy
          exact h1 ⟨r, by simp⟩
        cases c with
        | dir m k =>
          rw [lookupIn_entry root P y m k hc1]
          simp only [alterEntry] at hc2
          cases hg : g (k.find x) with
          | error e => simp [hg] at hc2
          | ok o =>
            cases o with
            | none =>
              simp only [hg, Except.ok.injEq] at hc2; subst hc2
              rw [lookupIn_entry r1 P y m _ hc3]; simp [find_erase, hxy]
            | some nd =>
              simp only [hg, Except.ok.injEq] at hc2; subst hc2
              rw [lookupIn_entry r1 P y m _ hc3]; simp [find_put, hxy]
        | file m d => simp [alterEntry] at hc2
        | link t => simp [alterEntry] at hc2
    · apply lookupIn_modifyIn_frame _ _ _ _ _ hs hPq
      intro hqP
      exact h2 (hqP.trans (List.prefix_append P [x]))

theorem chase_not_link (n : Nat) (fs : Node) (p : Path)
    (h : ∀ t, lookupIn fs p ≠ some (.link t)) : chase (n + 1) fs p = some p := by
  unfold chase
  split
  · rename_i t ht; exact absurd ht (h t)
  · rfl

theorem iop_cp_loop_quiet (cancellable : Bool) (root : Node) (P : Path) (x : Name) (m : Nat) :
    ∀ (fuel : Nat) (rest c : List Nat) (w : World),
      rest.length < fuel → w.wfault = none → (cancellable = true → w.cancelAt = none) →
      setEntry root (P ++ [x]) (some (.file m c)) = .ok w.fs →
      ∃ fs2 n, setEntry root (P ++ [x]) (some (.file m (c ++ rest))) = .ok fs2 ∧
        iop_cp_loop cancellable (P ++ [x]) fuel rest w =
          (0, { w with fs := fs2, clock := w.clock + n }) := by
  intro fuel
  induction fuel with
  | zero => intro rest c w h; omega
  | succ fuel ih =>
    intro rest c w hlen hwf hc hs
    unfold iop_cp_loop
    by_cases hb : (rest.take BLOCK_SIZE).length = 0
    · have hr : rest = [] := by
        cases rest with
        | nil => rfl
        | cons a r => simp [BLOCK_SIZE] at hb
      subst hr
      refine ⟨w.fs, 0, by simpa using hs, ?_⟩
      simp
    · simp only [hb, if_false]
      have hpoll : (if cancellable = true then ui_cancellation_requested w else (false, w)).1
          = false := by
        by_cases hcc : cancellable = true
        · simp [hcc, ui_cancellation_requested, hc hcc]
        · simp [hcc]
      simp only [hpoll, Bool.false_eq_true, if_false]
      generalize hw1 : (if cancellable = true then ui_cancellation_requested w else (false, w)).2
        = w1
      have hw1fs : w1.fs = w.fs := by
        subst hw1; by_cases hcc : cancellable = true <;> simp [hcc, ui_cancellation_requested]
      have hw1wf : w1.wfault = none := by
        subst hw1; by_cases hcc : cancellable = true <;> simp [hcc, ui_cancellation_requested, hwf]
      have hw1eq : ∃ n1, w1 = { w with clock := w.clock + n1 } := by
        subst hw1; by_cases hcc : cancellable = true
        · exact ⟨1, by simp [hcc, ui_cancellation_requested]⟩
        · exact ⟨0, by simp [hcc]⟩
      obtain ⟨n1, hn1⟩ := hw1eq
      obtain ⟨mP, kP, hP⟩ := setEntry_parent _ _ _ _ _ hs
      obtain ⟨fs3, hfs3⟩ := setEntry_ok root P x mP kP hP
        (some (.file m (c ++ rest.take BLOCK_SIZE)))
      have hwrite : os_fwrite w1 (P ++ [x]) (rest.take BLOCK_SIZE) =
          ((rest.take BLOCK_SIZE).length, { w1 with fs := fs3 }) := by
        unfold os_fwrite
        rw [hw1wf, hw1fs, modifyIn_setEntry _ root w.fs P x _ hs]
        simp [hfs3, hw1wf]
      simp only [hwrite, ne_eq, not_true_eq_false, if_false]
      have hlen2 : (rest.drop BLOCK_SIZE).length < fuel := by
        have : 0 < (rest.take BLOCK_SIZE).length := Nat.pos_of_ne_zero hb
        simp [BLOCK_SIZE] at this ⊢
        omega
      obtain ⟨fs2, n, h1, h2⟩ := ih (rest.drop BLOCK_SIZE) (c ++ rest.take BLOCK_SIZE)
        { w1 with fs := fs3 } hlen2 hw1wf (fun hcc => by subst hn1; simpa using hc hcc)
        (by simpa using hfs3)
      refine ⟨fs2, n1 + n, by simpa [List.append_assoc] using h1, ?_⟩
      rw [h2]
      subst hn1
      simp [Nat.add_assoc]

theorem setEntry_none_absent (root : Node) (P : Path) (x : Name) (m : Nat) (k : Forest)
    (hP : lookupIn root P = some (.dir m k)) (hx : lookupIn root (P ++ [x]) = none) :
    setEntry root (P ++ [x]) none = .ok root := by
  have hf : k.find x = none := by
    rw [lookupIn_entry root P x m k hP []] at hx
    cases hk : k.find x with
    | none => rfl
    | some c => simp [hk, lookupIn] at hx
  simp only [setEntry, alter_concat]
  rw [modifyIn_congr _ (fun _ => .ok (.dir m k)) _ _ _ hP (by simp [alterEntry, erase_absent k x hf])]
  exact modifyIn_self _ _ _ hP

theorem os_stat_of_plain (w : World) (s : CStr) (p : Path) (hr : resolve s = some p)
    (h : ∀ t, lookupIn w.fs p ≠ some (.link t)) : os_stat w s = lookupIn w.fs p := by
  simp [os_stat, hr, SYMLOOP_MAX, chase_not_link _ _ _ h]

theorem os_lstat_eq (w : World) (s : CStr) (p : Path) (hr : resolve s = some p) :
    os_lstat w s = lookupIn w.fs p := by
  simp [os_lstat, hr]

/-- What `iop_cp` does when the source is a readable regular file and the
destination entry is missing, or may be unlinked because the policy overwrites. -/
theorem iop_cp_creates (args : io_args_t) (w : World) (m : Nat) (C : List Nat)
    (P : Path) (x : Name) (mP : Nat) (kP : Forest)
    (hsrc : os_stat w args.arg1 = some (.file m C))
    (hres : resolve args.arg2 = some (P ++ [x]))
    (hpar : lookupIn w.fs P = some (.dir mP kP))
    (hdst : lookupIn w.fs (P ++ [x]) = none ∨
      (args.crs ≠ .IO_CRS_FAIL ∧
        ((∃ m2 C2, lookupIn w.fs (P ++ [x]) = some (.file m2 C2)) ∨
         (∃ t, lookupIn w.fs (P ++ [x]) = some (.link t)))))
    (hwf : w.wfault = none) (hc : args.cancellable = true → w.cancelAt = none) :
    ∃ fs1 fs2 n, setEntry w.fs (P ++ [x]) none = .ok fs1 ∧
      setEntry fs1 (P ++ [x]) (some (.file (maskMode 0o666 w.umask) C)) = .ok fs2 ∧
      iop_cp args w = (0, { w with fs := fs2, clock := w.clock + n }) := by
  obtain ⟨fs1, hfs1⟩ := setEntry_ok w.fs P x mP kP hpar none
  have hfs1x : lookupIn fs1 (P ++ [x]) = none := lookupIn_setEntry_self _ _ _ _ _ hfs1
  -- the parent is still a directory once the entry is gone
  have hpar1 : ∃ k1, lookupIn fs1 P = some (.dir mP k1) := by
    have hs := hfs1
    simp only [setEntry, alter_concat] at hs
    obtain ⟨c, c2, h1, h2, h3⟩ := modifyIn_ok _ _ _ _ hs
    rw [hpar] at h1; cases h1
    simp only [alterEntry, Except.ok.injEq] at h2
    exact ⟨_, by rw [h3, ← h2]⟩
  obtain ⟨k1, hpar1⟩ := hpar1
  obtain ⟨fs0, hfs0⟩ := setEntry_ok fs1 P x mP k1 hpar1 (some (.file (maskMode 0o666 w.umask) []))
  have hisdir : is_dir w args.arg1 = false := by simp [is_dir, hsrc]
  have hopen : fopen_rb w args.arg1 = some C := by simp [fopen_rb, hsrc]
  -- the state after the overwrite/exists step
  have hprep : (if (args.crs != IoCrs.IO_CRS_FAIL) = true then
        match os_unlink w args.arg2 with
        | .ok w2 => (Except.ok w2 : Except Int World)
        | .error e => if e ≠ .ENOENT then .error (-1) else .ok w
      else if path_exists w args.arg2 true = true then .error 1
      else .ok w) = .ok { w with fs := fs1 } := by
    rcases hdst with hnone | ⟨hcrs, hsome⟩
    · have hfs1eq : fs1 = w.fs := by
        have := setEntry_none_absent w.fs P x mP kP hpar hnone
        rw [hfs1] at this; exact (Except.ok.inj this)
      subst hfs1eq
      have hunl : os_unlink w args.arg2 = .error .ENOENT := by
        have hf : kP.find x = none := by
          rw [lookupIn_entry w.fs P x mP kP hpar []] at hnone
          cases hk : kP.find x with
          | none => rfl
          | some c => simp [hk, lookupIn] at hnone
        simp [os_unlink, hres, alter_eq _ _ _ _ _ _ hpar, hf]
      have hex : path_exists w args.arg2 true = false := by
        simp [path_exists, os_stat_of_plain w _ _ hres (by simp [hnone]), hnone]
      by_cases hov : (args.crs != IoCrs.IO_CRS_FAIL) = true
      · simp [hov, hunl]
      · simp [hov, hex]
    · have hov : (args.crs != IoCrs.IO_CRS_FAIL) = true := by simpa using hcrs
      have hunl : os_unlink w args.arg2 = .ok { w with fs := fs1 } := by
        have hx := lookupIn_entry w.fs P x mP kP hpar []
        rcases hsome with ⟨m2, C2, hl⟩ | ⟨t, hl⟩
        · rw [hl] at hx
          cases hk : kP.find x with
          | none => simp [hk] at hx
          | some c =>
            simp only [hk, Option.some_bind, lookupIn, Option.some.injEq] at hx
            subst hx
            simp [os_unlink, hres, alter_eq _ _ _ _ _ _ hpar, hk, hfs1]
        · rw [hl] at hx
          cases hk : kP.find x with
          | none => simp [hk] at hx
          | some c =>
            simp only [hk, Option.some_bind, lookupIn, Option.some.injEq] at hx
            subst hx
            simp [os_unlink, hres, alter_eq _ _ _ _ _ _ hpar, hk, hfs1]
      simp [hov, hunl]
  have hwb : fopen_wb { w with fs := fs1 } args.arg2 =
      some (P ++ [x], { w with fs := fs0 }) := by
    have hf : k1.find x = none := by
      rw [lookupIn_entry fs1 P x mP k1 hpar1 []] at hfs1x
      cases hk : k1.find x with
      | none => rfl
      | some c => simp [hk, lookupIn] at hfs1x
    simp [fopen_wb, hres, SYMLOOP_MAX, chase_not_link _ _ _ (by simp [hfs1x] : ∀ t,
      lookupIn fs1 (P ++ [x]) ≠ some (.link t)), alter_eq _ _ _ _ _ _ hpar1, hf, hfs0]
  obtain ⟨fs2, n, hfs2, hloop⟩ := iop_cp_loop_quiet args.cancellable fs1 P x
    (maskMode 0o666 w.umask) (C.length + 1) C []
    (if args.cancellable = true then ui_cancellation_enable { w with fs := fs0 }
      else { w with fs := fs0 })
    (by omega)
    (by by_cases hcc : args.cancellable = true <;> simp [hcc, ui_cancellation_enable, hwf])
    (by
      intro hcc
      simpa [hcc, ui_cancellation_enable] using hc hcc)
    (by by_cases hcc : args.cancellable = true <;> simp [hcc, ui_cancellation_enable, hfs0])
  refine ⟨fs1, fs2, n, hfs1, by simpa using hfs2, ?_⟩
  unfold iop_cp
  simp only [hisdir, Bool.false_eq_true, if_false, hopen, hprep, hwb, hloop]
  by_cases hcc : args.cancellable = true
  · simp [hcc, ui_cancellation_enable, ui_cancellation_disable]
  · simp [hcc]

theorem not_prefix_of_absent (root : Node) (p q : Path) (hp : lookupIn root p = none)
    (hq : lookupIn root q ≠ none) : ¬ p <+: q := by
  rintro ⟨r, rfl⟩
  rw [lookupIn_append, hp] at hq
  simp at hq

theorem lookupIn_below_leaf (c : Node) (r : Path) (hc : ∀ m k, c ≠ .dir m k) (hr : r ≠ []) :
    lookupIn c r = none := by
  cases r with
  | nil => exact absurd rfl hr
  | cons y r =>
    cases c with
    | dir m k => exact absurd rfl (hc m k)
    | file m d => simp [lookupIn]
    | link t => simp [lookupIn]

/-- Nothing that exists lies strictly below an object that is no directory. -/
theorem not_prefix_of_leaf (root : Node) (p q : Path) (c : Node)
    (hp : lookupIn root p = some c) (hc : ∀ m k, c ≠ .dir m k)
    (hq : lookupIn root q ≠ none) (hne : p ≠ q) : ¬ p <+: q := by
  rintro ⟨r, rfl⟩
  have hr : r ≠ [] := by
    intro h; subst h; simp at hne
  rw [lookupIn_append, hp] at hq
  simp [lookupIn_below_leaf c r hc hr] at hq

/-- A missing entry of an existing directory and an existing leaf are not
comparable as paths. -/
theorem incomparable_leaf_fresh (root : Node) (sp P : Path) (x : Name) (c : Node)
    (mP : Nat) (kP : Forest)
    (hsrc : lookupIn root sp = some c) (hc : ∀ m k, c ≠ .dir m k)
    (hpar : lookupIn root P = some (.dir mP kP))
    (hdst : lookupIn root (P ++ [x]) = none) :
    ¬ (P ++ [x]) <+: sp ∧ ¬ sp <+: (P ++ [x]) := by
  refine ⟨not_prefix_of_absent root _ _ hdst (by simp [hsrc]), ?_⟩
  intro h
  rcases List.prefix_concat_iff.mp h with h | h
  · rw [h, hdst] at hsrc; cases hsrc
  · by_cases hne : sp = P
    · subst hne; rw [hsrc] at hpar; cases hpar; exact hc _ _ rfl
    · exact not_prefix_of_leaf root sp P c hsrc hc (by simp [hpar]) hne h


/-- A successful entry rewrite saw the entry as it is. -/
theorem alter_ok_entry (g : Option Node → Except Errno (Option Node)) (root r1 : Node)
    (P : Path) (x : Name) (hs : alter g root (P ++ [x]) = .ok r1) :
    ∃ o, g (lookupIn root (P ++ [x])) = .ok o := by
  rw [alter_concat] at hs
  obtain ⟨c, c2, h1, h2, _⟩ := modifyIn_ok _ _ _ _ hs
  cases c with
  | dir m k =>
    have hx : lookupIn root (P ++ [x]) = k.find x := by
      rw [lookupIn_entry root P x m k h1 []]; cases k.find x <;> simp [lookupIn]
    rw [hx]
    simp only [alterEntry] at h2
    cases hg : g (k.find x) with
    | error e => simp [hg] at h2
    | ok o => exact ⟨o, rfl⟩
  | file m d => simp [alterEntry] at h2
  | link t => simp [alterEntry] at h2

theorem os_unlink_absent (v : World) (s : CStr) (habs : os_lstat v s = none) :
    ∃ e, os_unlink v s = .error e := by
  cases hu : os_unlink v s with
  | error e => exact ⟨e, rfl⟩
  | ok v2 =>
    exfalso
    unfold os_unlink at hu
    split at hu
    · cases hu
    · rename_i p hr
      simp only [os_lstat, hr] at habs
      split at hu
      · rename_i fs2 ha
        rcases List.eq_nil_or_concat p with hp | ⟨P, x, hp⟩
        · subst hp; simp [lookupIn] at habs
        · subst hp
          rw [List.concat_eq_append] at habs ha
          obtain ⟨o, ho⟩ := alter_ok_entry _ _ _ _ _ ha
          rw [habs] at ho
          cases ho
      · cases hu

/-- The visitor of removal on a path that does not exist: the unlink fails. -/
theorem ior_rm_absent_eq (fuel : Nat) (args : io_args_t) (w : World)
    (habs : os_lstat w args.arg1 = none) :
    ior_rm fuel args w = some (rm_visitor args.arg1 .VA_FILE args w) ∧
    (rm_visitor args.arg1 .VA_FILE args w).1 ≠ 0 ∧
    (rm_visitor args.arg1 .VA_FILE args w).2.fs = w.fs := by
  have hdir : entry_is_dir w args.arg1 = false := by simp [entry_is_dir, habs]
  refine ⟨by simp [ior_rm, traverse, hdir], ?_⟩
  unfold rm_visitor
  have hfs : (ui_cancellation_requested w).2.fs = w.fs := rfl
  by_cases hcan : args.cancellable = true
  · simp only [hcan, if_true]
    cases hp : (ui_cancellation_requested w).1 with
    | true => simp only [if_true]; exact ⟨by decide, hfs⟩
    | false =>
      obtain ⟨e, he⟩ := os_unlink_absent (ui_cancellation_requested w).2 args.arg1
        (by simpa [os_lstat, ui_cancellation_requested] using habs)
      simp only [Bool.false_eq_true, if_false, iop_rmfile, he]
      exact ⟨by decide, hfs⟩
  · obtain ⟨e, he⟩ := os_unlink_absent w args.arg1 habs
    simp [hcan, iop_rmfile, he]

theorem os_unlink_env (v v2 : World) (s : CStr) (h : os_unlink v s = .ok v2) :
    ∃ fs2, v2 = { v with fs := fs2 } := by
  unfold os_unlink at h
  split at h
  · cases h
  · split at h
    · cases h; exact ⟨_, rfl⟩
    · cases h

theorem os_rmdir_env (v v2 : World) (s : CStr) (h : os_rmdir v s = .ok v2) :
    ∃ fs2, v2 = { v with fs := fs2 } := by
  unfold os_rmdir at h
  split at h
  · cases h
  · split at h
    · cases h; exact ⟨_, rfl⟩
    · cases h

theorem os_mkdir_env (v v2 : World) (s : CStr) (mode : Nat) (h : os_mkdir v s mode = .ok v2) :
    ∃ fs2, v2 = { v with fs := fs2 } := by
  unfold os_mkdir at h
  split at h
  · cases h
  · cases h
  · split at h
    · cases h; exact ⟨_, rfl⟩
    · cases h

theorem os_chmod_env (v v2 : World) (s : CStr) (mode : Nat) (h : os_chmod v s mode = .ok v2) :
    ∃ fs2, v2 = { v with fs := fs2 } := by
  unfold os_chmod at h
  split at h
  · cases h
  · split at h
    · cases h
    · split at h
      · cases h; exact ⟨_, rfl⟩
      · cases h

theorem iop_rmfile_env (a : io_args_t) (v : World) :
    ∃ fs2, (iop_rmfile a v).2 = { v with fs := fs2 } := by
  unfold iop_rmfile
  cases h : os_unlink v a.arg1 with
  | error e => exact ⟨v.fs, rfl⟩
  | ok v2 => exact os_unlink_env v v2 _ h

theorem iop_rmdir_env (a : io_args_t) (v : World) :
    ∃ fs2, (iop_rmdir a v).2 = { v with fs := fs2 } := by
  unfold iop_rmdir
  cases h : os_rmdir v a.arg1 with
  | error e => exact ⟨v.fs, rfl⟩
  | ok v2 => exact os_rmdir_env v v2 _ h

theorem poll_not_yet (w : World) (k : Nat) (hreq : w.cancelAt = some k) (hk : ¬ k ≤ w.clock) :
    ui_cancellation_requested w = (false, { w with clock := w.clock + 1 }) := by
  simp [ui_cancellation_requested, hreq, hk]

theorem GrowP.refl (A : Path → Prop) (fs : Node) : GrowP A fs fs :=
  fun _ m k h => ⟨m, k, h, fun _ => rfl⟩

theorem GrowP.trans {A : Path → Prop} {a b c : Node} (h1 : GrowP A a b) (h2 : GrowP A b c) :
    GrowP A a c := by
  intro q m k h
  obtain ⟨m2, k2, hb, hm2⟩ := h1 q m k h
  obtain ⟨m3, k3, hc, hm3⟩ := h2 q m2 k2 hb
  exact ⟨m3, k3, hc, fun hA => (hm3 hA).trans (hm2 hA)⟩

theorem GrowP.mono {A B : Path → Prop} {a b : Node} (h : GrowP A a b)
    (hAB : ∀ q, A q → B q) : GrowP B a b := by
  intro q m k hq
  obtain ⟨m2, k2, hb, hm2⟩ := h q m k hq
  exact ⟨m2, k2, hb, fun hB => hm2 (fun hA => hB (hAB q hA))⟩

/-- An update below `p` leaves the directories above `p` in place, with their
permission bits. -/
theorem modifyIn_above (h : Node → Except Errno Node) (nd nd2 : Node) (p q : Path)
    (hm : modifyIn h nd p = .ok nd2) (hq : q <+: p) (hne : q ≠ p) (m : Nat) (k : Forest)
    (hl : lookupIn nd q = some (.dir m k)) :
    ∃ k2, lookupIn nd2 q = some (.dir m k2) := by
  induction p generalizing nd nd2 q with
  | nil =>
    have : q = [] := List.prefix_nil.mp hq
    exact absurd this hne
  | cons x p ih =>
    cases nd with
    | dir m0 k0 =>
      simp only [modifyIn] at hm
      cases hf : k0.find x with
      | none => simp [hf] at hm
      | some c =>
        simp only [hf] at hm
        cases hr : modifyIn h c p with
        | error e => simp [hr] at hm
        | ok c2 =>
          simp only [hr, Except.ok.injEq] at hm
          subst hm
          cases q with
          | nil =>
            simp only [lookupIn, Option.some.injEq, Node.dir.injEq] at hl
            exact ⟨k0.put x c2, by simp [lookupIn, hl.1]⟩
          | cons y q =>
            have hxy : y = x ∧ q <+: p := by simpa using hq
            obtain ⟨hy, hqp⟩ := hxy
            subst hy
            simp only [lookupIn, hf] at hl
            have hne2 : q ≠ p := fun hh => hne (by rw [hh])
            obtain ⟨k2, hk2⟩ := ih c c2 q hr hqp hne2 hl
            exact ⟨k2, by simp [lookupIn, find_put, hk2]⟩
    | file m c => simp [modifyIn] at hm
    | link t => simp [modifyIn] at hm

/-- Directories persist through an update at `p` when they persist in the
object that is updated. -/
theorem modifyIn_growP (A : Path → Prop) (h : Node → Except Errno Node) (nd nd2 : Node)
    (p : Path) (hm : modifyIn h nd p = .ok nd2)
    (hloc : ∀ c c2, lookupIn nd p = some c → h c = .ok c2 →
      GrowP (fun r => A (p ++ r)) c c2) :
    GrowP A nd nd2 := by
  intro q m k hl
  obtain ⟨c, c2, hc1, hc2, hc3⟩ := modifyIn_ok _ _ _ _ hm
  by_cases hpq : p <+: q
  · obtain ⟨r, rfl⟩ := hpq
    rw [lookupIn_append, hc1] at hl
    simp only [Option.some_bind] at hl
    obtain ⟨m2, k2, h2, hmm⟩ := hloc c c2 hc1 hc2 r m k hl
    exact ⟨m2, k2, by rw [lookupIn_append, hc3]; simpa using h2, hmm⟩
  · by_cases hqp : q <+: p
    · have hne : q ≠ p := fun hh => hpq (by rw [hh])
      obtain ⟨k2, hk2⟩ := modifyIn_above h nd nd2 p q hm hqp hne m k hl
      exact ⟨m, k2, hk2, fun _ => rfl⟩
    · rw [← lookupIn_modifyIn_frame h nd nd2 p q hm hpq hqp] at hl
      exact ⟨m, k, hl, fun _ => rfl⟩

/-- An entry rewrite that never succeeds on an existing directory keeps all
directories and their permission bits. -/
theorem alterEntry_grow (g : Option Node → Except Errno (Option Node)) (x : Name)
    (c c2 : Node) (hg : ∀ m k o, g (some (.dir m k)) ≠ .ok o)
    (hc : alterEntry g x c = .ok c2) : GrowP (fun _ => False) c c2 := by
  cases c with
  | file m d => simp [alterEntry] at hc
  | link t => simp [alterEntry] at hc
  | dir m0 k0 =>
    simp only [alterEntry] at hc
    intro q m k hl
    cases q with
    | nil =>
      simp only [lookupIn, Option.some.injEq, Node.dir.injEq] at hl
      cases hgo : g (k0.find x) with
      | error e => simp [hgo] at hc
      | ok o =>
        cases o with
        | none =>
          simp only [hgo, Except.ok.injEq] at hc; subst hc
          exact ⟨m, k0.erase x, by simp [lookupIn, hl.1], fun _ => rfl⟩
        | some nd =>
          simp only [hgo, Except.ok.injEq] at hc; subst hc
          exact ⟨m, k0.put x nd, by simp [lookupIn, hl.1], fun _ => rfl⟩
    | cons y q =>
      simp only [lookupIn] at hl
      have hyx : x ≠ y := by
        intro hxy; subst hxy
        cases hf : k0.find x with
        | none => simp [hf] at hl
        | some cx =>
          cases cx with
          | dir m1 k1 =>
            cases hgo : g (k0.find x) with
            | error e => simp [hgo] at hc
            | ok o => rw [hf] at hgo; exact hg m1 k1 o hgo
          | file m1 d1 =>
            simp only [hf] at hl
            cases q <;> simp [lookupIn] at hl
          | link t =>
            simp only [hf] at hl
            cases q <;> simp [lookupIn] at hl
      cases hgo : g (k0.find x) with
      | error e => simp [hgo] at hc
      | ok o =>
        cases o with
        | none =>
          simp only [hgo, Except.ok.injEq] at hc; subst hc
          exact ⟨m, k, by simpa [lookupIn, find_erase, hyx] using hl, fun _ => rfl⟩
        | some nd =>
          simp only [hgo, Except.ok.injEq] at hc; subst hc
          exact ⟨m, k, by simpa [lookupIn, find_put, hyx] using hl, fun _ => rfl⟩

theorem alter_grow (g : Option Node → Except Errno (Option Node)) (root r1 : Node) (p : Path)
    (hg : ∀ m k o, g (some (.dir m k)) ≠ .ok o)
    (hs : alter g root p = .ok r1) : GrowP (fun _ => False) root r1 := by
  rcases List.eq_nil_or_concat p with hp | ⟨P, x, hp⟩
  · subst hp; simp [alter] at hs
  · subst hp
    rw [List.concat_eq_append, alter_concat] at hs
    exact modifyIn_growP _ _ _ _ _ hs (fun c c2 _ hc => alterEntry_grow g x c c2 hg hc)

theorem os_mkdir_grow (w w2 : World) (s : CStr) (mode : Nat)
    (h : os_mkdir w s mode = .ok w2) : GrowP (fun _ => False) w.fs w2.fs := by
  unfold os_mkdir at h
  split at h
  · cases h
  · cases h
  · split at h
    · rename_i fs2 ha
      cases h
      exact alter_grow _ _ _ _ (by intro m k o; simp) ha
    · cases h

/-- After a successful mkdir the name designates a directory. -/
theorem os_mkdir_dir (w w2 : World) (s : CStr) (mode : Nat)
    (h : os_mkdir w s mode = .ok w2) :
    ∃ e m k, resolve s = some e ∧ lookupIn w2.fs e = some (.dir m k) := by
  unfold os_mkdir at h
  split at h
  · cases h
  · cases h
  · rename_i p hne hr
    split at h
    · rename_i fs2 ha
      cases h
      rcases List.eq_nil_or_concat p with hp | ⟨P, x, hp⟩
      · subst hp; simp [alter] at ha
      · subst hp
        simp only [List.concat_eq_append] at ha hr
        obtain ⟨o, ho⟩ := alter_ok_entry _ _ _ _ _ ha
        obtain ⟨c, c2, h1, h2, h3⟩ := modifyIn_ok _ _ _ _ (by rw [alter_concat] at ha; exact ha)
        cases c with
        | dir m k =>
          have hx : lookupIn w.fs (P ++ [x]) = k.find x := by
            rw [lookupIn_entry w.fs P x m k h1 []]; cases k.find x <;> simp [lookupIn]
          rw [hx] at ho
          cases hf : k.find x with
          | some c0 => simp [hf] at ho
          | none =>
            simp only [alterEntry, hf, Except.ok.injEq] at h2
            subst h2
            refine ⟨P ++ [x], maskMode mode w.umask, .nil, hr, ?_⟩
            show lookupIn fs2 (P ++ [x]) = _
            rw [lookupIn_entry _ P x m _ h3 []]
            simp [find_put, lookupIn]
        | file m d => simp [alterEntry] at h2
        | link t => simp [alterEntry] at h2
    · cases h

theorem os_unlink_grow (w w2 : World) (s : CStr)
    (h : os_unlink w s = .ok w2) : GrowP (fun _ => False) w.fs w2.fs := by
  unfold os_unlink at h
  split at h
  · cases h
  · split at h
    · rename_i fs2 ha
      cases h
      exact alter_grow _ _ _ _ (by intro m k o; simp) ha
    · cases h

theorem fopen_wb_grow (w w2 : World) (s : CStr) (q : Path)
    (h : fopen_wb w s = some (q, w2)) :
    GrowP (fun _ => False) w.fs w2.fs ∧ ∃ fs2, w2 = { w with fs := fs2 } := by
  unfold fopen_wb at h
  split at h
  · cases h
  · split at h
    · cases h
    · split at h
      · rename_i fs2 ha
        cases h
        exact ⟨alter_grow _ _ _ _ (by intro m k o; simp) ha, _, rfl⟩
      · cases h

theorem os_fwrite_grow (w : World) (out : Path) (block : List Nat) :
    GrowP (fun _ => False) w.fs (os_fwrite w out block).2.fs ∧
    (os_fwrite w out block).2.cancelAt = w.cancelAt ∧
    (os_fwrite w out block).2.umask = w.umask := by
  unfold os_fwrite
  split
  · exact ⟨GrowP.refl _ _, rfl, rfl⟩
  · split
    · rename_i fs2 ha
      refine ⟨?_, rfl, rfl⟩
      apply modifyIn_growP _ _ _ _ _ ha
      intro c c2 _ hc
      cases c with
      | file m d =>
        intro q m1 k1 hl
        cases q <;> simp [lookupIn] at hl
      | dir m k => simp at hc
      | link t => simp at hc
    · exact ⟨GrowP.refl _ _, rfl, rfl⟩

theorem iop_cp_loop_grow (cancellable : Bool) (out : Path) :
    ∀ (fuel : Nat) (rest : List Nat) (w : World),
      GrowP (fun _ => False) w.fs (iop_cp_loop cancellable out fuel rest w).2.fs := by
  intro fuel
  induction fuel with
  | zero => intro rest w; exact GrowP.refl _ _
  | succ fuel ih =>
    intro rest w
    unfold iop_cp_loop
    simp only
    split
    · exact GrowP.refl _ _
    · generalize hpo : (if cancellable = true then ui_cancellation_requested w else (false, w))
        = po
      have hpfs : po.2.fs = w.fs := by
        subst hpo
        by_cases hc : cancellable = true <;> simp [hc, ui_cancellation_requested]
      split
      · rw [hpfs]; exact GrowP.refl _ _
      · have hw := (os_fwrite_grow po.2 out (rest.take BLOCK_SIZE)).1
        rw [hpfs] at hw
        split
        · exact hw
        · exact GrowP.trans hw (ih _ _)

theorem iop_cp_grow (args : io_args_t) (w : World) :
    GrowP (fun _ => False) w.fs (iop_cp args w).2.fs := by
  unfold iop_cp
  simp only
  split
  · exact GrowP.refl _ _
  · split
    · exact GrowP.refl _ _
    · rename_i input hin
      have hprep : ∀ w1, (if (args.crs != IoCrs.IO_CRS_FAIL) = true then
            match os_unlink w args.arg2 with
            | .ok w2 => (Except.ok w2 : Except Int World)
            | .error e => if e ≠ .ENOENT then .error (-1) else .ok w
          else if path_exists w args.arg2 true = true then .error 1
          else .ok w) = .ok w1 → GrowP (fun _ => False) w.fs w1.fs := by
        intro w1 h
        split at h
        · split at h
          · rename_i w2 hu
            cases h
            exact os_unlink_grow _ _ _ hu
          · split at h
            · cases h
            · cases h; exact GrowP.refl _ _
        · split at h
          · cases h
          · cases h; exact GrowP.refl _ _
      split
      · exact GrowP.refl _ _
      · rename_i w1 hw1
        have h1 := hprep w1 hw1
        split
        · exact h1
        · rename_i out w2 hwb
          obtain ⟨h2, _⟩ := fopen_wb_grow _ _ _ _ hwb
          have h3 := iop_cp_loop_grow args.cancellable out (input.length + 1) input
            (if args.cancellable = true then ui_cancellation_enable w2 else w2)
          have hfs3 : (if args.cancellable = true then ui_cancellation_enable w2 else w2).fs
              = w2.fs := by
            by_cases hc : args.cancellable = true <;> simp [hc, ui_cancellation_enable]
          rw [hfs3] at h3
          have hfs4 : ∀ v : World,
              (if args.cancellable = true then ui_cancellation_disable v else v).fs = v.fs := by
            intro v
            by_cases hc : args.cancellable = true <;> simp [hc, ui_cancellation_disable]
          simp only [hfs4]
          exact GrowP.trans h1 (GrowP.trans h2 h3)

/-- A chmod on a name that designates a directory: the directory gets the
new bits, and nothing else changes its bits. -/
theorem os_chmod_dir (A : Path → Prop) (w w2 : World) (s : CStr) (mode : Nat) (e : Path)
    (m : Nat) (k : Forest) (hr : resolve s = some e)
    (hd : lookupIn w.fs e = some (.dir m k)) (hA : A e)
    (h : os_chmod w s mode = .ok w2) :
    GrowP A w.fs w2.fs ∧ lookupIn w2.fs e = some (.dir mode k) := by
  unfold os_chmod at h
  simp only [hr, SYMLOOP_MAX,
    chase_not_link _ _ _ (by simp [hd] : ∀ t, lookupIn w.fs e ≠ some (.link t))] at h
  split at h
  · rename_i fs2 ha
    cases h
    obtain ⟨c, c2, h1, h2, h3⟩ := modifyIn_ok _ _ _ _ ha
    rw [hd] at h1
    cases h1
    simp only [Except.ok.injEq] at h2
    subst h2
    refine ⟨?_, h3⟩
    apply modifyIn_growP _ _ _ _ _ ha
    intro c c2 hc1 hc2
    rw [hd] at hc1
    cases hc1
    simp only [Except.ok.injEq] at hc2
    subst hc2
    intro q m1 k1 hl
    cases q with
    | nil =>
      simp only [lookupIn, Option.some.injEq, Node.dir.injEq] at hl
      exact ⟨mode, k, by simp [lookupIn], fun hn => absurd (by simpa using hA) hn⟩
    | cons y q => exact ⟨m1, k1, by simpa [lookupIn] using hl, fun _ => rfl⟩
  · cases h

theorem components_slash (r0 : CStr) : components ('/' :: r0) = components r0 := by
  simp [components, comps]

theorem resolve_dstOf (args : io_args_t) (rel : CStr) (h2 : args.arg2 ≠ []) :
    resolve (dstOf args (args.arg1 ++ rel)) = some (components args.arg2 ++ components rel) := by
  unfold dstOf
  rw [List.drop_left]
  by_cases hr : rel = []
  · subst hr; simp [resolve, h2, components, comps]
  · simp only [hr, if_false]
    simp only [resolve, List.append_eq_nil, h2, false_and, if_false]
    unfold components
    rw [comps_append_sep]

theorem resolve_src_rel (args : io_args_t) (rel : CStr) (h1 : args.arg1 ≠ [])
    (hrel : RelOK rel) :
    resolve (args.arg1 ++ rel) = some (components args.arg1 ++ components rel) := by
  simp only [resolve, List.append_eq_nil, h1, false_and, if_false]
  rcases hrel with h | ⟨r0, h⟩
  · subst h; simp [components, comps]
  · subst h
    unfold components
    rw [comps_append_sep]
    simp [comps]

theorem join_paths_rel (a rel : CStr) (n : Name) :
    join_paths (a ++ rel) n = a ++ (rel ++ '/' :: n) := by
  simp [join_paths]

/-- The shape of `cp_visitor` once the poll is named. -/
theorem cp_visitor_eq (args : io_args_t) (full_path : CStr) (action : VisitAction) (w : World) :
    cp_visitor args full_path action w =
      if (polled args w).1 = true then some (VR_CANCELLED, (polled args w).2)
      else
        match action with
        | .VA_DIR_ENTER =>
          if args.crs ≠ .IO_CRS_REPLACE_FILES ∨
              is_dir (polled args w).2 (dstOf args full_path) = false then
            some (if (iop_mkdir (visitMkdirArgs args full_path) (polled args w).2).1 = 0
                then VR_OK else VR_ERROR,
              (iop_mkdir (visitMkdirArgs args full_path) (polled args w).2).2)
          else some (VR_SKIP_DIR_LEAVE, (polled args w).2)
        | .VA_FILE =>
          some (if (iop_cp (visitCpArgs args full_path) (polled args w).2).1 = 0
              then VR_OK else VR_ERROR,
            (iop_cp (visitCpArgs args full_path) (polled args w).2).2)
        | .VA_DIR_LEAVE =>
          match os_stat (polled args w).2 full_path with
          | some nd =>
            match os_chmod (polled args w).2 (dstOf args full_path)
                (st_mode nd &&& 0o7777) with
            | .ok w2 => some (VR_OK, w2)
            | .error _ => some (VR_ERROR, (polled args w).2)
          | none => some (VR_ERROR, (polled args w).2) := by
  unfold cp_visitor cp_mv_visitor dstOf polled visitMkdirArgs visitCpArgs st_mode dstOf
  cases action <;> rfl

theorem polled_fs (args : io_args_t) (w : World) : (polled args w).2.fs = w.fs := by
  unfold polled
  by_cases hc : args.cancellable = true <;> simp [hc, ui_cancellation_requested]

theorem cp_visitor_file_grow (args : io_args_t) (full_path : CStr) (w w2 : World)
    (r : VisitResult) (h : cp_visitor args full_path .VA_FILE w = some (r, w2)) :
    GrowP (fun _ => False) w.fs w2.fs := by
  rw [cp_visitor_eq] at h
  split at h
  · cases h; rw [polled_fs]; exact GrowP.refl _ _
  · simp only [Option.some.injEq, Prod.mk.injEq] at h
    rw [← h.2]
    have := iop_cp_grow (visitCpArgs args full_path) (polled args w).2
    rwa [polled_fs] at this

theorem drop_takeWhile_length (p : Char → Bool) :
    ∀ l : List Char, l.drop (l.takeWhile p).length = l.dropWhile p := by
  intro l
  induction l with
  | nil => rfl
  | cons a l ih =>
    by_cases h : p a = true
    · simp [List.takeWhile, List.dropWhile, h, ih]
    · simp [List.takeWhile, List.dropWhile, h]

theorem count_dropWhile_ne (c : Char) :
    ∀ l : List Char, (l.dropWhile (fun d => d != c)).count c = l.count c := by
  intro l
  induction l with
  | nil => rfl
  | cons a l ih =>
    by_cases h : a = c
    · subst h; simp [List.dropWhile]
    · have h2 : (a != c) = true := by simpa using h
      simp [List.dropWhile, h2, ih, List.count_cons, h]

theorem head_dropWhile_ne (c : Char) :
    ∀ (l : List Char) (d : Char), (l.dropWhile (fun d => d != c))[0]? = some d → d = c := by
  intro l
  induction l with
  | nil => intro d h; simp at h
  | cons a l ih =>
    intro d h
    by_cases hac : a = c
    · subst hac
      simp [List.dropWhile] at h
      exact h.symm
    · have h2 : (a != c) = true := by simpa using hac
      simp only [List.dropWhile, h2] at h
      exact ih d h

/-- The text from the position `until_first` answers on. -/
theorem drop_until_first (s : CStr) (start : Nat) (c : Char) :
    s.drop (until_first s start c) = (s.drop start).dropWhile (fun d => d != c) := by
  unfold until_first
  rw [← List.drop_drop]
  exact drop_takeWhile_length _ _

/-- What `until_first` answers points at the character searched for or at the
terminator. -/
theorem until_first_points (s : CStr) (start : Nat) (c d : Char)
    (h : s[until_first s start c]? = some d) : d = c := by
  have h0 : (s.drop (until_first s start c))[0]? = some d := by
    rw [List.getElem?_drop]; simpa using h
  rw [drop_until_first] at h0
  exact head_dropWhile_ne c _ d h0

theorem noNewLinks_refl (a : Node) : NoNewLinks a a := fun _ _ h => h

theorem noNewLinks_trans {a b c : Node} (h1 : NoNewLinks a b) (h2 : NoNewLinks b c) :
    NoNewLinks a c := fun q t h => h1 q t (h2 q t h)

theorem NoLinkUnder.step {D : Path} {a b : Node} (h : NoLinkUnder D a) (hn : NoNewLinks a b) :
    NoLinkUnder D b := fun q t hq hl => h q t hq (hn q t hl)

/-- What lies on the way to an existing object is a directory. -/
theorem lookupIn_prefix_dir (nd : Node) (q r : Path) (c : Node) (hr : r ≠ [])
    (h : lookupIn nd (q ++ r) = some c) : ∃ m k, lookupIn nd q = some (.dir m k) := by
  rw [lookupIn_append] at h
  cases hq : lookupIn nd q with
  | none => simp [hq] at h
  | some d =>
    cases d with
    | dir m k => exact ⟨m, k, rfl⟩
    | file m x =>
      simp only [hq, Option.some_bind] at h
      rw [lookupIn_below_leaf _ r (by intro m k hh; cases hh) hr] at h
      cases h
    | link t =>
      simp only [hq, Option.some_bind] at h
      rw [lookupIn_below_leaf _ r (by intro m k hh; cases hh) hr] at h
      cases h

theorem modifyIn_noNewLinks (h : Node → Except Errno Node) (nd nd2 : Node) (p : Path)
    (hm : modifyIn h nd p = .ok nd2)
    (hloc : ∀ c c2, lookupIn nd p = some c → h c = .ok c2 → NoNewLinks c c2) :
    NoNewLinks nd nd2 := by
  intro q t hl
  obtain ⟨c, c2, hc1, hc2, hc3⟩ := modifyIn_ok _ _ _ _ hm
  by_cases hpq : p <+: q
  · obtain ⟨r, rfl⟩ := hpq
    rw [lookupIn_append, hc3] at hl
    simp only [Option.some_bind] at hl
    have := hloc c c2 hc1 hc2 r t hl
    rw [lookupIn_append, hc1]
    simpa using this
  · by_cases hqp : q <+: p
    · exfalso
      have hne : q ≠ p := fun hh => hpq (by rw [hh])
      obtain ⟨r, hr⟩ := hqp
      have hrne : r ≠ [] := by
        intro h0; subst h0; simp at hr; exact hne hr
      obtain ⟨m, k, hd⟩ := lookupIn_prefix_dir nd q r c hrne (by rw [hr]; exact hc1)
      obtain ⟨k2, hk2⟩ := modifyIn_above h nd nd2 p q hm ⟨r, hr⟩ hne m k hd
      rw [hk2] at hl
      cases hl
    · rw [lookupIn_modifyIn_frame h nd nd2 p q hm hpq hqp] at hl
      exact hl

/-- An entry rewrite that only puts in objects free of links creates no link. -/
theorem alterEntry_noNewLinks (g : Option Node → Except Errno (Option Node)) (x : Name)
    (c c2 : Node)
    (hg : ∀ o nd, g o = .ok (some nd) → ∀ r t, lookupIn nd r ≠ some (.link t))
    (hc : alterEntry g x c = .ok c2) : NoNewLinks c c2 := by
  cases c with
  | file m d => simp [alterEntry] at hc
  | link t => simp [alterEntry] at hc
  | dir m0 k0 =>
    simp only [alterEntry] at hc
    intro q t hl
    cases hgo : g (k0.find x) with
    | error e => simp [hgo] at hc
    | ok o =>
      cases o with
      | none =>
        simp only [hgo, Except.ok.injEq] at hc; subst hc
        cases q with
        | nil => simp [lookupIn] at hl
        | cons y q =>
          simp only [lookupIn, find_erase] at hl ⊢
          by_cases hxy : x = y
          · simp [hxy] at hl
          · simpa [hxy] using hl
      | some nd =>
        simp only [hgo, Except.ok.injEq] at hc; subst hc
        cases q with
        | nil => simp [lookupIn] at hl
        | cons y q =>
          simp only [lookupIn, find_put] at hl ⊢
          by_cases hxy : x = y
          · simp only [hxy, if_true] at hl
            exact absurd hl (hg _ nd hgo q t)
          · simpa [hxy] using hl

theorem alter_noNewLinks (g : Option Node → Except Errno (Option Node)) (root r1 : Node)
    (p : Path) (hg : ∀ o nd, g o = .ok (some nd) → ∀ r t, lookupIn nd r ≠ some (.link t))
    (hs : alter g root p = .ok r1) : NoNewLinks root r1 := by
  rcases List.eq_nil_or_concat p with hp | ⟨P, x, hp⟩
  · subst hp; simp [alter] at hs
  · subst hp
    rw [List.concat_eq_append, alter_concat] at hs
    exact modifyIn_noNewLinks _ _ _ _ hs (fun c c2 _ hc => alterEntry_noNewLinks g x c c2 hg hc)

theorem leaf_no_link (m : Nat) (d : List Nat) (r : Path) (t : CStr) :
    lookupIn (.file m d) r ≠ some (.link t) := by
  cases r <;> simp [lookupIn]

theorem empty_dir_no_link (m : Nat) (r : Path) (t : CStr) :
    lookupIn (.dir m .nil) r ≠ some (.link t) := by
  cases r <;> simp [lookupIn, Forest.find]

theorem os_mkdir_noNewLinks (w w2 : World) (s : CStr) (mode : Nat)
    (h : os_mkdir w s mode = .ok w2) : NoNewLinks w.fs w2.fs := by
  unfold os_mkdir at h
  split at h
  · cases h
  · cases h
  · split at h
    · rename_i fs2 ha
      cases h
      refine alter_noNewLinks _ _ _ _ ?_ ha
      intro o nd ho r t
      cases o with
      | none =>
        simp only [Except.ok.injEq, Option.some.injEq] at ho
        subst ho
        exact empty_dir_no_link _ r t
      | some c => simp at ho
    · cases h

theorem os_unlink_noNewLinks (w w2 : World) (s : CStr)
    (h : os_unlink w s = .ok w2) : NoNewLinks w.fs w2.fs := by
  unfold os_unlink at h
  split at h
  · cases h
  · split at h
    · rename_i fs2 ha
      cases h
      refine alter_noNewLinks _ _ _ _ ?_ ha
      intro o nd ho r t
      cases o with
      | none => simp at ho
      | some c => cases c <;> simp at ho
    · cases h

theorem fopen_wb_noNewLinks (w w2 : World) (s : CStr) (q : Path)
    (h : fopen_wb w s = some (q, w2)) : NoNewLinks w.fs w2.fs := by
  unfold fopen_wb at h
  split at h
  · cases h
  · split at h
    · cases h
    · split at h
      · rename_i fs2 ha
        cases h
        refine alter_noNewLinks _ _ _ _ ?_ ha
        intro o nd ho r t
        cases o with
        | none =>
          simp only [Except.ok.injEq, Option.some.injEq] at ho
          subst ho
          exact leaf_no_link _ _ r t
        | some c =>
          cases c with
          | file m d =>
            simp only [Except.ok.injEq, Option.some.injEq] at ho
            subst ho
            exact leaf_no_link _ _ r t
          | dir m k => simp at ho
          | link t0 => simp at ho
      · cases h

theorem os_fwrite_noNewLinks (w : World) (out : Path) (block : List Nat) :
    NoNewLinks w.fs (os_fwrite w out block).2.fs := by
  unfold os_fwrite
  split
  · exact noNewLinks_refl _
  · split
    · rename_i fs2 ha
      apply modifyIn_noNewLinks _ _ _ _ ha
      intro c c2 _ hc
      cases c with
      | file m d =>
        simp only [Except.ok.injEq] at hc
        subst hc
        intro q t hl
        exact absurd hl (leaf_no_link _ _ q t)
      | dir m k => simp at hc
      | link t => simp at hc
    · exact noNewLinks_refl _

theorem os_chmod_noNewLinks (w w2 : World) (s : CStr) (mode : Nat)
    (h : os_chmod w s mode = .ok w2) : NoNewLinks w.fs w2.fs := by
  unfold os_chmod at h
  split at h
  · cases h
  · split at h
    · cases h
    · split at h
      · rename_i fs2 ha
        cases h
        apply modifyIn_noNewLinks _ _ _ _ ha
        intro c c2 _ hc
        cases c with
        | file m d =>
          simp only [Except.ok.injEq] at hc
          subst hc
          intro q t hl
          exact absurd hl (leaf_no_link _ _ q t)
        | dir m k =>
          simp only [Except.ok.injEq] at hc
          subst hc
          intro q t hl
          cases q with
          | nil => simp [lookupIn] at hl
          | cons y q => simpa [lookupIn] using hl
        | link t => simp at hc
      · cases h

theorem iop_cp_loop_noNewLinks (cancellable : Bool) (out : Path) :
    ∀ (fuel : Nat) (rest : List Nat) (w : World),
      NoNewLinks w.fs (iop_cp_loop cancellable out fuel rest w).2.fs := by
  intro fuel
  induction fuel with
  | zero => intro rest w; exact noNewLinks_refl _
  | succ fuel ih =>
    intro rest w
    unfold iop_cp_loop
    simp only
    split
    · exact noNewLinks_refl _
    · generalize hpo : (if cancellable = true then ui_cancellation_requested w else (false, w))
        = po
      have hpfs : po.2.fs = w.fs := by
        subst hpo
        by_cases hc : cancellable = true <;> simp [hc, ui_cancellation_requested]
      split
      · rw [hpfs]; exact noNewLinks_refl _
      · have hw := os_fwrite_noNewLinks po.2 out (rest.take BLOCK_SIZE)
        rw [hpfs] at hw
        split
        · exact hw
        · exact noNewLinks_trans hw (ih _ _)

theorem iop_cp_noNewLinks (args : io_args_t) (w : World) :
    NoNewLinks w.fs (iop_cp args w).2.fs := by
  unfold iop_cp
  simp only
  split
  · exact noNewLinks_refl _
  · split
    · exact noNewLinks_refl _
    · rename_i input hin
      have hprep : ∀ w1, (if (args.crs != IoCrs.IO_CRS_FAIL) = true then
            match os_unlink w args.arg2 with
            | .ok w2 => (Except.ok w2 : Except Int World)
            | .error e => if e ≠ .ENOENT then .error (-1) else .ok w
          else if path_exists w args.arg2 true = true then .error 1
          else .ok w) = .ok w1 → NoNewLinks w.fs w1.fs := by
        intro w1 h
        split at h
        · split at h
          · rename_i w2 hu
            cases h
            exact os_unlink_noNewLinks _ _ _ hu
          · split at h
            · cases h
            · cases h; exact noNewLinks_refl _
        · split at h
          · cases h
          · cases h; exact noNewLinks_refl _
      split
      · exact noNewLinks_refl _
      · rename_i w1 hw1
        have h1 := hprep w1 hw1
        split
        · exact h1
        · rename_i out w2 hwb
          have h2 := fopen_wb_noNewLinks _ _ _ _ hwb
          have h3 := iop_cp_loop_noNewLinks args.cancellable out (input.length + 1) input
            (if args.cancellable = true then ui_cancellation_enable w2 else w2)
          have hfs3 : (if args.cancellable = true then ui_cancellation_enable w2 else w2).fs
              = w2.fs := by
            by_cases hc : args.cancellable = true <;> simp [hc, ui_cancellation_enable]
          rw [hfs3] at h3
          have hfs4 : ∀ v : World,
              (if args.cancellable = true then ui_cancellation_disable v else v).fs = v.fs := by
            intro v
            by_cases hc : args.cancellable = true <;> simp [hc, ui_cancellation_disable]
          simp only [hfs4]
          exact noNewLinks_trans h1 (noNewLinks_trans h2 h3)

theorem is_dir_of_lookup (w : World) (s : CStr) (p : Path) (m : Nat) (k : Forest)
    (hr : resolve s = some p) (hl : lookupIn w.fs p = some (.dir m k)) : is_dir w s = true := by
  unfold is_dir
  rw [os_stat_of_plain w s p hr (by simp [hl]), hl]

theorem is_dir_plain (w : World) (s : CStr) (p : Path) (hr : resolve s = some p)
    (hnl : ∀ t, lookupIn w.fs p ≠ some (.link t)) (hd : is_dir w s = true) :
    ∃ m k, lookupIn w.fs p = some (.dir m k) := by
  unfold is_dir at hd
  rw [os_stat_of_plain w s p hr hnl] at hd
  split at hd
  · rename_i m k hl; exact ⟨m, k, hl⟩
  · cases hd

/-- The loop of `iop_mkdir` keeps every directory with its permission bits and
creates no symbolic link. -/
theorem iop_mkdir_loop_grow (path : CStr) :
    ∀ (fuel sep_pos : Nat) (w : World),
      GrowP (fun _ => False) w.fs (iop_mkdir_loop path fuel sep_pos w).2.fs ∧
      NoNewLinks w.fs (iop_mkdir_loop path fuel sep_pos w).2.fs := by
  intro fuel
  induction fuel with
  | zero => intro sep_pos w; exact ⟨GrowP.refl _ _, noNewLinks_refl _⟩
  | succ fuel ih =>
    intro sep_pos w
    unfold iop_mkdir_loop
    simp only
    split
    · exact ⟨GrowP.refl _ _, noNewLinks_refl _⟩
    · rename_i w2 hm
      have hw2 : GrowP (fun _ => False) w.fs w2.fs ∧ NoNewLinks w.fs w2.fs := by
        split at hm
        · cases hm; exact ⟨GrowP.refl _ _, noNewLinks_refl _⟩
        · split at hm
          · rename_i w3 hk
            cases hm
            exact ⟨os_mkdir_grow _ _ _ _ hk, os_mkdir_noNewLinks _ _ _ _ hk⟩
          · cases hm
      split
      · obtain ⟨h1, h2⟩ := ih (until_first path (sep_pos + 1) '/') w2
        exact ⟨GrowP.trans hw2.1 h1, noNewLinks_trans hw2.2 h2⟩
      · exact hw2

theorem iop_mkdir_grow (a : io_args_t) (w : World) :
    GrowP (fun _ => False) w.fs (iop_mkdir a w).2.fs ∧
    NoNewLinks w.fs (iop_mkdir a w).2.fs := by
  unfold iop_mkdir
  simp only
  split
  · exact iop_mkdir_loop_grow _ _ _ _
  · split
    · rename_i w2 hk
      exact ⟨os_mkdir_grow _ _ _ _ hk, os_mkdir_noNewLinks _ _ _ _ hk⟩
    · exact ⟨GrowP.refl _ _, noNewLinks_refl _⟩

/-- A loop of `iop_mkdir` that returns 0 ended on the whole path, which then
designates a directory. -/
theorem iop_mkdir_loop_done (path : CStr) :
    ∀ (fuel sep_pos : Nat) (w : World),
      (iop_mkdir_loop path fuel sep_pos w).1 = 0 →
      is_dir (iop_mkdir_loop path fuel sep_pos w).2 path = true := by
  intro fuel
  induction fuel with
  | zero => intro sep_pos w h; simp [iop_mkdir_loop] at h
  | succ fuel ih =>
    intro sep_pos w
    unfold iop_mkdir_loop
    simp only
    split
    · intro h; simp at h
    · rename_i w2 hm
      split
      · exact ih _ _
      · rename_i hsep
        intro _
        have hn : path[sep_pos]? = none := by
          cases hq : path[sep_pos]? with
          | none => rfl
          | some c => simp [hq] at hsep
        have hlen := List.getElem?_eq_none_iff.mp hn
        rw [List.take_of_length_le hlen] at hm
        split at hm
        · rename_i hd
          cases hm
          exact hd
        · split at hm
          · rename_i w3 hk
            cases hm
            obtain ⟨e, m, k, hr, hl⟩ := os_mkdir_dir _ _ _ _ hk
            exact is_dir_of_lookup _ _ e m k hr hl
          · cases hm

theorem iop_mkdir_done (a : io_args_t) (w : World) (hp : a.process_parents = true)
    (h0 : (iop_mkdir a w).1 = 0) : is_dir (iop_mkdir a w).2 a.arg1 = true := by
  unfold iop_mkdir at h0 ⊢
  simp only [hp, if_true] at h0 ⊢
  exact iop_mkdir_loop_done _ _ _ _ h0

theorem iop_mkdir_plain (a : io_args_t) (v : World) (hp : a.process_parents = false) :
    iop_mkdir a v = match os_mkdir v a.arg1 0o755 with
      | .ok w2 => (0, w2)
      | .error _ => (-1, v) := by
  simp [iop_mkdir, hp]

theorem cp_visitor_enter_grow (args : io_args_t) (rel : CStr) (w w2 : World)
    (r : VisitResult) (h2 : args.arg2 ≠ [])
    (h : cp_visitor args (args.arg1 ++ rel) .VA_DIR_ENTER w = some (r, w2)) :
    GrowP (fun _ => False) w.fs w2.fs ∧ NoNewLinks w.fs w2.fs ∧
    (r = VR_OK →
      (∀ t, lookupIn w.fs (components args.arg2 ++ components rel) ≠ some (.link t)) →
      ∃ m k, lookupIn w2.fs (components args.arg2 ++ components rel) = some (.dir m k)) := by
  rw [cp_visitor_eq] at h
  split at h
  · cases h; rw [polled_fs]
    exact ⟨GrowP.refl _ _, noNewLinks_refl _, fun hh => absurd hh (by decide)⟩
  · simp only at h
    split at h
    · simp only [Option.some.injEq, Prod.mk.injEq] at h
      obtain ⟨hr, hw2⟩ := h
      obtain ⟨hg, hn⟩ := iop_mkdir_grow (visitMkdirArgs args (args.arg1 ++ rel)) (polled args w).2
      rw [polled_fs, hw2] at hg hn
      refine ⟨hg, hn, fun hok hnl => ?_⟩
      have h0 : (iop_mkdir (visitMkdirArgs args (args.arg1 ++ rel)) (polled args w).2).1 = 0 := by
        by_contra hne
        rw [if_neg hne] at hr
        rw [← hr] at hok
        exact absurd hok (by decide)
      have hd := iop_mkdir_done _ _ rfl h0
      rw [hw2] at hd
      have : (visitMkdirArgs args (args.arg1 ++ rel)).arg1 = dstOf args (args.arg1 ++ rel) := rfl
      rw [this] at hd
      exact is_dir_plain w2 _ _ (resolve_dstOf args rel h2)
        (fun t hl => hnl t (hn _ t hl)) hd
    · cases h; rw [polled_fs]
      exact ⟨GrowP.refl _ _, noNewLinks_refl _, fun hh => absurd hh (by decide)⟩

theorem cp_visitor_leave_grow (args : io_args_t) (rel : CStr) (w w2 : World)
    (r : VisitResult) (h2 : args.arg2 ≠ []) (m : Nat) (k : Forest)
    (hd : lookupIn w.fs (components args.arg2 ++ components rel) = some (.dir m k))
    (h : cp_visitor args (args.arg1 ++ rel) .VA_DIR_LEAVE w = some (r, w2)) :
    GrowP (fun q => components args.arg2 <+: q) w.fs w2.fs ∧
    (r = VR_OK → ∃ nd, os_stat (polled args w).2 (args.arg1 ++ rel) = some nd ∧
      lookupIn w2.fs (components args.arg2 ++ components rel)
        = some (.dir (st_mode nd &&& 0o7777) k)) := by
  rw [cp_visitor_eq] at h
  split at h
  · cases h; rw [polled_fs]; exact ⟨GrowP.refl _ _, fun hh => absurd hh (by decide)⟩
  · simp only at h
    split at h
    · rename_i nd hst
      split at h
      · rename_i w3 hch
        cases h
        have hd2 : lookupIn (polled args w).2.fs (components args.arg2 ++ components rel)
            = some (.dir m k) := by rw [polled_fs]; exact hd
        obtain ⟨hg, hl⟩ := os_chmod_dir (fun q => components args.arg2 <+: q) _ _ _ _ _ m k
          (resolve_dstOf args rel h2) hd2 (List.prefix_append _ _) hch
        rw [polled_fs] at hg
        exact ⟨hg, fun _ => ⟨nd, by assumption, hl⟩⟩
      · cases h; rw [polled_fs]; exact ⟨GrowP.refl _ _, fun hh => absurd hh (by decide)⟩
    · cases h; rw [polled_fs]; exact ⟨GrowP.refl _ _, fun hh => absurd hh (by decide)⟩

/-- A relation that every step respects holds across the children loop. -/
theorem visit_entries_rel (visitor : Visitor)
    (sub : CStr → World → Option (VisitResult × World)) (path : CStr)
    (R : Node → Node → Prop) (hrefl : ∀ a, R a a) (htrans : ∀ a b c, R a b → R b c → R a c)
    (hvis : ∀ n v r v2, visitor (join_paths path n) .VA_FILE v = some (r, v2) → R v.fs v2.fs)
    (hsub : ∀ n v r v2, sub (join_paths path n) v = some (r, v2) → R v.fs v2.fs)
    (ns : List Name) :
    ∀ (w : World) (r : VisitResult) (w2 : World),
      visit_entries visitor sub path ns w = some (r, w2) → R w.fs w2.fs := by
  induction ns with
  | nil =>
    intro w r w2 h
    simp only [visit_entries, Option.some.injEq, Prod.mk.injEq] at h
    rw [← h.2]; exact hrefl _
  | cons n ns ih =>
    intro w r w2 h
    simp only [visit_entries] at h
    cases hstep : (if entry_is_dir w (join_paths path n) = true then sub (join_paths path n) w
        else visitor (join_paths path n) .VA_FILE w) with
    | none => simp [hstep] at h
    | some res =>
      obtain ⟨r1, w1⟩ := res
      simp only [hstep] at h
      have h1 : R w.fs w1.fs := by
        by_cases hd : entry_is_dir w (join_paths path n) = true
        · simp only [hd, if_true] at hstep
          exact hsub _ _ _ _ hstep
        · simp only [hd, Bool.false_eq_true, if_false] at hstep
          exact hvis _ _ _ _ hstep
      by_cases hr1 : r1 ≠ VR_OK
      · rw [if_pos hr1] at h
        cases h
        exact h1
      · rw [if_neg hr1] at h
        exact htrans _ _ _ h1 (ih w1 r w2 h)

/-- A relation that every event respects holds across the walk of a directory. -/
theorem traverse_subtree_rel (visitor : Visitor) (R : Node → Node → Prop)
    (hrefl : ∀ a, R a a) (htrans : ∀ a b c, R a b → R b c → R a c)
    (hvis : ∀ p a v r v2, visitor p a v = some (r, v2) → R v.fs v2.fs) :
    ∀ (fuel : Nat) (path : CStr) (w : World) (r : VisitResult) (w2 : World),
      traverse_subtree visitor fuel path w = some (r, w2) → R w.fs w2.fs := by
  intro fuel
  induction fuel with
  | zero => intro path w r w2 h; simp [traverse_subtree] at h
  | succ fuel ih =>
    intro path w r w2 h
    simp only [traverse_subtree] at h
    cases he : visitor path .VA_DIR_ENTER w with
    | none => simp [he] at h
    | some res =>
      obtain ⟨er, w1⟩ := res
      simp only [he] at h
      have h1 := hvis _ _ _ _ _ he
      by_cases hab : er ≠ VR_OK ∧ er ≠ VR_SKIP_DIR_LEAVE
      · rw [if_pos hab] at h
        cases h
        exact h1
      · rw [if_neg hab] at h
        cases hl : visit_entries visitor (traverse_subtree visitor fuel) path
            (listdir w1 path) w1 with
        | none => simp [hl] at h
        | some res2 =>
          obtain ⟨r2, w3⟩ := res2
          simp only [hl] at h
          have h2 := visit_entries_rel visitor (traverse_subtree visitor fuel) path R hrefl
            htrans (fun n v r v2 hv => hvis _ _ _ _ _ hv) (fun n v r v2 hv => ih _ v r v2 hv)
            _ w1 r2 w3 hl
          by_cases hr2 : r2 ≠ VR_OK
          · rw [if_pos hr2] at h
            cases h
            exact htrans _ _ _ h1 h2
          · rw [if_neg hr2] at h
            by_cases hskip : er = VR_SKIP_DIR_LEAVE
            · rw [if_pos hskip] at h
              cases h
              exact htrans _ _ _ h1 h2
            · rw [if_neg hskip] at h
              exact htrans _ _ _ (htrans _ _ _ h1 h2) (hvis _ _ _ _ _ h)

/-- No event of copying creates a symbolic link. -/
theorem cp_visitor_noNewLinks (args : io_args_t) (p : CStr) (a : VisitAction) (w w2 : World)
    (r : VisitResult) (h : cp_visitor args p a w = some (r, w2)) : NoNewLinks w.fs w2.fs := by
  rw [cp_visitor_eq] at h
  split at h
  · cases h; rw [polled_fs]; exact noNewLinks_refl _
  · cases a with
    | VA_DIR_ENTER =>
      simp only at h
      split at h
      · simp only [Option.some.injEq, Prod.mk.injEq] at h
        have hn := (iop_mkdir_grow (visitMkdirArgs args p) (polled args w).2).2
        rw [polled_fs, h.2] at hn
        exact hn
      · cases h; rw [polled_fs]; exact noNewLinks_refl _
    | VA_FILE =>
      simp only [Option.some.injEq, Prod.mk.injEq] at h
      have hn := iop_cp_noNewLinks (visitCpArgs args p) (polled args w).2
      rw [polled_fs, h.2] at hn
      exact hn
    | VA_DIR_LEAVE =>
      simp only at h
      split at h
      · split at h
        · rename_i w3 hch
          cases h
          have hn := os_chmod_noNewLinks _ _ _ _ hch
          rwa [polled_fs] at hn
        · cases h; rw [polled_fs]; exact noNewLinks_refl _
      · cases h; rw [polled_fs]; exact noNewLinks_refl _

theorem traverse_subtree_cp_noNewLinks (args : io_args_t) (fuel : Nat) (path : CStr)
    (w : World) (r : VisitResult) (w2 : World)
    (h : traverse_subtree (cp_visitor args) fuel path w = some (r, w2)) :
    NoNewLinks w.fs w2.fs :=
  traverse_subtree_rel (cp_visitor args) NoNewLinks noNewLinks_refl
    (fun _ _ _ => noNewLinks_trans)
    (fun p a v r v2 hv => cp_visitor_noNewLinks args p a v v2 r hv) fuel path w r w2 h

/-- Copying never removes a directory, and, with no symbolic link at or below
the destination, changes permission bits only at or below the destination. -/
theorem traverse_subtree_cp_grow (args : io_args_t) (h2 : args.arg2 ≠ []) :
    ∀ (fuel : Nat) (rel : CStr) (w : World) (r : VisitResult) (w2 : World),
      traverse_subtree (cp_visitor args) fuel (args.arg1 ++ rel) w = some (r, w2) →
      NoLinkUnder (components args.arg2) w.fs →
      GrowP (fun q => components args.arg2 <+: q) w.fs w2.fs := by
  intro fuel
  induction fuel with
  | zero => intro rel w r w2 h; simp [traverse_subtree] at h
  | succ fuel ih =>
    intro rel w r w2 h hJ
    simp only [traverse_subtree] at h
    cases he : cp_visitor args (args.arg1 ++ rel) .VA_DIR_ENTER w with
    | none => simp [he] at h
    | some res =>
      obtain ⟨er, w1⟩ := res
      simp only [he] at h
      obtain ⟨hg1, hn1, hdir1⟩ := cp_visitor_enter_grow args rel w w1 er h2 he
      have hg1' : GrowP (fun q => components args.arg2 <+: q) w.fs w1.fs :=
        hg1.mono (fun _ hf => hf.elim)
      have hJ1 : NoLinkUnder (components args.arg2) w1.fs := hJ.step hn1
      by_cases hab : er ≠ VR_OK ∧ er ≠ VR_SKIP_DIR_LEAVE
      · rw [if_pos hab] at h
        cases h
        exact hg1'
      · rw [if_neg hab] at h
        cases hl : visit_entries (cp_visitor args) (traverse_subtree (cp_visitor args) fuel)
            (args.arg1 ++ rel) (listdir w1 (args.arg1 ++ rel)) w1 with
        | none => simp [hl] at h
        | some res2 =>
          obtain ⟨r2, w3⟩ := res2
          simp only [hl] at h
          have hg2' := visit_entries_rel (cp_visitor args) _ (args.arg1 ++ rel)
              (fun a b => NoLinkUnder (components args.arg2) a →
                GrowP (fun q => components args.arg2 <+: q) a b ∧ NoNewLinks a b)
              (fun a _ => ⟨GrowP.refl _ _, noNewLinks_refl _⟩)
              (fun a b c hab hbc hJa =>
                ⟨(hab hJa).1.trans (hbc (hJa.step (hab hJa).2)).1,
                 noNewLinks_trans (hab hJa).2 (hbc (hJa.step (hab hJa).2)).2⟩)
              (fun n v r v2 hv _ => ⟨(cp_visitor_file_grow args _ v v2 r hv).mono
                (fun _ hf => hf.elim), cp_visitor_noNewLinks args _ _ v v2 r hv⟩)
              (fun n v r v2 hv hJv => by
                refine ⟨?_, traverse_subtree_cp_noNewLinks args fuel _ v r v2 hv⟩
                rw [join_paths_rel] at hv
                exact ih _ v r v2 hv hJv)
              _ w1 r2 w3 hl
          have hg2 : GrowP (fun q => components args.arg2 <+: q) w1.fs w3.fs := (hg2' hJ1).1
          by_cases hr2 : r2 ≠ VR_OK
          · rw [if_pos hr2] at h
            cases h
            exact hg1'.trans hg2
          · rw [if_neg hr2] at h
            by_cases hskip : er = VR_SKIP_DIR_LEAVE
            · rw [if_pos hskip] at h
              cases h
              exact hg1'.trans hg2
            · rw [if_neg hskip] at h
              have her : er = VR_OK := by
                by_contra hne
                exact hab ⟨hne, hskip⟩
              obtain ⟨m1, k1, hd1⟩ := hdir1 her (fun t => hJ _ t (List.prefix_append _ _))
              obtain ⟨m3, k3, hd3, _⟩ := hg2 _ m1 k1 hd1
              have hg3 := (cp_visitor_leave_grow args rel w3 w2 r h2 m3 k3 hd3 h).1
              exact (hg1'.trans hg2).trans hg3

/-- The directory case of the copy traversal, read at the directory itself: a
result of 0 means that the destination directory was made, survived the
children, and received the permission bits of the source directory. -/
theorem traverse_subtree_cp_mode (args : io_args_t) (h1 : args.arg1 ≠ []) (h2 : args.arg2 ≠ [])
    (fuel : Nat) (rel : CStr) (hrel : RelOK rel) (w w2 : World) (m : Nat) (kids : Forest)
    (hsp : lookupIn w.fs (components args.arg1 ++ components rel) = some (.dir m kids))
    (hdp : lookupIn w.fs (components args.arg2 ++ components rel) = none)
    (hnp : ¬ components args.arg2 <+: components args.arg1 ++ components rel)
    (hJ : NoLinkUnder (components args.arg2) w.fs)
    (hok : traverse_subtree (cp_visitor args) fuel (args.arg1 ++ rel) w = some (0, w2)) :
    ∃ k2, lookupIn w2.fs (components args.arg2 ++ components rel)
      = some (.dir (m &&& 0o7777) k2) := by
  cases fuel with
  | zero => simp [traverse_subtree] at hok
  | succ fuel =>
    simp only [traverse_subtree] at hok
    cases he : cp_visitor args (args.arg1 ++ rel) .VA_DIR_ENTER w with
    | none => simp [he] at hok
    | some res =>
      obtain ⟨er, w1⟩ := res
      simp only [he] at hok
      by_cases hab : er ≠ VR_OK ∧ er ≠ VR_SKIP_DIR_LEAVE
      · rw [if_pos hab] at hok
        simp only [Option.some.injEq, Prod.mk.injEq] at hok
        exact absurd hok.1 hab.1
      · rw [if_neg hab] at hok
        have hnoskip : er ≠ VR_SKIP_DIR_LEAVE := by
          intro hs
          rw [cp_visitor_eq] at he
          split at he
          · cases he; exact absurd hs (by decide)
          · simp only at he
            have hnd : is_dir (polled args w).2 (dstOf args (args.arg1 ++ rel)) = false := by
              have hr := resolve_dstOf args rel h2
              have hl : lookupIn (polled args w).2.fs
                  (components args.arg2 ++ components rel) = none := by
                rw [polled_fs]; exact hdp
              have hst := os_stat_of_plain (polled args w).2 _ _ hr (by simp [hl])
              simp [is_dir, hst, hl]
            rw [if_pos (Or.inr hnd)] at he
            simp only [Option.some.injEq, Prod.mk.injEq] at he
            rw [← he.1] at hs
            split at hs <;> exact absurd hs (by decide)
        have her : er = VR_OK := by
          by_contra hne
          exact hab ⟨hne, hnoskip⟩
        obtain ⟨hg1, hn1, hdir1⟩ := cp_visitor_enter_grow args rel w w1 er h2 he
        obtain ⟨m1, k1, hd1⟩ := hdir1 her (fun t => hJ _ t (List.prefix_append _ _))
        have hJ1 : NoLinkUnder (components args.arg2) w1.fs := hJ.step hn1
        cases hl : visit_entries (cp_visitor args)
            (traverse_subtree (cp_visitor args) fuel)
            (args.arg1 ++ rel) (listdir w1 (args.arg1 ++ rel)) w1 with
        | none => simp [hl] at hok
        | some res2 =>
          obtain ⟨r2, w3⟩ := res2
          simp only [hl] at hok
          by_cases hr2 : r2 ≠ VR_OK
          · rw [if_pos hr2] at hok
            simp only [Option.some.injEq, Prod.mk.injEq] at hok
            exact absurd hok.1 hr2
          · rw [if_neg hr2, if_neg hnoskip] at hok
            have hg2' := visit_entries_rel (cp_visitor args) _ (args.arg1 ++ rel)
                (fun a b => NoLinkUnder (components args.arg2) a →
                  GrowP (fun q => components args.arg2 <+: q) a b ∧ NoNewLinks a b)
                (fun a _ => ⟨GrowP.refl _ _, noNewLinks_refl _⟩)
                (fun a b c hab hbc hJa =>
                  ⟨(hab hJa).1.trans (hbc (hJa.step (hab hJa).2)).1,
                   noNewLinks_trans (hab hJa).2 (hbc (hJa.step (hab hJa).2)).2⟩)
                (fun n v r v2 hv _ => ⟨(cp_visitor_file_grow args _ v v2 r hv).mono
                  (fun _ hf => hf.elim), cp_visitor_noNewLinks args _ _ v v2 r hv⟩)
                (fun n v r v2 hv hJv => by
                  refine ⟨?_, traverse_subtree_cp_noNewLinks args fuel _ v r v2 hv⟩
                  rw [join_paths_rel] at hv
                  exact traverse_subtree_cp_grow args h2 fuel _ v r v2 hv hJv)
                _ w1 r2 w3 hl
            have hg2 : GrowP (fun q => components args.arg2 <+: q) w1.fs w3.fs := (hg2' hJ1).1
            obtain ⟨ma, ka, hsa, hma⟩ := hg1 _ m kids hsp
            obtain ⟨mb, kb, hsb, hmb⟩ := hg2 _ ma ka hsa
            have hmode : mb = m := (hmb hnp).trans (hma (fun hf => hf))
            subst hmode
            obtain ⟨m3, k3, hd3, _⟩ := hg2 _ m1 k1 hd1
            obtain ⟨_, hfin⟩ := cp_visitor_leave_grow args rel w3 w2 0 h2 m3 k3 hd3 hok
            obtain ⟨nd, hst, hl2⟩ := hfin rfl
            have hr1 := resolve_src_rel args rel h1 hrel
            have hsb' : lookupIn (polled args w3).2.fs
                (components args.arg1 ++ components rel) = some (.dir mb kb) := by
              rw [polled_fs]; exact hsb
            rw [os_stat_of_plain _ _ _ hr1 (by simp [hsb']), hsb'] at hst
            cases hst
            exact ⟨k3, hl2⟩

theorem World.at_cancelAt (w : World) (fs : Node) (n : Nat) :
    (w.at fs n).cancelAt = w.cancelAt := rfl
theorem World.at_wfault (w : World) (fs : Node) (n : Nat) : (w.at fs n).wfault = w.wfault := rfl
theorem World.at_umask (w : World) (fs : Node) (n : Nat) : (w.at fs n).umask = w.umask := rfl
/-- The parent of an existing entry is a directory that lists it. -/
theorem parent_of_lookup (root : Node) (P : Path) (x : Name) (c : Node)
    (h : lookupIn root (P ++ [x]) = some c) :
    ∃ m k, lookupIn root P = some (.dir m k) ∧ k.find x = some c := by
  rw [lookupIn_append] at h
  cases hP : lookupIn root P with
  | none => simp [hP] at h
  | some d =>
    cases d with
    | dir m k =>
      simp only [hP, Option.some_bind, lookupIn] at h
      cases hf : k.find x with
      | none => simp [hf] at h
      | some c2 =>
        simp only [hf, Option.some.injEq] at h
        subst h
        exact ⟨m, k, rfl, hf⟩
    | file m d => simp [hP, lookupIn] at h
    | link t => simp [hP, lookupIn] at h

theorem rm_visitor_eq (args : io_args_t) (p : CStr) (a : VisitAction) (w : World) :
    rm_visitor p a args w =
      if (polled args w).1 = true then (VR_CANCELLED, (polled args w).2)
      else
        match a with
        | .VA_DIR_ENTER => (VR_OK, (polled args w).2)
        | .VA_FILE => iop_rmfile { arg1 := p, cancellable := args.cancellable } (polled args w).2
        | .VA_DIR_LEAVE =>
          iop_rmdir { arg1 := p, cancellable := args.cancellable } (polled args w).2 := by
  unfold rm_visitor polled
  cases a <;> rfl

theorem os_unlink_leaf (w : World) (s : CStr) (P : Path) (x : Name) (T : Node)
    (hr : resolve s = some (P ++ [x])) (hl : lookupIn w.fs (P ++ [x]) = some T)
    (hT : ∀ m k, T ≠ .dir m k) :
    ∃ fs2, setEntry w.fs (P ++ [x]) none = .ok fs2 ∧
      os_unlink w s = .ok { w with fs := fs2 } := by
  obtain ⟨mP, kP, hP, hf⟩ := parent_of_lookup _ _ _ _ hl
  obtain ⟨fs2, hfs2⟩ := setEntry_ok w.fs P x mP kP hP none
  refine ⟨fs2, hfs2, ?_⟩
  simp only [os_unlink, hr, alter_eq _ _ _ _ _ _ hP, hf]
  cases T with
  | dir m k => exact absurd rfl (hT m k)
  | file m d => simp [hfs2]
  | link t => simp [hfs2]

theorem append_nil_left (g : Forest) : Forest.append .nil g = g := rfl

/-- With parent creation, the first name `iop_mkdir` tries for a path that
starts with a separator is the empty string, which is no directory and cannot
be created: the call returns -1 and changes nothing. -/
theorem iop_mkdir_parents_absolute (args : io_args_t) (w : World) (rest : CStr)
    (hp : args.process_parents = true) (habs : args.arg1 = '/' :: rest) :
    iop_mkdir args w = (-1, w) := by
  have h0 : until_first ('/' :: rest) 0 '/' = 0 := by simp [until_first]
  have hd : is_dir w [] = false := by simp [is_dir, os_stat, resolve]
  have hm : os_mkdir w [] 0o755 = .error .ENOENT := by simp [os_mkdir, resolve]
  simp [iop_mkdir, hp, habs, h0, iop_mkdir_loop, hd, hm]

theorem poll_estim (c : Bool) (w : World) :
    (if c = true then ui_cancellation_requested w else (false, w)).2.estim = w.estim := by
  split <;> rfl

theorem os_fwrite_estim (w : World) (out : Path) (b : List Nat) :
    (os_fwrite w out b).2.estim = w.estim := by
  unfold os_fwrite
  split
  · rfl
  · split <;> rfl

theorem iop_cp_loop_estim (c : Bool) (out : Path) :
    ∀ (fuel : Nat) (rest : List Nat) (w : World),
      (iop_cp_loop c out fuel rest w).2.estim = w.estim := by
  intro fuel
  induction fuel with
  | zero => intro rest w; rfl
  | succ fuel ih =>
    intro rest w
    unfold iop_cp_loop
    simp only
    generalize hp : (if c = true then ui_cancellation_requested w else (false, w)) = pl
    have hpe : pl.2.estim = w.estim := by rw [← hp]; exact poll_estim c w
    split
    · rfl
    · split
      · exact hpe
      · split
        · rw [os_fwrite_estim]; exact hpe
        · rw [ih, os_fwrite_estim]; exact hpe

theorem fopen_wb_env (w w2 : World) (s : CStr) (q : Path) (h : fopen_wb w s = some (q, w2)) :
    ∃ fs2, w2 = { w with fs := fs2 } := by
  unfold fopen_wb at h
  split at h
  · cases h
  · split at h
    · cases h
    · split at h
      · cases h; exact ⟨_, rfl⟩
      · cases h

theorem iop_cp_estim (a : io_args_t) (w : World) : (iop_cp a w).2.estim = w.estim := by
  unfold iop_cp
  simp only
  split
  · rfl
  · split
    · rfl
    · split
      · rfl
      · rename_i w1 hprep
        have hw1 : w1.estim = w.estim := by
          split at hprep
          · split at hprep
            · rename_i w2 hu
              cases hprep
              obtain ⟨fs2, hfs2⟩ := os_unlink_env _ _ _ hu
              rw [hfs2]
            · split at hprep
              · cases hprep
              · cases hprep; rfl
          · split at hprep
            · cases hprep
            · cases hprep; rfl
        split
        · exact hw1
        · rename_i out w2 ho
          obtain ⟨fs2, hfs2⟩ := fopen_wb_env _ _ _ _ ho
          have hw2 : w2.estim = w.estim := by rw [hfs2]; exact hw1
          by_cases hc : a.cancellable = true
          · simp only [hc, if_true, ui_cancellation_disable, ui_cancellation_enable]
            rw [iop_cp_loop_estim]
            exact hw2
          · simp only [hc, Bool.false_eq_true, if_false]
            rw [iop_cp_loop_estim]
            exact hw2

theorem iop_mkdir_loop_estim (path : CStr) :
    ∀ (fuel sep_pos : Nat) (w : World), (iop_mkdir_loop path fuel sep_pos w).2.estim = w.estim := by
  intro fuel
  induction fuel with
  | zero => intro sep_pos w; rfl
  | succ fuel ih =>
    intro sep_pos w
    unfold iop_mkdir_loop
    simp only
    split
    · rfl
    · rename_i w2 hm
      have hw2 : w2.estim = w.estim := by
        split at hm
        · cases hm; rfl
        · split at hm
          · rename_i w3 hk
            cases hm
            obtain ⟨fs2, hfs2⟩ := os_mkdir_env _ _ _ _ hk
            rw [hfs2]
          · cases hm
      split
      · rw [ih]; exact hw2
      · exact hw2

theorem iop_mkdir_estim (a : io_args_t) (w : World) : (iop_mkdir a w).2.estim = w.estim := by
  unfold iop_mkdir
  simp only
  split
  · exact iop_mkdir_loop_estim _ _ _ _
  · split
    · rename_i w2 hk
      obtain ⟨fs2, hfs2⟩ := os_mkdir_env _ _ _ _ hk
      rw [hfs2]
    · rfl

theorem rm_visitor_estim (args : io_args_t) (p : CStr) (a : VisitAction) (w : World) :
    (rm_visitor p a args w).2.estim = w.estim := by
  have hp : (polled args w).2.estim = w.estim := poll_estim _ w
  rw [rm_visitor_eq]
  split
  · exact hp
  · cases a with
    | VA_DIR_ENTER => exact hp
    | VA_FILE =>
      obtain ⟨fs2, hfs2⟩ := iop_rmfile_env { arg1 := p, cancellable := args.cancellable }
        (polled args w).2
      simp only
      rw [hfs2]
      exact hp
    | VA_DIR_LEAVE =>
      obtain ⟨fs2, hfs2⟩ := iop_rmdir_env { arg1 := p, cancellable := args.cancellable }
        (polled args w).2
      simp only
      rw [hfs2]
      exact hp

theorem cp_visitor_estim (args : io_args_t) (p : CStr) (a : VisitAction) (w w2 : World)
    (r : VisitResult) (h : cp_visitor args p a w = some (r, w2)) : w2.estim = w.estim := by
  have hp : (polled args w).2.estim = w.estim := poll_estim _ w
  rw [cp_visitor_eq] at h
  split at h
  · cases h; exact hp
  · cases a with
    | VA_DIR_ENTER =>
      simp only at h
      split at h
      · cases h; rw [iop_mkdir_estim]; exact hp
      · cases h; exact hp
    | VA_FILE =>
      simp only at h
      cases h; rw [iop_cp_estim]; exact hp
    | VA_DIR_LEAVE =>
      simp only at h
      split at h
      · split at h
        · rename_i w3 hk
          cases h
          obtain ⟨fs2, hfs2⟩ := os_chmod_env _ _ _ _ hk
          rw [hfs2]; exact hp
        · cases h; exact hp
      · cases h; exact hp

/-- What every answer of the visitor (and of the recursion) leaves as it was,
the children loop leaves as it was. -/
theorem visit_entries_keeps {α : Type} (f : World → α) (visitor : Visitor)
    (sub : CStr → World → Option (VisitResult × World))
    (hvis : ∀ p a v r v2, visitor p a v = some (r, v2) → f v2 = f v)
    (hsub : ∀ p v r v2, sub p v = some (r, v2) → f v2 = f v)
    (path : CStr) (ns : List Name) :
    ∀ (w : World) (r : VisitResult) (w2 : World),
      visit_entries visitor sub path ns w = some (r, w2) → f w2 = f w := by
  induction ns with
  | nil =>
    intro w r w2 h
    simp only [visit_entries, Option.some.injEq, Prod.mk.injEq] at h
    rw [← h.2]
  | cons n ns ih =>
    intro w r w2 h
    simp only [visit_entries] at h
    cases hstep : (if entry_is_dir w (join_paths path n) = true then sub (join_paths path n) w
        else visitor (join_paths path n) .VA_FILE w) with
    | none => simp [hstep] at h
    | some res =>
      obtain ⟨r1, w1⟩ := res
      simp only [hstep] at h
      have h1 : f w1 = f w := by
        by_cases hd : entry_is_dir w (join_paths path n) = true
        · simp only [hd, if_true] at hstep
          exact hsub _ _ _ _ hstep
        · simp only [hd, Bool.false_eq_true, if_false] at hstep
          exact hvis _ _ _ _ _ hstep
      by_cases hr1 : r1 ≠ VR_OK
      · rw [if_pos hr1] at h
        cases h
        exact h1
      · rw [if_neg hr1] at h
        rw [ih w1 r w2 h, h1]

theorem traverse_subtree_keeps {α : Type} (f : World → α) (visitor : Visitor)
    (hvis : ∀ p a v r v2, visitor p a v = some (r, v2) → f v2 = f v) :
    ∀ (fuel : Nat) (path : CStr) (w : World) (r : VisitResult) (w2 : World),
      traverse_subtree visitor fuel path w = some (r, w2) → f w2 = f w := by
  intro fuel
  induction fuel with
  | zero => intro path w r w2 h; simp [traverse_subtree] at h
  | succ fuel ih =>
    intro path w r w2 h
    simp only [traverse_subtree] at h
    cases he : visitor path .VA_DIR_ENTER w with
    | none => simp [he] at h
    | some res =>
      obtain ⟨er, w1⟩ := res
      simp only [he] at h
      have h1 := hvis _ _ _ _ _ he
      by_cases hab : er ≠ VR_OK ∧ er ≠ VR_SKIP_DIR_LEAVE
      · rw [if_pos hab] at h
        cases h
        exact h1
      · rw [if_neg hab] at h
        cases hl : visit_entries visitor (traverse_subtree visitor fuel) path
            (listdir w1 path) w1 with
        | none => simp [hl] at h
        | some res2 =>
          obtain ⟨r2, w3⟩ := res2
          simp only [hl] at h
          have h2 := visit_entries_keeps f visitor (traverse_subtree visitor fuel) hvis
            (fun p v r v2 hh => ih p v r v2 hh) path _ w1 r2 w3 hl
          by_cases hr2 : r2 ≠ VR_OK
          · rw [if_pos hr2] at h
            cases h
            rw [h2, h1]
          · rw [if_neg hr2] at h
            by_cases hskip : er = VR_SKIP_DIR_LEAVE
            · rw [if_pos hskip] at h
              cases h
              rw [h2, h1]
            · rw [if_neg hskip] at h
              rw [hvis _ _ _ _ _ h, h2, h1]

theorem traverse_keeps {α : Type} (f : World → α) (visitor : Visitor)
    (hvis : ∀ p a v r v2, visitor p a v = some (r, v2) → f v2 = f v)
    (fuel : Nat) (path : CStr) (w : World) (r : VisitResult) (w2 : World)
    (h : traverse visitor fuel path w = some (r, w2)) : f w2 = f w := by
  unfold traverse at h
  split at h
  · exact traverse_subtree_keeps f visitor hvis fuel path w r w2 h
  · exact hvis _ _ _ _ _ h

theorem ior_rm_estim (fuel : Nat) (args : io_args_t) (w w2 : World) (r : Int)
    (h : ior_rm fuel args w = some (r, w2)) : w2.estim = w.estim := by
  unfold ior_rm at h
  refine traverse_keeps World.estim _ ?_ fuel args.arg1 w r w2 h
  intro p a v r v2 hv
  simp only [Option.some.injEq] at hv
  have := rm_visitor_estim args p a v
  rw [hv] at this
  exact this

theorem ior_cp_estim (fuel : Nat) (args : io_args_t) (w w2 : World) (r : Int)
    (h : ior_cp fuel args w = some (r, w2)) : w2.estim = w.estim := by
  unfold ior_cp at h
  simp only at h
  split at h
  · cases h; rfl
  · split at h
    · cases h
    · rename_i res w1 hcl
      have hw1 : w1.estim = w.estim := by
        split at hcl
        · exact ior_rm_estim _ _ _ _ _ hcl
        · cases hcl; rfl
      split at h
      · cases h; exact hw1
      · rw [traverse_keeps World.estim (cp_visitor args)
          (fun p a v r v2 hv => cp_visitor_estim args p a v v2 r hv) fuel args.arg1 w1 r w2 h, hw1]

/-- Unlinking a symbolic link and creating a link under the same name. -/
theorem os_symlink_over_link (w : World) (t s : CStr) (P : Path) (x : Name) (t0 : CStr)
    (hr : resolve s = some (P ++ [x])) (hl : lookupIn w.fs (P ++ [x]) = some (.link t0)) :
    os_symlink w t s = .error .EEXIST ∧
    ∃ fs1 fs2, setEntry w.fs (P ++ [x]) none = .ok fs1 ∧
      setEntry fs1 (P ++ [x]) (some (.link t)) = .ok fs2 ∧
      os_unlink w s = .ok { w with fs := fs1 } ∧
      os_symlink { w with fs := fs1 } t s = .ok { w with fs := fs2 } := by
  obtain ⟨mP, kP, hpar, hk⟩ := parent_of_lookup w.fs P x _ hl
  obtain ⟨fs1, hfs1, hunl⟩ := os_unlink_leaf w s P x _ hr hl (by intro m k h; cases h)
  have hfs1x : lookupIn fs1 (P ++ [x]) = none := lookupIn_setEntry_self _ _ _ _ _ hfs1
  have hpar1 : ∃ k1, lookupIn fs1 P = some (.dir mP k1) := by
    have hs := hfs1
    simp only [setEntry, alter_concat] at hs
    obtain ⟨c, c2, h1, h2, h3⟩ := modifyIn_ok _ _ _ _ hs
    rw [hpar] at h1; cases h1
    simp only [alterEntry, Except.ok.injEq] at h2
    exact ⟨_, by rw [h3, ← h2]⟩
  obtain ⟨k1, hpar1⟩ := hpar1
  obtain ⟨fs2, hfs2⟩ := setEntry_ok fs1 P x mP k1 hpar1 (some (.link t))
  have hf : k1.find x = none := by
    rw [lookupIn_entry fs1 P x mP k1 hpar1 []] at hfs1x
    cases hk1 : k1.find x with
    | none => rfl
    | some c => simp [hk1, lookupIn] at hfs1x
  have hne : P ++ [x] ≠ [] := by simp
  refine ⟨?_, fs1, fs2, hfs1, hfs2, hunl, ?_⟩
  · unfold os_symlink
    rw [hr]
    cases hp : P ++ [x] with
    | nil => exact absurd hp hne
    | cons a b =>
      simp only
      rw [← hp, alter_eq _ _ _ _ _ _ hpar, hk]
  · unfold os_symlink
    rw [hr]
    cases hp : P ++ [x] with
    | nil => exact absurd hp hne
    | cons a b =>
      simp only
      rw [← hp, alter_eq _ _ _ _ _ _ hpar1, hf]
      simp only
      rw [hfs2]

/-- When rename of a non-directory fails in the family EISDIR, ENOTEMPTY,
EEXIST under policy ReplaceFiles and nothing is removed first, `ior_mv` calls
itself through the visitor with the same source, destination and policy in the
same state: no recursion bound suffices. -/
theorem ior_mv_same_request_loops (w : World) (e : Errno) :
    ∀ (fuel : Nat) (args : io_args_t),
      args.crs = .IO_CRS_REPLACE_FILES → args.cancellable = false →
      os_rename w args.arg1 args.arg2 = .error e →
      (e = .EISDIR ∨ e = .ENOTEMPTY ∨ e = .EEXIST) →
      entry_is_dir w args.arg1 = false →
      ¬ (w.atomic_replace = false ∧ is_file w args.arg2 = true) →
      ior_mv fuel args w = none := by
  intro fuel
  induction fuel with
  | zero => intro args _ _ _ _ _ _; rfl
  | succ fuel ih =>
    intro args hcrs hcan hren hfam hdir hrm
    have hxd : e ≠ .EXDEV := by
      rcases hfam with h | h | h <;> subst h <;> decide
    have hdrop : List.drop args.arg1.length args.arg1 = [] := by simp
    have hdst : dstOf args args.arg1 = args.arg2 := by simp [dstOf]
    have hrec := ih (visitCpArgs args args.arg1) hcrs hcan
      (by simpa [visitCpArgs, hdst] using hren) hfam hdir
      (by simpa [visitCpArgs, hdst] using hrm)
    simp only [visitCpArgs, hdst, hcan] at hrec
    rw [ior_mv]
    simp only [hren]
    rw [if_neg (by simp [hcrs]), if_neg (by simp [hcrs]), if_neg hxd, if_pos hfam,
      if_neg (by simp [hcrs]), if_pos (Or.inl hcrs), if_neg hrm]
    simp only [traverse, hdir, Bool.false_eq_true, if_false, cp_mv_visitor, hcan, hdrop,
      if_true, hrec]

/-- The run with its record agrees with `iop_mkdir_loop`. -/
theorem iop_mkdir_loop_run_eq (path : CStr) :
    ∀ (fuel sep_pos : Nat) (w : World),
      ((iop_mkdir_loop_run path fuel sep_pos w).result,
        (iop_mkdir_loop_run path fuel sep_pos w).world) = iop_mkdir_loop path fuel sep_pos w := by
  intro fuel
  induction fuel with
  | zero => intro sep_pos w; rfl
  | succ fuel ih =>
    intro sep_pos w
    unfold iop_mkdir_loop_run iop_mkdir_loop
    simp only
    split
    · rfl
    · split
      · exact ih _ _
      · rfl

theorem iop_mkdir_run_eq (args : io_args_t) (w : World) (hp : args.process_parents = true) :
    ((iop_mkdir_run args w).result, (iop_mkdir_run args w).world) = iop_mkdir args w := by
  unfold iop_mkdir_run iop_mkdir
  simp only [hp, if_true]
  exact iop_mkdir_loop_run_eq _ _ _ _

/-- A run of the loop that returns 0 made its last search from a position past
the terminator of `path_copy`. -/
theorem iop_mkdir_loop_run_overrun (path : CStr) :
    ∀ (fuel sep_pos : Nat) (w : World),
      (iop_mkdir_loop_run path fuel sep_pos w).result = 0 →
      ∃ s ∈ (iop_mkdir_loop_run path fuel sep_pos w).searches, path.length < s := by
  intro fuel
  induction fuel with
  | zero => intro sep_pos w h; simp [iop_mkdir_loop_run] at h
  | succ fuel ih =>
    intro sep_pos w
    unfold iop_mkdir_loop_run
    simp only
    split
    · intro h; simp at h
    · split
      · intro h
        obtain ⟨s, hs, hlt⟩ := ih _ _ h
        exact ⟨s, List.mem_cons_of_mem _ hs, hlt⟩
      · rename_i hsep
        intro _
        refine ⟨sep_pos + 1, by simp, ?_⟩
        have hn : path[sep_pos]? = none := by
          cases hq : path[sep_pos]? with
          | none => rfl
          | some c => simp [hq] at hsep
        have := List.getElem?_eq_none_iff.mp hn
        omega

/-- Every call of `iop_mkdir` with parent creation that returns 0 made a search
from a position past the terminator of `path_copy`. -/
theorem iop_mkdir_run_overrun (args : io_args_t) (w : World)
    (hp : args.process_parents = true) (h0 : (iop_mkdir args w).1 = 0) :
    ∃ s ∈ (iop_mkdir_run args w).searches, args.arg1.length < s := by
  have he := iop_mkdir_run_eq args w hp
  have hr : (iop_mkdir_run args w).result = 0 := by
    rw [← he] at h0; exact h0
  unfold iop_mkdir_run at hr ⊢
  simp only at hr ⊢
  obtain ⟨s, hs, hlt⟩ := iop_mkdir_loop_run_overrun _ _ _ _ hr
  exact ⟨s, List.mem_cons_of_mem _ hs, hlt⟩

/-- Up to its block loop: when the source is a readable regular file and the
destination entry is missing, or may be unlinked because the policy overwrites,
`iop_cp` opens an empty destination and runs the loop on the whole content. -/
theorem iop_cp_opens (args : io_args_t) (w : World) (m : Nat) (C : List Nat)
    (P : Path) (x : Name) (mP : Nat) (kP : Forest)
    (hsrc : os_stat w args.arg1 = some (.file m C))
    (hres : resolve args.arg2 = some (P ++ [x]))
    (hpar : lookupIn w.fs P = some (.dir mP kP))
    (hdst : lookupIn w.fs (P ++ [x]) = none ∨
      (args.crs ≠ .IO_CRS_FAIL ∧
        ((∃ m2 C2, lookupIn w.fs (P ++ [x]) = some (.file m2 C2)) ∨
         (∃ t, lookupIn w.fs (P ++ [x]) = some (.link t))))) :
    ∃ fs1 fs0, setEntry w.fs (P ++ [x]) none = .ok fs1 ∧
      setEntry fs1 (P ++ [x]) (some (.file (maskMode 0o666 w.umask) [])) = .ok fs0 ∧
      iop_cp args w =
        ((iop_cp_loop args.cancellable (P ++ [x]) (C.length + 1) C
            (cpLoopEnter args { w with fs := fs0 })).1,
         cpLoopLeave args (iop_cp_loop args.cancellable (P ++ [x]) (C.length + 1) C
            (cpLoopEnter args { w with fs := fs0 })).2) := by
  obtain ⟨fs1, hfs1⟩ := setEntry_ok w.fs P x mP kP hpar none
  have hfs1x : lookupIn fs1 (P ++ [x]) = none := lookupIn_setEntry_self _ _ _ _ _ hfs1
  have hpar1 : ∃ k1, lookupIn fs1 P = some (.dir mP k1) := by
    have hs := hfs1
    simp only [setEntry, alter_concat] at hs
    obtain ⟨c, c2, h1, h2, h3⟩ := modifyIn_ok _ _ _ _ hs
    rw [hpar] at h1; cases h1
    simp only [alterEntry, Except.ok.injEq] at h2
    exact ⟨_, by rw [h3, ← h2]⟩
  obtain ⟨k1, hpar1⟩ := hpar1
  obtain ⟨fs0, hfs0⟩ := setEntry_ok fs1 P x mP k1 hpar1 (some (.file (maskMode 0o666 w.umask) []))
  have hisdir : is_dir w args.arg1 = false := by simp [is_dir, hsrc]
  have hopen : fopen_rb w args.arg1 = some C := by simp [fopen_rb, hsrc]
  have hprep : (if (args.crs != IoCrs.IO_CRS_FAIL) = true then
        match os_unlink w args.arg2 with
        | .ok w2 => (Except.ok w2 : Except Int World)
        | .error e => if e ≠ .ENOENT then .error (-1) else .ok w
      else if path_exists w args.arg2 true = true then .error 1
      else .ok w) = .ok { w with fs := fs1 } := by
    rcases hdst with hnone | ⟨hcrs, hsome⟩
    · have hfs1eq : fs1 = w.fs := by
        have := setEntry_none_absent w.fs P x mP kP hpar hnone
        rw [hfs1] at this; exact (Except.ok.inj this)
      subst hfs1eq
      have hunl : os_unlink w args.arg2 = .error .ENOENT := by
        have hf : kP.find x = none := by
          rw [lookupIn_entry w.fs P x mP kP hpar []] at hnone
          cases hk : kP.find x with
          | none => rfl
          | some c => simp [hk, lookupIn] at hnone
        simp [os_unlink, hres, alter_eq _ _ _ _ _ _ hpar, hf]
      have hex : path_exists w args.arg2 true = false := by
        simp [path_exists, os_stat_of_plain w _ _ hres (by simp [hnone]), hnone]
      by_cases hov : (args.crs != IoCrs.IO_CRS_FAIL) = true
      · simp [hov, hunl]
      · simp [hov, hex]
    · have hov : (args.crs != IoCrs.IO_CRS_FAIL) = true := by simpa using hcrs
      have hunl : os_unlink w args.arg2 = .ok { w with fs := fs1 } := by
        have hT : ∃ T, lookupIn w.fs (P ++ [x]) = some T ∧ ∀ m k, T ≠ .dir m k := by
          rcases hsome with ⟨m2, C2, hl⟩ | ⟨t, hl⟩
          · exact ⟨_, hl, by intro m k h; cases h⟩
          · exact ⟨_, hl, by intro m k h; cases h⟩
        obtain ⟨T, hl, hT⟩ := hT
        obtain ⟨fs2, h1, h2⟩ := os_unlink_leaf w args.arg2 P x T hres hl hT
        rw [hfs1] at h1
        cases h1
        exact h2
      simp [hov, hunl]
  have hwb : fopen_wb { w with fs := fs1 } args.arg2 =
      some (P ++ [x], { w with fs := fs0 }) := by
    have hf : k1.find x = none := by
      rw [lookupIn_entry fs1 P x mP k1 hpar1 []] at hfs1x
      cases hk : k1.find x with
      | none => rfl
      | some c => simp [hk, lookupIn] at hfs1x
    simp [fopen_wb, hres, SYMLOOP_MAX, chase_not_link _ _ _ (by simp [hfs1x] : ∀ t,
      lookupIn fs1 (P ++ [x]) ≠ some (.link t)), alter_eq _ _ _ _ _ _ hpar1, hf, hfs0]
  refine ⟨fs1, fs0, hfs1, hfs0, ?_⟩
  unfold iop_cp
  simp only [hisdir, Bool.false_eq_true, if_false, hopen, hprep, hwb, cpLoopEnter, cpLoopLeave]

/-- The block loop under a cancellation request that its poll number
`k - w.clock` (counted from 0) is the first to see: the full blocks before that
poll are written, then the loop ends with 1. -/
theorem iop_cp_loop_cancel (root : Node) (P : Path) (x : Name) (m k : Nat) :
    ∀ (fuel : Nat) (rest c : List Nat) (w : World),
      rest.length < fuel → w.wfault = none → w.cancelAt = some k →
      (k - w.clock) * BLOCK_SIZE < rest.length →
      setEntry root (P ++ [x]) (some (.file m c)) = .ok w.fs →
      ∃ fs2,
        setEntry root (P ++ [x])
          (some (.file m (c ++ rest.take ((k - w.clock) * BLOCK_SIZE)))) = .ok fs2 ∧
        iop_cp_loop true (P ++ [x]) fuel rest w =
          (1, { w with fs := fs2, clock := w.clock + (k - w.clock) + 1 }) := by
  intro fuel
  induction fuel with
  | zero => intro rest c w h; omega
  | succ fuel ih =>
    intro rest c w hlen hwf hreq hseen hs
    have hpos : 0 < rest.length := by omega
    have hb : (rest.take BLOCK_SIZE).length ≠ 0 := by
      rw [List.length_take]
      simp only [BLOCK_SIZE]
      omega
    unfold iop_cp_loop
    simp only [hb, if_false, if_true]
    by_cases hk : k ≤ w.clock
    · have hj : k - w.clock = 0 := by omega
      have hpoll : ui_cancellation_requested w = (true, { w with clock := w.clock + 1 }) := by
        simp [ui_cancellation_requested, hreq, hk]
      refine ⟨w.fs, by simpa [hj] using hs, ?_⟩
      simp [hpoll, hj]
    · rw [poll_not_yet w k hreq hk]
      simp only [Bool.false_eq_true, if_false]
      obtain ⟨mP, kP, hP⟩ := setEntry_parent _ _ _ _ _ hs
      obtain ⟨fs3, hfs3⟩ := setEntry_ok root P x mP kP hP
        (some (.file m (c ++ rest.take BLOCK_SIZE)))
      have hwrite : os_fwrite { w with clock := w.clock + 1 } (P ++ [x]) (rest.take BLOCK_SIZE) =
          ((rest.take BLOCK_SIZE).length, { w with clock := w.clock + 1, fs := fs3 }) := by
        unfold os_fwrite
        simp only [hwf]
        rw [modifyIn_setEntry _ root w.fs P x _ hs]
        simp [hfs3]
      simp only [hwrite, ne_eq, not_true_eq_false, if_false]
      have hlen2 : (rest.drop BLOCK_SIZE).length < fuel := by
        simp only [List.length_drop, BLOCK_SIZE]
        omega
      have hseen2 : (k - (w.clock + 1)) * BLOCK_SIZE < (rest.drop BLOCK_SIZE).length := by
        have hj : k - w.clock = (k - (w.clock + 1)) + 1 := by omega
        rw [hj] at hseen
        simp only [List.length_drop]
        simp only [BLOCK_SIZE] at hseen ⊢
        omega
      obtain ⟨fs2, h1, h2⟩ := ih (rest.drop BLOCK_SIZE) (c ++ rest.take BLOCK_SIZE)
        { w with clock := w.clock + 1, fs := fs3 } hlen2 hwf hreq hseen2 hfs3
      have hcat : c ++ rest.take BLOCK_SIZE ++
          (rest.drop BLOCK_SIZE).take ((k - (w.clock + 1)) * BLOCK_SIZE)
          = c ++ rest.take ((k - w.clock) * BLOCK_SIZE) := by
        have hj : (k - w.clock) * BLOCK_SIZE = BLOCK_SIZE + (k - (w.clock + 1)) * BLOCK_SIZE := by
          have : k - w.clock = (k - (w.clock + 1)) + 1 := by omega
          rw [this]; ring
        rw [hj, List.take_add, List.append_assoc]
      simp only at h1 h2
      rw [hcat] at h1
      refine ⟨fs2, h1, ?_⟩
      rw [h2]
      have hclk : w.clock + 1 + (k - (w.clock + 1)) + 1 = w.clock + (k - w.clock) + 1 := by omega
      simp [hclk]

/-- A cancellable `iop_cp` whose block loop sees the cancellation request at
its poll number `k - w.clock` (counted from 0): the destination holds the full
blocks before that poll and the result is 1. -/
theorem iop_cp_cancelled (args : io_args_t) (w : World) (m : Nat) (C : List Nat)
    (P : Path) (x : Name) (mP : Nat) (kP : Forest) (k : Nat)
    (hcan : args.cancellable = true)
    (hsrc : os_stat w args.arg1 = some (.file m C))
    (hres : resolve args.arg2 = some (P ++ [x]))
    (hpar : lookupIn w.fs P = some (.dir mP kP))
    (hdst : lookupIn w.fs (P ++ [x]) = none ∨
      (args.crs ≠ .IO_CRS_FAIL ∧
        ((∃ m2 C2, lookupIn w.fs (P ++ [x]) = some (.file m2 C2)) ∨
         (∃ t, lookupIn w.fs (P ++ [x]) = some (.link t)))))
    (hwf : w.wfault = none) (hreq : w.cancelAt = some k)
    (hseen : (k - w.clock) * BLOCK_SIZE < C.length) :
    ∃ fs1 fs2, setEntry w.fs (P ++ [x]) none = .ok fs1 ∧
      setEntry fs1 (P ++ [x])
        (some (.file (maskMode 0o666 w.umask) (C.take ((k - w.clock) * BLOCK_SIZE)))) = .ok fs2 ∧
      iop_cp args w = (1, { w with fs := fs2, clock := w.clock + (k - w.clock) + 1 }) := by
  obtain ⟨fs1, fs0, hfs1, hfs0, hcp⟩ := iop_cp_opens args w m C P x mP kP hsrc hres hpar hdst
  obtain ⟨fs2, hfs2, hloop⟩ := iop_cp_loop_cancel fs1 P x (maskMode 0o666 w.umask) k
    (C.length + 1) C [] (cpLoopEnter args { w with fs := fs0 }) (by omega)
    (by simp [cpLoopEnter, hcan, ui_cancellation_enable, hwf])
    (by simp [cpLoopEnter, hcan, ui_cancellation_enable, hreq])
    (by simpa [cpLoopEnter, hcan, ui_cancellation_enable] using hseen)
    (by simpa [cpLoopEnter, hcan, ui_cancellation_enable] using hfs0)
  refine ⟨fs1, fs2, hfs1, by simpa [cpLoopEnter, hcan, ui_cancellation_enable] using hfs2, ?_⟩
  rw [hcp]
  simp only [hcan] at hloop ⊢
  rw [hloop]
  simp [cpLoopEnter, cpLoopLeave, hcan, ui_cancellation_enable, ui_cancellation_disable]

/-- The block loop under a cancellation request that none of its polls sees:
the request is first visible at poll number `k`, and the loop makes no more
than `k - w.clock` polls.  Everything is written and the loop ends with 0. -/
theorem iop_cp_loop_unseen (root : Node) (P : Path) (x : Name) (m k : Nat) :
    ∀ (fuel : Nat) (rest c : List Nat) (w : World),
      rest.length < fuel → w.wfault = none → w.cancelAt = some k →
      rest.length ≤ (k - w.clock) * BLOCK_SIZE →
      setEntry root (P ++ [x]) (some (.file m c)) = .ok w.fs →
      ∃ fs2, setEntry root (P ++ [x]) (some (.file m (c ++ rest))) = .ok fs2 ∧
        iop_cp_loop true (P ++ [x]) fuel rest w =
          (0, { w with fs := fs2, clock := w.clock + (rest.length + 8191) / 8192 }) := by
  intro fuel
  induction fuel with
  | zero => intro rest c w h; omega
  | succ fuel ih =>
    intro rest c w hlen hwf hreq hun hs
    unfold iop_cp_loop
    by_cases hb : (rest.take BLOCK_SIZE).length = 0
    · have hr : rest = [] := by
        cases rest with
        | nil => rfl
        | cons a r => simp [BLOCK_SIZE] at hb
      subst hr
      refine ⟨w.fs, by simpa using hs, ?_⟩
      simp
    · simp only [hb, if_false, if_true]
      have hpos : 0 < rest.length := by
        cases rest with
        | nil => simp at hb
        | cons a r => simp
      have hk : ¬ k ≤ w.clock := by
        intro hk
        have hj : k - w.clock = 0 := by omega
        rw [hj] at hun
        omega
      rw [poll_not_yet w k hreq hk]
      simp only [Bool.false_eq_true, if_false]
      obtain ⟨mP, kP, hP⟩ := setEntry_parent _ _ _ _ _ hs
      obtain ⟨fs3, hfs3⟩ := setEntry_ok root P x mP kP hP
        (some (.file m (c ++ rest.take BLOCK_SIZE)))
      have hwrite : os_fwrite { w with clock := w.clock + 1 } (P ++ [x]) (rest.take BLOCK_SIZE) =
          ((rest.take BLOCK_SIZE).length, { w with clock := w.clock + 1, fs := fs3 }) := by
        unfold os_fwrite
        simp only [hwf]
        rw [modifyIn_setEntry _ root w.fs P x _ hs]
        simp [hfs3]
      simp only [hwrite, ne_eq, not_true_eq_false, if_false]
      have hlen2 : (rest.drop BLOCK_SIZE).length < fuel := by
        simp only [List.length_drop, BLOCK_SIZE]
        omega
      have hun2 : (rest.drop BLOCK_SIZE).length ≤ (k - (w.clock + 1)) * BLOCK_SIZE := by
        have hj : k - w.clock = (k - (w.clock + 1)) + 1 := by omega
        rw [hj] at hun
        simp only [List.length_drop]
        simp only [BLOCK_SIZE] at hun ⊢
        omega
      obtain ⟨fs2, h1, h2⟩ := ih (rest.drop BLOCK_SIZE) (c ++ rest.take BLOCK_SIZE)
        { w with clock := w.clock + 1, fs := fs3 } hlen2 hwf hreq hun2 hfs3
      simp only at h1 h2
      rw [List.append_assoc, List.take_append_drop] at h1
      refine ⟨fs2, h1, ?_⟩
      rw [h2]
      have hn : w.clock + 1 + (rest.length - BLOCK_SIZE + 8191) / 8192
          = w.clock + (rest.length + 8191) / 8192 := by
        simp only [BLOCK_SIZE]
        omega
      simp [hn]

/-- A cancellable `iop_cp` whose block loop ends before the poll that would see
the cancellation request: the destination holds the whole content and the
result is 0. -/
theorem iop_cp_unseen (args : io_args_t) (w : World) (m : Nat) (C : List Nat)
    (P : Path) (x : Name) (mP : Nat) (kP : Forest) (k : Nat)
    (hcan : args.cancellable = true)
    (hsrc : os_stat w args.arg1 = some (.file m C))
    (hres : resolve args.arg2 = some (P ++ [x]))
    (hpar : lookupIn w.fs P = some (.dir mP kP))
    (hdst : lookupIn w.fs (P ++ [x]) = none ∨
      (args.crs ≠ .IO_CRS_FAIL ∧
        ((∃ m2 C2, lookupIn w.fs (P ++ [x]) = some (.file m2 C2)) ∨
         (∃ t, lookupIn w.fs (P ++ [x]) = some (.link t)))))
    (hwf : w.wfault = none) (hreq : w.cancelAt = some k)
    (hun : C.length ≤ (k - w.clock) * BLOCK_SIZE) :
    ∃ fs1 fs2, setEntry w.fs (P ++ [x]) none = .ok fs1 ∧
      setEntry fs1 (P ++ [x]) (some (.file (maskMode 0o666 w.umask) C)) = .ok fs2 ∧
      iop_cp args w = (0, { w with fs := fs2, clock := w.clock + (C.length + 8191) / 8192 }) := by
  obtain ⟨fs1, fs0, hfs1, hfs0, hcp⟩ := iop_cp_opens args w m C P x mP kP hsrc hres hpar hdst
  obtain ⟨fs2, hfs2, hloop⟩ := iop_cp_loop_unseen fs1 P x (maskMode 0o666 w.umask) k
    (C.length + 1) C [] (cpLoopEnter args { w with fs := fs0 }) (by omega)
    (by simp [cpLoopEnter, hcan, ui_cancellation_enable, hwf])
    (by simp [cpLoopEnter, hcan, ui_cancellation_enable, hreq])
    (by simpa [cpLoopEnter, hcan, ui_cancellation_enable] using hun)
    (by simpa [cpLoopEnter, hcan, ui_cancellation_enable] using hfs0)
  refine ⟨fs1, fs2, hfs1, by simpa [cpLoopEnter, hcan, ui_cancellation_enable] using hfs2, ?_⟩
  rw [hcp]
  simp only [hcan] at hloop ⊢
  rw [hloop]
  simp [cpLoopEnter, cpLoopLeave, hcan, ui_cancellation_enable, ui_cancellation_disable]

/-- What `iop_cp_unseen` leaves, read through the calls a caller would make. -/
theorem iop_cp_unseen_whole (args : io_args_t) (w : World) (m : Nat) (C : List Nat)
    (P : Path) (x : Name) (mP : Nat) (kP : Forest) (k : Nat)
    (hcan : args.cancellable = true)
    (hsrc : os_lstat w args.arg1 = some (.file m C))
    (hres : resolve args.arg2 = some (P ++ [x]))
    (hpar : lookupIn w.fs P = some (.dir mP kP))
    (hdst : lookupIn w.fs (P ++ [x]) = none ∨
      (args.crs ≠ .IO_CRS_FAIL ∧ ∃ m2 C2, lookupIn w.fs (P ++ [x]) = some (.file m2 C2)))
    (hwf : w.wfault = none) (hreq : w.cancelAt = some k)
    (hun : C.length ≤ (k - w.clock) * BLOCK_SIZE) :
    (iop_cp args w).1 = 0 ∧
    (∃ md, os_lstat (iop_cp args w).2 args.arg2 = some (.file md C)) ∧
    fopen_rb (iop_cp args w).2 args.arg2 = some C ∧
    (iop_cp args w).2.clock = w.clock + (C.length + 8191) / 8192 := by
  cases hrs : resolve args.arg1 with
  | none => simp [os_lstat, hrs] at hsrc
  | some sp =>
    have hsp : lookupIn w.fs sp = some (.file m C) := by
      rwa [os_lstat_eq w _ sp hrs] at hsrc
    have hstat : os_stat w args.arg1 = some (.file m C) := by
      rw [os_stat_of_plain w _ sp hrs (by simp [hsp]), hsp]
    have hdst2 : lookupIn w.fs (P ++ [x]) = none ∨
        (args.crs ≠ .IO_CRS_FAIL ∧
          ((∃ m2 C2, lookupIn w.fs (P ++ [x]) = some (.file m2 C2)) ∨
           (∃ t, lookupIn w.fs (P ++ [x]) = some (.link t)))) := by
      rcases hdst with h | ⟨h1, h2⟩
      · exact Or.inl h
      · exact Or.inr ⟨h1, Or.inl h2⟩
    obtain ⟨fs1, fs2, _, hfs2, hcp⟩ :=
      iop_cp_unseen args w m C P x mP kP k hcan hstat hres hpar hdst2 hwf hreq hun
    have hl := lookupIn_setEntry_self _ _ _ _ _ hfs2
    have hls : os_lstat (iop_cp args w).2 args.arg2
        = some (.file (maskMode 0o666 w.umask) C) := by
      rw [hcp, os_lstat_eq _ _ _ hres]
      exact hl
    refine ⟨by rw [hcp], ⟨_, hls⟩, ?_, by rw [hcp]⟩
    unfold fopen_rb
    rw [hcp, os_stat_of_plain _ _ _ hres (by simp [hl])]
    simp [hl]

theorem demoBigContent_length : demoBigContent.length = 9000 := by
  unfold demoBigContent
  exact List.length_replicate _ _

/-- A directory whose first entry is a file at which the visitor answers
something other than VR_OK: the traversal ends there with that answer. -/
theorem traverse_subtree_first_file (visitor : Visitor) (fuel : Nat) (path : CStr)
    (w w1 w2 : World) (n : Name) (ns : List Name) (r : VisitResult)
    (he : visitor path .VA_DIR_ENTER w = some (VR_OK, w1))
    (hl : listdir w1 path = n :: ns)
    (hd : entry_is_dir w1 (join_paths path n) = false)
    (hv : visitor (join_paths path n) .VA_FILE w1 = some (r, w2)) (hr : r ≠ VR_OK) :
    traverse_subtree visitor (fuel + 1) path w = some (r, w2) := by
  simp only [traverse_subtree, he, hl, visit_entries, hd, Bool.false_eq_true, if_false, hv]
  rw [if_neg (by decide), if_pos hr]
  simp only
  rw [if_pos hr]

/-- The file event of copying never answers VR_CANCELLED once its own poll has
not seen a request: whatever ends `iop_cp`, the answer is VR_OK or VR_ERROR. -/
theorem cp_visitor_file_answer (args : io_args_t) (p : CStr) (w : World)
    (hp : (polled args w).1 = false) :
    cp_visitor args p .VA_FILE w =
      some (if (iop_cp (visitCpArgs args p) (polled args w).2).1 = 0 then VR_OK else VR_ERROR,
        (iop_cp (visitCpArgs args p) (polled args w).2).2) := by
  rw [cp_visitor_eq, hp]
  simp

/-- The separators from position `i` on. -/
theorem separators_from (s : CStr) (start : Nat) :
    separators (s.drop (until_first s start '/')) = separators (s.drop start) := by
  unfold separators
  rw [drop_until_first]
  exact count_dropWhile_ne _ _

/-- The loop makes at most one iteration per separator from `sep_pos` on, plus
one, and a recursion bound above the number of those separators is not hit. -/
theorem iop_mkdir_loop_run_bounded (path : CStr) :
    ∀ (fuel sep_pos : Nat) (w : World),
      (∀ d, path[sep_pos]? = some d → d = '/') →
      separators (path.drop sep_pos) < fuel →
      (iop_mkdir_loop_run path fuel sep_pos w).exhausted = false ∧
      (iop_mkdir_loop_run path fuel sep_pos w).iterations
        ≤ separators (path.drop sep_pos) + 1 := by
  intro fuel
  induction fuel with
  | zero => intro sep_pos w _ h; omega
  | succ fuel ih =>
    intro sep_pos w hsep hfuel
    unfold iop_mkdir_loop_run
    simp only
    split
    · exact ⟨rfl, by show 1 ≤ _ + 1; omega⟩
    · split
      · rename_i hs
        have hlt : sep_pos < path.length := by
          cases hq : path[sep_pos]? with
          | none => simp [hq] at hs
          | some d =>
            have := List.getElem?_eq_some_iff.mp hq
            exact this.1
        have hd : path.drop sep_pos = '/' :: path.drop (sep_pos + 1) := by
          rw [List.drop_eq_getElem_cons hlt]
          have := hsep path[sep_pos] (List.getElem?_eq_getElem hlt)
          rw [this]
        have hcnt : separators (path.drop sep_pos) = separators (path.drop (sep_pos + 1)) + 1 := by
          rw [hd]; simp [separators]
        have hnext := separators_from path (sep_pos + 1)
        obtain ⟨h1, h2⟩ := ih (until_first path (sep_pos + 1) '/') _
          (fun d hdd => until_first_points path (sep_pos + 1) '/' d hdd)
          (by rw [hnext]; omega)
        refine ⟨h1, ?_⟩
        simp only
        rw [hnext] at h2
        omega
      · exact ⟨rfl, by show 1 ≤ _ + 1; omega⟩

/-- Every call of `iop_mkdir` with parent creation ends within one iteration
per separator of the path plus one; the recursion bound of the model is not
hit. -/
theorem iop_mkdir_run_bounded (args : io_args_t) (w : World) :
    (iop_mkdir_run args w).exhausted = false ∧
    (iop_mkdir_run args w).iterations ≤ separators args.arg1 + 1 := by
  unfold iop_mkdir_run
  simp only
  have hsep := separators_from args.arg1 0
  simp only [List.drop_zero] at hsep
  have hle : separators args.arg1 ≤ args.arg1.length := List.count_le_length _ _
  obtain ⟨h1, h2⟩ := iop_mkdir_loop_run_bounded args.arg1 (args.arg1.length + 1)
    (until_first args.arg1 0 '/') w
    (fun d hdd => until_first_points args.arg1 0 '/' d hdd) (by rw [hsep]; omega)
  rw [hsep] at h2
  exact ⟨h1, h2⟩

/-- The top line `cmd_zz` chooses, by cases, for a window of at least 3 rows
that does not show all lines; `h` is the half window `DIV_ROUND_UP(win_rows - 3, 2)`. -/
theorem cmd_zz_top (m : menu_info) (hw : 3 ≤ m.win_rows) (hlen : m.win_rows - 2 < m.len) :
    (cmd_zz m).pos = m.pos ∧ (cmd_zz m).len = m.len ∧ (cmd_zz m).win_rows = m.win_rows ∧
    (cmd_zz m).top =
      if m.pos ≤ (m.win_rows - 3) / 2 then 0
      else if m.pos > m.len - (m.win_rows - 2) / 2 then m.len - (m.win_rows - 2)
      else m.pos - (m.win_rows - 2) / 2 := by
  have h1 : (m.win_rows - 3).tdiv 2 = (m.win_rows - 3) / 2 :=
    Int.tdiv_eq_ediv (by omega) (by decide)
  have h2 : DIV_ROUND_UP (m.win_rows - 3) 2 = (m.win_rows - 2) / 2 := by
    unfold DIV_ROUND_UP
    rw [Int.tdiv_eq_ediv (by omega) (by decide)]
    congr 1
    omega
  have hv : all_lines_visible m = false := by
    unfold all_lines_visible
    simp
    omega
  unfold cmd_zz
  simp only [hv, Bool.not_false, if_true, h1, h2]
  by_cases c1 : m.pos ≤ (m.win_rows - 3) / 2
  · simp [c1]
  · by_cases c2 : m.pos > m.len - (m.win_rows - 2) / 2
    · simp only [c1, c2, if_false, if_true, true_and]
      omega
    · simp only [c1, c2, if_false, and_self]

/-- What holds of the choice of `cmd_zz` for every window height: the top line
is not negative, the cursor line is inside the window, and the top line is at
most one more than the largest correct value. -/
theorem cmd_zz_window (m : menu_info) (hw : 3 ≤ m.win_rows) (hpos : 0 ≤ m.pos)
    (hlt : m.pos < m.len) (hlen : m.win_rows - 2 < m.len) :
    0 ≤ (cmd_zz m).top ∧ (cmd_zz m).top ≤ (cmd_zz m).pos ∧
    (cmd_zz m).pos ≤ get_last_visible_line (cmd_zz m) ∧
    (cmd_zz m).top ≤ m.len - (m.win_rows - 2) + 1 := by
  obtain ⟨e1, _, e3, e4⟩ := cmd_zz_top m hw hlen
  unfold get_last_visible_line
  rw [e1, e3, e4]
  split
  · omega
  · split <;> omega

/-- For an even window height the choice of `cmd_zz` is a correct top line. -/
theorem cmd_zz_top_even (m : menu_info) (hw : 3 ≤ m.win_rows)
    (hlen : m.win_rows - 2 < m.len) (hev : m.win_rows % 2 = 0) :
    (cmd_zz m).top ≤ m.len - (m.win_rows - 2) ∧
    get_last_visible_line (cmd_zz m) ≤ m.len - 1 := by
  obtain ⟨_, _, e3, e4⟩ := cmd_zz_top m hw hlen
  unfold get_last_visible_line
  rw [e3, e4]
  split
  · omega
  · split <;> omega

/-- For an odd window height of at least 5 rows and the cursor half a window
above the end, the choice of `cmd_zz` is one more than the largest correct top
line, and the last line of the window is past the last line of the menu. -/
theorem cmd_zz_top_odd (m : menu_info) (hw : 5 ≤ m.win_rows) (hlen : m.win_rows - 2 < m.len)
    (hodd : m.win_rows % 2 = 1) (hp : m.pos = m.len - (m.win_rows - 3) / 2) :
    (cmd_zz m).top = m.len - (m.win_rows - 2) + 1 ∧
    get_last_visible_line (cmd_zz m) = m.len := by
  obtain ⟨_, _, e3, e4⟩ := cmd_zz_top m (by omega) hlen
  unfold get_last_visible_line
  rw [e3, e4]
  split
  · omega
  · split <;> omega

theorem keepOut_refl (U : Path → Prop) (a : Node) : KeepOut U a a := fun _ _ h => h

theorem keepOut_trans {U : Path → Prop} {a b c : Node} (h1 : KeepOut U a b)
    (h2 : KeepOut U b c) : KeepOut U a c :=
  fun q hU h => h2 q hU (h1 q hU h)

theorem keepOut_mono {U V : Path → Prop} {a b : Node} (h : KeepOut U a b)
    (hUV : ∀ q, U q → V q) : KeepOut V a b :=
  fun q hV hq => h q (fun hU => hV (hUV q hU)) hq

/-- Entries persist through an update at `p` when they persist in the object
that is updated. -/
theorem modifyIn_keep (U : Path → Prop) (h : Node → Except Errno Node) (nd nd2 : Node)
    (p : Path) (hm : modifyIn h nd p = .ok nd2)
    (hloc : ∀ c c2, lookupIn nd p = some c → h c = .ok c2 →
      KeepOut (fun r => U (p ++ r)) c c2) :
    KeepOut U nd nd2 := by
  intro q hU hq
  obtain ⟨c, c2, hc1, hc2, hc3⟩ := modifyIn_ok _ _ _ _ hm
  by_cases hpq : p <+: q
  · obtain ⟨r, rfl⟩ := hpq
    rw [lookupIn_append, hc1] at hq
    simp only [Option.some_bind] at hq
    have := hloc c c2 hc1 hc2 r hU hq
    rw [lookupIn_append, hc3]
    simpa using this
  · by_cases hqp : q <+: p
    · obtain ⟨r, rfl⟩ := hqp
      rw [lookupIn_append] at hc3
      cases hx : lookupIn nd2 q with
      | none => simp [hx] at hc3
      | some d => rfl
    · rw [lookupIn_modifyIn_frame h nd nd2 p q hm hpq hqp]
      exact hq

/-- An entry rewrite keeps what is outside `U` when all it removes lies in
`U`. -/
theorem alterEntry_keep (U : Path → Prop) (g : Option Node → Except Errno (Option Node))
    (x : Name) (c c2 : Node)
    (hg : ∀ cx o, g (some cx) = .ok o → ∀ r, (lookupIn cx r).isSome = true →
      U (x :: r) ∨ ∃ nd, o = some nd ∧ (lookupIn nd r).isSome = true)
    (hc : alterEntry g x c = .ok c2) : KeepOut U c c2 := by
  cases c with
  | file m d => simp [alterEntry] at hc
  | link t => simp [alterEntry] at hc
  | dir m0 k0 =>
    simp only [alterEntry] at hc
    intro q hU hq
    cases hgo : g (k0.find x) with
    | error e => simp [hgo] at hc
    | ok o =>
      cases q with
      | nil =>
        cases o with
        | none => simp only [hgo, Except.ok.injEq] at hc; subst hc; simp [lookupIn]
        | some nd => simp only [hgo, Except.ok.injEq] at hc; subst hc; simp [lookupIn]
      | cons y r =>
        simp only [lookupIn] at hq
        by_cases hyx : x = y
        · subst hyx
          cases hf : k0.find x with
          | none => simp [hf] at hq
          | some cx =>
            simp only [hf] at hq
            rcases hg cx o (by rw [← hf]; exact hgo) r hq with hu | ⟨nd, ho, hnd⟩
            · exact absurd hu hU
            · subst ho
              simp only [hgo, Except.ok.injEq] at hc
              subst hc
              simpa [lookupIn, find_put] using hnd
        · cases o with
          | none =>
            simp only [hgo, Except.ok.injEq] at hc; subst hc
            simpa [lookupIn, find_erase, hyx] using hq
          | some nd =>
            simp only [hgo, Except.ok.injEq] at hc; subst hc
            simpa [lookupIn, find_put, hyx] using hq

theorem alter_keep (U : Path → Prop) (g : Option Node → Except Errno (Option Node))
    (root r1 : Node) (p : Path)
    (hg : ∀ cx o, g (some cx) = .ok o → ∀ r, (lookupIn cx r).isSome = true →
      U (p ++ r) ∨ ∃ nd, o = some nd ∧ (lookupIn nd r).isSome = true)
    (hs : alter g root p = .ok r1) : KeepOut U root r1 := by
  rcases List.eq_nil_or_concat p with hp | ⟨P, x, hp⟩
  · subst hp; simp [alter] at hs
  · subst hp
    rw [List.concat_eq_append, alter_concat] at hs
    exact modifyIn_keep U _ _ _ _ hs (fun c c2 _ hc =>
      alterEntry_keep _ g x c c2 (fun cx o ho r hr => by
        simpa [List.append_assoc] using hg cx o ho r hr) hc)

/-- Below an object that is no directory, and below an empty directory, only
the object itself is found. -/
theorem lookupIn_leaf_some (c : Node) (r : Path)
    (hc : (∀ m k, c ≠ .dir m k) ∨ ∃ m, c = .dir m .nil)
    (h : (lookupIn c r).isSome = true) : r = [] := by
  cases r with
  | nil => rfl
  | cons y r =>
    rcases hc with hc | ⟨m, hc⟩
    · rw [lookupIn_below_leaf c (y :: r) hc (by simp)] at h
      cases h
    · subst hc
      simp [lookupIn, Forest.find] at h

theorem os_unlink_keep (w w2 : World) (s : CStr) (h : os_unlink w s = .ok w2) :
    KeepOut (fun q => resolve s = some q) w.fs w2.fs := by
  unfold os_unlink at h
  split at h
  · cases h
  · rename_i p hr
    split at h
    · rename_i fs2 ha
      cases h
      refine alter_keep _ _ _ _ _ ?_ ha
      intro cx o ho r hr2
      left
      cases cx with
      | dir m k => simp at ho
      | file m d =>
        have := lookupIn_leaf_some _ r (Or.inl (by intro m k hh; cases hh)) hr2
        subst this
        simpa using hr
      | link t =>
        have := lookupIn_leaf_some _ r (Or.inl (by intro m k hh; cases hh)) hr2
        subst this
        simpa using hr
    · cases h

theorem os_rmdir_keep (w w2 : World) (s : CStr) (h : os_rmdir w s = .ok w2) :
    KeepOut (fun q => resolve s = some q) w.fs w2.fs := by
  unfold os_rmdir at h
  split at h
  · cases h
  · rename_i p hr
    split at h
    · rename_i fs2 ha
      cases h
      refine alter_keep _ _ _ _ _ ?_ ha
      intro cx o ho r hr2
      left
      cases cx with
      | dir m k =>
        cases k with
        | nil =>
          have := lookupIn_leaf_some _ r (Or.inr ⟨m, rfl⟩) hr2
          subst this
          simpa using hr
        | file n m1 d1 rest => simp at ho
        | dir n m1 k1 rest => simp at ho
        | link n t rest => simp at ho
      | file m d => simp at ho
      | link t => simp at ho
    · cases h

theorem fopen_wb_keep (w w2 : World) (s : CStr) (q : Path)
    (h : fopen_wb w s = some (q, w2)) : KeepOut (fun _ => False) w.fs w2.fs := by
  unfold fopen_wb at h
  split at h
  · cases h
  · split at h
    · cases h
    · split at h
      · rename_i fs2 ha
        cases h
        refine alter_keep _ _ _ _ _ ?_ ha
        intro cx o ho r hr2
        right
        cases cx with
        | dir m k => simp at ho
        | link t => simp at ho
        | file m d =>
          have := lookupIn_leaf_some _ r (Or.inl (by intro m k hh; cases hh)) hr2
          subst this
          simp only [Except.ok.injEq] at ho
          exact ⟨_, ho.symm, by simp [lookupIn]⟩
      · cases h

theorem os_fwrite_keep (w : World) (out : Path) (block : List Nat) :
    KeepOut (fun _ => False) w.fs (os_fwrite w out block).2.fs := by
  unfold os_fwrite
  split
  · exact keepOut_refl _ _
  · split
    · rename_i fs2 ha
      apply modifyIn_keep _ _ _ _ _ ha
      intro c c2 _ hc
      cases c with
      | file m d =>
        simp only [Except.ok.injEq] at hc
        subst hc
        intro q _ hq
        have := lookupIn_leaf_some _ q (Or.inl (by intro m k hh; cases hh)) hq
        subst this
        simp [lookupIn]
      | dir m k => simp at hc
      | link t => simp at hc
    · exact keepOut_refl _ _

theorem iop_cp_loop_keep (cancellable : Bool) (out : Path) :
    ∀ (fuel : Nat) (rest : List Nat) (w : World),
      KeepOut (fun _ => False) w.fs (iop_cp_loop cancellable out fuel rest w).2.fs := by
  intro fuel
  induction fuel with
  | zero => intro rest w; exact keepOut_refl _ _
  | succ fuel ih =>
    intro rest w
    unfold iop_cp_loop
    simp only
    split
    · exact keepOut_refl _ _
    · generalize hpo : (if cancellable = true then ui_cancellation_requested w else (false, w))
        = po
      have hpfs : po.2.fs = w.fs := by
        subst hpo
        by_cases hc : cancellable = true <;> simp [hc, ui_cancellation_requested]
      split
      · rw [hpfs]; exact keepOut_refl _ _
      · have hw := os_fwrite_keep po.2 out (rest.take BLOCK_SIZE)
        rw [hpfs] at hw
        split
        · exact hw
        · exact keepOut_trans hw (ih _ _)

/-- The only entry `iop_cp` can remove is the one its destination path names. -/
theorem iop_cp_keep (args : io_args_t) (w : World) :
    KeepOut (fun q => resolve args.arg2 = some q) w.fs (iop_cp args w).2.fs := by
  unfold iop_cp
  simp only
  split
  · exact keepOut_refl _ _
  · split
    · exact keepOut_refl _ _
    · rename_i input hin
      have hprep : ∀ w1, (if (args.crs != IoCrs.IO_CRS_FAIL) = true then
            match os_unlink w args.arg2 with
            | .ok w2 => (Except.ok w2 : Except Int World)
            | .error e => if e ≠ .ENOENT then .error (-1) else .ok w
          else if path_exists w args.arg2 true = true then .error 1
          else .ok w) = .ok w1 →
          KeepOut (fun q => resolve args.arg2 = some q) w.fs w1.fs := by
        intro w1 h
        split at h
        · split at h
          · rename_i w2 hu
            cases h
            exact os_unlink_keep _ _ _ hu
          · split at h
            · cases h
            · cases h; exact keepOut_refl _ _
        · split at h
          · cases h
          · cases h; exact keepOut_refl _ _
      split
      · exact keepOut_refl _ _
      · rename_i w1 hw1
        have h1 := hprep w1 hw1
        split
        · exact h1
        · rename_i out w2 hwb
          have h2 : KeepOut (fun q => resolve args.arg2 = some q) w1.fs w2.fs :=
            keepOut_mono (fopen_wb_keep _ _ _ _ hwb) (fun _ hf => hf.elim)
          have h3 : KeepOut (fun q => resolve args.arg2 = some q)
              (if args.cancellable = true then ui_cancellation_enable w2 else w2).fs _ :=
            keepOut_mono (iop_cp_loop_keep args.cancellable out (input.length + 1) input
              (if args.cancellable = true then ui_cancellation_enable w2 else w2))
              (fun _ hf => hf.elim)
          have hfs3 : (if args.cancellable = true then ui_cancellation_enable w2 else w2).fs
              = w2.fs := by
            by_cases hc : args.cancellable = true <;> simp [hc, ui_cancellation_enable]
          rw [hfs3] at h3
          have hfs4 : ∀ v : World,
              (if args.cancellable = true then ui_cancellation_disable v else v).fs = v.fs := by
            intro v
            by_cases hc : args.cancellable = true <;> simp [hc, ui_cancellation_disable]
          simp only [hfs4]
          exact keepOut_trans h1 (keepOut_trans h2 h3)

/-- A relation that every event at a path in `Q` respects holds across the walk
of a directory in `Q`, when `Q` passes from a directory to its entries. -/
theorem traverse_subtree_rel_on (visitor : Visitor) (R : Node → Node → Prop)
    (hrefl : ∀ a, R a a) (htrans : ∀ a b c, R a b → R b c → R a c) (Q : CStr → Prop)
    (hQ : ∀ p n, Q p → Q (join_paths p n))
    (hvis : ∀ p a v r v2, Q p → visitor p a v = some (r, v2) → R v.fs v2.fs) :
    ∀ (fuel : Nat) (path : CStr) (w : World) (r : VisitResult) (w2 : World),
      Q path → traverse_subtree visitor fuel path w = some (r, w2) → R w.fs w2.fs := by
  intro fuel
  induction fuel with
  | zero => intro path w r w2 _ h; simp [traverse_subtree] at h
  | succ fuel ih =>
    intro path w r w2 hq h
    simp only [traverse_subtree] at h
    cases he : visitor path .VA_DIR_ENTER w with
    | none => simp [he] at h
    | some res =>
      obtain ⟨er, w1⟩ := res
      simp only [he] at h
      have h1 := hvis _ _ _ _ _ hq he
      by_cases hab : er ≠ VR_OK ∧ er ≠ VR_SKIP_DIR_LEAVE
      · rw [if_pos hab] at h
        cases h
        exact h1
      · rw [if_neg hab] at h
        cases hl : visit_entries visitor (traverse_subtree visitor fuel) path
            (listdir w1 path) w1 with
        | none => simp [hl] at h
        | some res2 =>
          obtain ⟨r2, w3⟩ := res2
          simp only [hl] at h
          have h2 := visit_entries_rel visitor (traverse_subtree visitor fuel) path R hrefl
            htrans (fun n v r v2 hv => hvis _ _ _ _ _ (hQ _ n hq) hv)
            (fun n v r v2 hv => ih _ v r v2 (hQ _ n hq) hv)
            _ w1 r2 w3 hl
          by_cases hr2 : r2 ≠ VR_OK
          · rw [if_pos hr2] at h
            cases h
            exact htrans _ _ _ h1 h2
          · rw [if_neg hr2] at h
            by_cases hskip : er = VR_SKIP_DIR_LEAVE
            · rw [if_pos hskip] at h
              cases h
              exact htrans _ _ _ h1 h2
            · rw [if_neg hskip] at h
              exact htrans _ _ _ (htrans _ _ _ h1 h2) (hvis _ _ _ _ _ hq h)

/-- The only entry an event of removal can remove is the one it is handed. -/
theorem rm_visitor_keep (args : io_args_t) (p : CStr) (a : VisitAction) (w : World) :
    KeepOut (fun q => resolve p = some q) w.fs (rm_visitor p a args w).2.fs := by
  rw [rm_visitor_eq]
  split
  · show KeepOut _ w.fs (polled args w).2.fs
    rw [polled_fs]; exact keepOut_refl _ _
  · cases a with
    | VA_DIR_ENTER =>
      show KeepOut _ w.fs (polled args w).2.fs
      rw [polled_fs]; exact keepOut_refl _ _
    | VA_FILE =>
      simp only [iop_rmfile]
      split
      · rename_i w2 hu
        have := os_unlink_keep _ _ _ hu
        rwa [polled_fs] at this
      · show KeepOut _ w.fs (polled args w).2.fs
        rw [polled_fs]; exact keepOut_refl _ _
    | VA_DIR_LEAVE =>
      simp only [iop_rmdir]
      split
      · rename_i w2 hu
        have := os_rmdir_keep _ _ _ hu
        rwa [polled_fs] at this
      · show KeepOut _ w.fs (polled args w).2.fs
        rw [polled_fs]; exact keepOut_refl _ _

theorem components_join_prefix (D : Path) (p : CStr) (n : Name)
    (h : D <+: components p) : D <+: components (join_paths p n) := by
  unfold join_paths components
  rw [comps_append_sep]
  exact h.trans (List.prefix_append _ _)

theorem resolve_some_eq (s : CStr) (q : Path) (h : resolve s = some q) : q = components s := by
  unfold resolve at h
  split at h
  · cases h
  · exact (Option.some.inj h).symm

/-- Removal of a tree leaves every entry that is not at or below its root. -/
theorem ior_rm_keep (fuel : Nat) (args : io_args_t) (w w2 : World) (r : Int)
    (h : ior_rm fuel args w = some (r, w2)) :
    KeepOut (fun q => components args.arg1 <+: q) w.fs w2.fs := by
  have hvis : ∀ p a v r v2, components args.arg1 <+: components p →
      (fun p a v => some (rm_visitor p a args v)) p a v = some (r, v2) →
      KeepOut (fun q => components args.arg1 <+: q) v.fs v2.fs := by
    intro p a v r v2 hp hv
    simp only [Option.some.injEq] at hv
    have hk := rm_visitor_keep args p a v
    rw [hv] at hk
    exact keepOut_mono hk (fun q hq => by rw [resolve_some_eq p q hq]; exact hp)
  unfold ior_rm traverse at h
  split at h
  · exact traverse_subtree_rel_on _ _ (keepOut_refl _) (fun _ _ _ => keepOut_trans)
      (fun p => components args.arg1 <+: components p)
      (fun p n hp => components_join_prefix _ p n hp) hvis fuel args.arg1 w r w2
      (List.prefix_refl _) h
  · exact hvis _ _ _ _ _ (List.prefix_refl _) h

theorem os_chmod_growT (w w2 : World) (s : CStr) (mode : Nat)
    (h : os_chmod w s mode = .ok w2) : GrowP (fun _ => True) w.fs w2.fs := by
  unfold os_chmod at h
  split at h
  · cases h
  · split at h
    · cases h
    · split at h
      · rename_i fs2 ha
        cases h
        apply modifyIn_growP _ _ _ _ _ ha
        intro c c2 _ hc
        cases c with
        | file m d =>
          intro q m1 k1 hl
          cases q <;> simp [lookupIn] at hl
        | dir m k =>
          simp only [Except.ok.injEq] at hc
          subst hc
          intro q m1 k1 hl
          cases q with
          | nil => exact ⟨mode, k, rfl, fun hn => absurd True.intro hn⟩
          | cons y q => exact ⟨m1, k1, by simpa [lookupIn] using hl, fun _ => rfl⟩
        | link t => simp at hc
      · cases h

/-- No event of copying removes or replaces a directory. -/
theorem cp_visitor_growT (args : io_args_t) (p : CStr) (a : VisitAction) (w w2 : World)
    (r : VisitResult) (h : cp_visitor args p a w = some (r, w2)) :
    GrowP (fun _ => True) w.fs w2.fs := by
  rw [cp_visitor_eq] at h
  split at h
  · cases h; rw [polled_fs]; exact GrowP.refl _ _
  · cases a with
    | VA_DIR_ENTER =>
      simp only at h
      split at h
      · simp only [Option.some.injEq, Prod.mk.injEq] at h
        have hn := (iop_mkdir_grow (visitMkdirArgs args p) (polled args w).2).1
        rw [polled_fs, h.2] at hn
        exact hn.mono (fun _ hf => hf.elim)
      · cases h; rw [polled_fs]; exact GrowP.refl _ _
    | VA_FILE =>
      simp only [Option.some.injEq, Prod.mk.injEq] at h
      have hn := iop_cp_grow (visitCpArgs args p) (polled args w).2
      rw [polled_fs, h.2] at hn
      exact hn.mono (fun _ hf => hf.elim)
    | VA_DIR_LEAVE =>
      simp only at h
      split at h
      · split at h
        · rename_i w3 hch
          cases h
          have hn := os_chmod_growT _ _ _ _ hch
          rwa [polled_fs] at hn
        · cases h; rw [polled_fs]; exact GrowP.refl _ _
      · cases h; rw [polled_fs]; exact GrowP.refl _ _

/-- Unless the policy is ReplaceAll with a destination path that is a proper
initial segment of the source path, `ior_cp` leaves the source in place. -/
theorem ior_cp_keeps_source (fuel : Nat) (args : io_args_t) (w w1 : World) (r : Int)
    (h : ior_cp fuel args w = some (r, w1))
    (hx : ¬ (args.crs = .IO_CRS_REPLACE_ALL ∧
      components args.arg2 <+: components args.arg1 ∧
      components args.arg2 ≠ components args.arg1))
    (hp : (os_lstat w args.arg1).isSome = true) :
    (os_lstat w1 args.arg1).isSome = true := by
  have h1 : args.arg1 ≠ [] := by
    intro h0; simp [os_lstat, resolve, h0] at hp
  have hl : ∀ v : World, os_lstat v args.arg1 = lookupIn v.fs (components args.arg1) := by
    intro v; simp [os_lstat, resolve, h1]
  rw [hl] at hp ⊢
  unfold ior_cp at h
  simp only at h
  split at h
  · cases h; exact hp
  · rename_i hguard
    have hsd : ¬ components args.arg1 <+: components args.arg2 := by
      simpa [is_in_subtree] using hguard
    -- the clearing of the destination
    have hclear : ∀ rc wc, (if args.crs = .IO_CRS_REPLACE_ALL then
          ior_rm fuel { arg1 := args.arg2, cancellable := args.cancellable } w
        else some (0, w)) = some (rc, wc) →
        (lookupIn wc.fs (components args.arg1)).isSome = true := by
      intro rc wc hc
      split at hc
      · rename_i hra
        exact ior_rm_keep fuel _ w wc rc hc _
          (fun hpre => hx ⟨hra, hpre, fun he => hsd (by rw [he])⟩) hp
      · cases hc; exact hp
    split at h
    · cases h
    · rename_i rc wc hc
      have hpc := hclear rc wc hc
      split at h
      · cases h; exact hpc
      · -- the traversal of the source
        cases hnd : lookupIn wc.fs (components args.arg1) with
        | none => simp [hnd] at hpc
        | some nd =>
          cases nd with
          | dir m k =>
            unfold traverse at h
            have hed : entry_is_dir wc args.arg1 = true := by simp [entry_is_dir, hl, hnd]
            rw [if_pos hed] at h
            have hg := traverse_subtree_rel (cp_visitor args) (GrowP (fun _ => True))
              (GrowP.refl _) (fun _ _ _ => GrowP.trans)
              (fun p a v r v2 hv => cp_visitor_growT args p a v v2 r hv) fuel args.arg1 wc r w1 h
            obtain ⟨m2, k2, h2, _⟩ := hg _ m k hnd
            simp [h2]
          | file m d =>
            unfold traverse at h
            have hed : entry_is_dir wc args.arg1 = false := by simp [entry_is_dir, hl, hnd]
            rw [if_neg (by simp [hed])] at h
            rw [cp_visitor_eq] at h
            split at h
            · cases h; rw [polled_fs]; simp [hnd]
            · simp only [Option.some.injEq, Prod.mk.injEq] at h
              have hk := iop_cp_keep (visitCpArgs args args.arg1) (polled args wc).2
              rw [polled_fs, h.2] at hk
              refine hk _ ?_ (by simp [hnd])
              intro hres
              have hd : (visitCpArgs args args.arg1).arg2 = args.arg2 := by
                simp [visitCpArgs, dstOf]
              rw [hd] at hres
              have := resolve_some_eq _ _ hres
              exact hsd (by rw [this])
          | link t =>
            unfold traverse at h
            have hed : entry_is_dir wc args.arg1 = false := by simp [entry_is_dir, hl, hnd]
            rw [if_neg (by simp [hed])] at h
            rw [cp_visitor_eq] at h
            split at h
            · cases h; rw [polled_fs]; simp [hnd]
            · simp only [Option.some.injEq, Prod.mk.injEq] at h
              have hk := iop_cp_keep (visitCpArgs args args.arg1) (polled args wc).2
              rw [polled_fs, h.2] at hk
              refine hk _ ?_ (by simp [hnd])
              intro hres
              have hd : (visitCpArgs args args.arg1).arg2 = args.arg2 := by
                simp [visitCpArgs, dstOf]
              rw [hd] at hres
              have := resolve_some_eq _ _ hres
              exact hsd (by rw [this])

theorem ioeta_silent_on_eq (w : World) :
    ioeta_silent_on w = (w.silenced == some true, w.withSilent true) := by
  unfold ioeta_silent_on World.silenced World.withSilent
  cases he : w.estim with
  | none =>
    simp only [Option.map_none']
    refine Prod.ext rfl ?_
    show w = _
    cases w
    simp only at he
    subst he
    rfl
  | some e =>
    simp only [Option.map_some']
    refine Prod.ext ?_ rfl
    cases e.silent <;> rfl

theorem ioeta_silent_set_eq (w : World) (b : Bool) : ioeta_silent_set w b = w.withSilent b := by
  unfold ioeta_silent_set World.withSilent
  cases he : w.estim with
  | none =>
    simp only [Option.map_none']
    cases w
    simp only at he
    subst he
    rfl
  | some e => rfl

theorem withSilent_silenced (w : World) (b : Bool) : (w.withSilent b).silenced ≠ some (!b) := by
  unfold World.withSilent World.silenced
  cases w.estim with
  | none => simp
  | some e => cases b <;> simp

/-- Silencing and putting the flag back around a step that leaves the tracker
alone gives the tracker back as it was. -/
theorem withSilent_restore (w1 w2 : World) (h : w2.estim = (w1.withSilent true).estim) :
    (w2.withSilent (w1.silenced == some true)).estim = w1.estim := by
  unfold World.withSilent World.silenced at *
  simp only at h ⊢
  rw [h]
  cases w1.estim with
  | none => rfl
  | some e =>
    cases e with
    | mk s i b => cases s <;> rfl

/-- A rename that answers EXDEV was given a source that exists. -/
theorem os_rename_xdev_source (w : World) (src dst : CStr)
    (h : os_rename w src dst = .error .EXDEV) : (os_lstat w src).isSome = true := by
  unfold os_rename at h
  unfold os_lstat
  split at h
  · rename_i sp dp hs hd
    rw [hs]
    split at h
    · cases h
    · rename_i nd hnd
      simp [hnd]
  · cases h

/-! ## The claims -/

/-- C1: with policy IO_CRS_FAIL, a regular file `f` of content `C` and a
destination `g` that names a missing entry of an existing directory, and with
no write fault and no cancellation request, `iop_cp` returns 0, reading `g`
afterwards yields exactly `C`, and `f` is as before. -/
theorem iop_cp_fail_fresh_dst (args : io_args_t) (w : World) (m : Nat) (C : List Nat)
    (P : Path) (x : Name) (mP : Nat) (kP : Forest)
    (hcrs : args.crs = .IO_CRS_FAIL)
    (hsrc : os_lstat w args.arg1 = some (.file m C))
    (hres : resolve args.arg2 = some (P ++ [x]))
    (hdst : lookupIn w.fs (P ++ [x]) = none)
    (hpar : lookupIn w.fs P = some (.dir mP kP))
    (hwf : w.wfault = none) (hc : args.cancellable = true → w.cancelAt = none) :
    (iop_cp args w).1 = 0 ∧
    fopen_rb (iop_cp args w).2 args.arg2 = some C ∧
    os_lstat (iop_cp args w).2 args.arg1 = some (.file m C) := by
  have _ := hcrs
  cases hrs : resolve args.arg1 with
  | none => simp [os_lstat, hrs] at hsrc
  | some sp =>
    have hsp : lookupIn w.fs sp = some (.file m C) := by
      rwa [os_lstat_eq w _ sp hrs] at hsrc
    have hstat : os_stat w args.arg1 = some (.file m C) := by
      rw [os_stat_of_plain w _ sp hrs (by simp [hsp]), hsp]
    obtain ⟨fs1, fs2, n, h1, h2, h3⟩ := iop_cp_creates args w m C P x mP kP hstat hres hpar
      (Or.inl hdst) hwf hc
    have hfs1 : fs1 = w.fs := by
      have := setEntry_none_absent w.fs P x mP kP hpar hdst
      rw [h1] at this; exact (Except.ok.inj this)
    subst hfs1
    have hg : lookupIn fs2 (P ++ [x]) = some (.file (maskMode 0o666 w.umask) C) :=
      lookupIn_setEntry_self _ _ _ _ _ h2
    obtain ⟨hi1, hi2⟩ := incomparable_leaf_fresh w.fs sp P x _ mP kP hsp (by simp) hpar hdst
    have hf : lookupIn fs2 sp = lookupIn w.fs sp :=
      lookupIn_alter_frame _ _ _ _ _ h2 hi1 hi2
    rw [h3]
    refine ⟨rfl, ?_, ?_⟩
    · simp [fopen_rb, os_stat, hres, SYMLOOP_MAX,
        chase_not_link _ _ _ (by simp [hg] : ∀ t, lookupIn fs2 (P ++ [x]) ≠ some (.link t)), hg]
    · simp [os_lstat, hrs, hf, hsp]

theorem iop_cp_fail_fresh_dst_witness :
    (iop_cp demoCpFresh demoWorld).1 = 0 ∧
    fopen_rb (iop_cp demoCpFresh demoWorld).2 demoCpFresh.arg2 = some [1, 2, 3] ∧
    os_lstat (iop_cp demoCpFresh demoWorld).2 demoCpFresh.arg1 = some (.file 0o600 [1, 2, 3]) :=
  iop_cp_fail_fresh_dst demoCpFresh demoWorld 0o600 [1, 2, 3] ["b".toList] "g".toList 0o755 .nil
    rfl (by decide) (by decide) (by decide) (by decide) rfl (by decide)

/-- C2: with policy IO_CRS_FAIL and an existing destination, `iop_cp` returns
non-zero and hands back the state it was given: nothing is created, truncated,
unlinked or written. -/
theorem iop_cp_fail_existing_dst (args : io_args_t) (w : World)
    (hcrs : args.crs = .IO_CRS_FAIL) (hex : path_exists w args.arg2 true = true) :
    (iop_cp args w).1 ≠ 0 ∧ (iop_cp args w).2 = w := by
  unfold iop_cp
  by_cases hd : is_dir w args.arg1 = true
  · simp [hd]
  · cases hin : fopen_rb w args.arg1 with
    | none => simp [hd, hin]
    | some input => simp [hd, hin, hcrs, hex]

theorem iop_cp_fail_existing_dst_witness :
    (iop_cp demoCpOntoDir demoWorld).1 ≠ 0 ∧
    (iop_cp demoCpOntoDir demoWorld).2 = demoWorld :=
  iop_cp_fail_existing_dst demoCpOntoDir demoWorld rfl (by decide)

/-- C3: with policy IO_CRS_REPLACE_ALL, a regular file `f` of content `C` and
an existing regular file `g` of any content, and with no write fault and no
cancellation request, `iop_cp` returns 0 and reading `g` afterwards yields
exactly `C`. -/
theorem iop_cp_replace_all_existing_file (args : io_args_t) (w : World) (m : Nat)
    (C : List Nat) (P : Path) (x : Name) (m2 : Nat) (C2 : List Nat)
    (hcrs : args.crs = .IO_CRS_REPLACE_ALL)
    (hsrc : os_lstat w args.arg1 = some (.file m C))
    (hres : resolve args.arg2 = some (P ++ [x]))
    (hdst : lookupIn w.fs (P ++ [x]) = some (.file m2 C2))
    (hwf : w.wfault = none) (hc : args.cancellable = true → w.cancelAt = none) :
    (iop_cp args w).1 = 0 ∧ fopen_rb (iop_cp args w).2 args.arg2 = some C := by
  cases hrs : resolve args.arg1 with
  | none => simp [os_lstat, hrs] at hsrc
  | some sp =>
    have hsp : lookupIn w.fs sp = some (.file m C) := by
      rwa [os_lstat_eq w _ sp hrs] at hsrc
    have hstat : os_stat w args.arg1 = some (.file m C) := by
      rw [os_stat_of_plain w _ sp hrs (by simp [hsp]), hsp]
    have hpar : ∃ mP kP, lookupIn w.fs P = some (.dir mP kP) := by
      rw [lookupIn_append] at hdst
      cases hP : lookupIn w.fs P with
      | none => simp [hP] at hdst
      | some d =>
        cases d with
        | dir mP kP => exact ⟨mP, kP, rfl⟩
        | file m d => simp [hP, lookupIn] at hdst
        | link t => simp [hP, lookupIn] at hdst
    obtain ⟨mP, kP, hpar⟩ := hpar
    obtain ⟨fs1, fs2, n, h1, h2, h3⟩ := iop_cp_creates args w m C P x mP kP hstat hres hpar
      (Or.inr ⟨by simp [hcrs], Or.inl ⟨m2, C2, hdst⟩⟩) hwf hc
    have hg : lookupIn fs2 (P ++ [x]) = some (.file (maskMode 0o666 w.umask) C) :=
      lookupIn_setEntry_self _ _ _ _ _ h2
    rw [h3]
    refine ⟨rfl, ?_⟩
    simp [fopen_rb, os_stat, hres, SYMLOOP_MAX,
      chase_not_link _ _ _ (by simp [hg] : ∀ t, lookupIn fs2 (P ++ [x]) ≠ some (.link t)), hg]

theorem iop_cp_replace_all_existing_file_witness :
    (iop_cp demoCpReplace demoWorld2).1 = 0 ∧
    fopen_rb (iop_cp demoCpReplace demoWorld2).2 demoCpReplace.arg2 = some [1, 2, 3] :=
  iop_cp_replace_all_existing_file demoCpReplace demoWorld2 0o600 [1, 2, 3] ["b".toList]
    "g".toList 0o644 [9, 9, 9, 9] rfl (by decide) (by decide) (by decide) rfl (by decide)

/-- C4: when the destination lies in the subtree of the source, `ior_cp`
returns 1 under every conflict policy and hands back the state it was given;
neither the removal of the destination nor the traversal is reached. -/
theorem ior_cp_self_containment (fuel : Nat) (args : io_args_t) (w : World)
    (hin : is_in_subtree args.arg2 args.arg1 = true) :
    ior_cp fuel args w = some (1, w) := by
  unfold ior_cp
  simp [hin]

theorem ior_cp_self_containment_witness :
    ior_cp 0 demoCpInside demoWorld = some (1, demoWorld) :=
  ior_cp_self_containment 0 demoCpInside demoWorld (by decide)

/-- C5 (as amended): for a path that does not exist, `ior_rm` returns a
non-zero result (the failure of unlink, or Cancelled when a request is seen)
and leaves the filesystem unchanged. -/
theorem ior_rm_absent_fails (fuel : Nat) (args : io_args_t) (w : World)
    (habs : os_lstat w args.arg1 = none) :
    ∃ r w2, ior_rm fuel args w = some (r, w2) ∧ r ≠ 0 ∧ w2.fs = w.fs := by
  obtain ⟨h1, h2, h3⟩ := ior_rm_absent_eq fuel args w habs
  exact ⟨_, _, h1, h2, h3⟩

theorem ior_rm_absent_fails_witness :
    ∃ r w2, ior_rm 3 demoRmAbsent demoWorld = some (r, w2) ∧ r ≠ 0 ∧ w2.fs = demoWorld.fs :=
  ior_rm_absent_fails 3 demoRmAbsent demoWorld (by decide)

/-- C5 (as stated) fails: `nope` does not exist in the sample tree, and
`ior_rm` returns -1 for it, whatever the recursion bound. -/
theorem ior_rm_absent_not_success :
    os_lstat demoWorld demoRmAbsent.arg1 = none ∧
    ∀ fuel, ior_rm fuel demoRmAbsent demoWorld = some (-1, demoWorld) := by
  refine ⟨by decide, fun fuel => ?_⟩
  rw [(ior_rm_absent_eq fuel demoRmAbsent demoWorld (by decide)).1]
  decide

/-- C7 (failing input): `iop_mkdir` with parent creation on the absolute path
`/x/y` returns -1 in the sample tree and creates nothing, although every
component could be created. -/
theorem iop_mkdir_parents_absolute_fails :
    iop_mkdir demoMkdirAbs demoWorld = (-1, demoWorld) :=
  iop_mkdir_parents_absolute demoMkdirAbs demoWorld "x/y".toList rfl rfl

/-- C8 (failing input): asked for mode 0777 under an empty umask, `iop_mkdir`
creates the directory with mode 0755, without and with parent creation; the
bits 022 of the requested mode are missing. -/
theorem iop_mkdir_ignores_mode :
    (iop_mkdir demoMkdirMode demoWorldNoUmask).1 = 0 ∧
    os_lstat (iop_mkdir demoMkdirMode demoWorldNoUmask).2 "d".toList = some (.dir 0o755 .nil) ∧
    (iop_mkdir demoMkdirModeParents demoWorldNoUmask).1 = 0 ∧
    os_lstat (iop_mkdir demoMkdirModeParents demoWorldNoUmask).2 "p/q".toList
      = some (.dir 0o755 .nil) ∧
    0o755 &&& demoMkdirMode.mode ≠ demoMkdirMode.mode := by
  decide

/-- C9: when `ior_cp` of a source directory with permission bits `m` to a
destination that did not exist returns 0, the destination is a directory whose
permission bits are `m & 07777`, whatever mode it was created with. -/
theorem ior_cp_dir_mode_preserved (fuel : Nat) (args : io_args_t) (w w2 : World) (m : Nat)
    (kids : Forest)
    (hsrc : os_lstat w args.arg1 = some (.dir m kids))
    (hdst : os_lstat w args.arg2 = none)
    (hok : ior_cp fuel args w = some (0, w2)) :
    ∃ k2, os_lstat w2 args.arg2 = some (.dir (m &&& 0o7777) k2) := by
  have h1 : args.arg1 ≠ [] := by
    intro h; simp [os_lstat, resolve, h] at hsrc
  have hsp : lookupIn w.fs (components args.arg1) = some (.dir m kids) := by
    simpa [os_lstat, resolve, h1] using hsrc
  unfold ior_cp at hok
  simp only at hok
  split at hok
  · cases hok
  · -- the ReplaceAll removal cannot have succeeded on a missing destination
    have hcl : args.crs ≠ .IO_CRS_REPLACE_ALL := by
      intro hcrs
      rw [if_pos hcrs] at hok
      obtain ⟨e1, e2, _⟩ := ior_rm_absent_eq fuel
        { arg1 := args.arg2, cancellable := args.cancellable } w hdst
      rw [e1] at hok
      simp only at hok
      rw [if_pos e2] at hok
      simp only [Option.some.injEq, Prod.mk.injEq] at hok
      exact e2 hok.1
    rw [if_neg hcl] at hok
    simp only [ne_eq, not_true_eq_false, if_false] at hok
    have hed : entry_is_dir w args.arg1 = true := by simp [entry_is_dir, hsrc]
    unfold traverse at hok
    rw [if_pos hed] at hok
    -- an empty destination string cannot be made a directory
    by_cases h2 : args.arg2 = []
    · exfalso
      cases fuel with
      | zero => simp [traverse_subtree] at hok
      | succ fuel =>
        simp only [traverse_subtree] at hok
        have hd : dstOf args args.arg1 = [] := by simp [dstOf, h2]
        have hmk : os_mkdir (polled args w).2 [] 0o755 = .error .ENOENT := by
          simp [os_mkdir, resolve]
        have hnd : is_dir (polled args w).2 [] = false := by
          simp [is_dir, os_stat, resolve]
        have hne : (iop_mkdir (visitMkdirArgs args args.arg1) (polled args w).2).1 ≠ 0 := by
          intro h0
          have hd2 := iop_mkdir_done _ _ rfl h0
          have hv : (visitMkdirArgs args args.arg1).arg1 = [] := hd
          rw [hv] at hd2
          simp [is_dir, os_stat, resolve] at hd2
        rw [cp_visitor_eq] at hok
        by_cases hp : (polled args w).1 = true
        · rw [if_pos hp] at hok
          simp [VR_CANCELLED, VR_OK, VR_SKIP_DIR_LEAVE] at hok
        · rw [if_neg hp] at hok
          simp only [hd, hnd, or_true, if_true] at hok
          rw [if_neg hne] at hok
          simp [VR_ERROR, VR_OK, VR_SKIP_DIR_LEAVE] at hok
    · have hdp : lookupIn w.fs (components args.arg2) = none := by
        simpa [os_lstat, resolve, h2] using hdst
      have hnp : ¬ components args.arg2 <+: components args.arg1 :=
        not_prefix_of_absent w.fs _ _ hdp (by simp [hsp])
      have hc0 : components ([] : CStr) = [] := rfl
      obtain ⟨k2, hk2⟩ := traverse_subtree_cp_mode args h1 h2 fuel [] (Or.inl rfl) w w2 m kids
        (by simpa [hc0] using hsp) (by simpa [hc0] using hdp) (by simpa [hc0] using hnp)
        (fun q t hpre hl => not_prefix_of_absent w.fs _ _ hdp (by simp [hl]) hpre)
        (by simpa using hok)
      exact ⟨k2, by simpa [os_lstat, resolve, h2, hc0] using hk2⟩

theorem ior_cp_dir_mode_preserved_witness :
    (∃ k2, os_lstat demoAfterCpTree demoCpTree.arg2 = some (.dir 0o705 k2)) ∧
    os_lstat demoWorld "b/x".toList = none ∧
    (∃ k2, os_lstat demoAfterCpDeep demoCpDeep.arg2 = some (.dir 0o705 k2)) :=
  ⟨ior_cp_dir_mode_preserved 3 demoCpTree demoWorld demoAfterCpTree 0o705
    (.file "f".toList 0o600 [1, 2, 3] (.dir "s".toList 0o711 .nil .nil))
    (by decide) (by decide) (by decide),
   by decide,
   ior_cp_dir_mode_preserved 3 demoCpDeep demoWorld demoAfterCpDeep 0o705
    (.file "f".toList 0o600 [1, 2, 3] (.dir "s".toList 0o711 .nil .nil))
    (by decide) (by decide) (by decide)⟩

/-- C11: with policy IO_CRS_FAIL, a destination that exists and a move that is
no case-only rename, `ior_mv` returns 1 and hands back the state it was given:
no rename, copy or removal was made, and the filesystem and the progress
tracker are as before. -/
theorem ior_mv_fail_existing_dst (fuel : Nat) (args : io_args_t) (w : World)
    (hcrs : args.crs = .IO_CRS_FAIL) (hex : path_exists w args.arg2 true = true)
    (hcase : is_case_change args.arg1 args.arg2 = false) :
    ior_mv (fuel + 1) args w = some (1, w) := by
  unfold ior_mv
  simp [hcrs, hex, hcase]

theorem ior_mv_fail_existing_dst_witness :
    ior_mv 1 demoMvOnto demoWorld = some (1, demoWorld) :=
  ior_mv_fail_existing_dst 0 demoMvOnto demoWorld rfl (by decide) (by decide)

/-- C12 (failing input): with policy AppendToFiles, `is_file` answers true for
the missing destination `b/g`, so `ior_mv` goes on to rename `a/f` to it and
returns 0; for the missing source `nope` it also reaches rename and returns
the error number of rename (ENOENT, 2). -/
theorem ior_mv_append_missing_path :
    os_lstat demoWorld demoMvFileAppend.arg2 = none ∧
    is_file demoWorld demoMvFileAppend.arg2 = true ∧
    (∃ w2, ior_mv 1 demoMvFileAppend demoWorld = some (0, w2) ∧
      os_lstat w2 demoMvFileAppend.arg2 = some (.file 0o600 [1, 2, 3]) ∧
      os_lstat w2 demoMvFileAppend.arg1 = none) ∧
    os_lstat demoWorld demoMvAbsentAppend.arg1 = none ∧
    is_file demoWorld demoMvAbsentAppend.arg1 = true ∧
    ior_mv 1 demoMvAbsentAppend demoWorld = some (Errno.ENOENT.code, demoWorld) := by
  refine ⟨by decide, by decide, ⟨_, rfl, by decide, by decide⟩, by decide, by decide, by decide⟩

/-- C13 (as amended): when the guards of `ior_mv` let the move through and
rename fails with EXDEV, `ior_mv` is its EXDEV leg run with `ior_cp` and
`ior_rm`.  In that leg the copy is run first, on the request and the state
`ior_mv` was given.  When the copy fails, its result and the state it left are
what is returned and the removal is not run; the entry that the source path
names is then still present, unless the policy is ReplaceAll and the
destination path is a proper initial segment of the source path.  When the copy succeeds, the removal is run
on the source in the state the copy left with the progress tracker silenced,
and what is returned is the result of the removal, failed or not, with the
silenced flag put back to what it was.  Whenever `ior_mv` returns on this path,
the progress tracker, its silenced flag included, is as before the call. -/
theorem ior_mv_xdev_fallback (fuel : Nat) (args : io_args_t) (w : World)
    (hfail : ¬ (args.crs = .IO_CRS_FAIL ∧ path_exists w args.arg2 true = true ∧
      is_case_change args.arg1 args.arg2 = false))
    (happ : ¬ (args.crs = .IO_CRS_APPEND_TO_FILES ∧
      (is_file w args.arg1 = false ∨ is_file w args.arg2 = false)))
    (hren : os_rename w args.arg1 args.arg2 = .error .EXDEV) :
    ior_mv (fuel + 1) args w = ior_mv_exdev (ior_cp fuel) (ior_rm fuel) args w ∧
    (∀ cp rm : io_args_t → World → Option (Int × World),
      (cp args w = none → ior_mv_exdev cp rm args w = none) ∧
      (∀ r w1, cp args w = some (r, w1) → r ≠ 0 →
        ior_mv_exdev cp rm args w = some (r, w1)) ∧
      (∀ w1, cp args w = some (0, w1) →
        (w1.withSilent true).silenced ≠ some false ∧
        (w1.withSilent true).fs = w1.fs ∧
        ior_mv_exdev cp rm args w =
          (rm (rmArgsOf args.arg1 args) (w1.withSilent true)).map
            (fun p => (p.1, p.2.withSilent (w1.silenced == some true))))) ∧
    (∀ r w1, ior_cp fuel args w = some (r, w1) → r ≠ 0 →
      ior_mv (fuel + 1) args w = some (r, w1) ∧
      (¬ (args.crs = .IO_CRS_REPLACE_ALL ∧
          components args.arg2 <+: components args.arg1 ∧
          components args.arg2 ≠ components args.arg1) →
        (os_lstat w1 args.arg1).isSome = true)) ∧
    (∀ r w2, ior_mv (fuel + 1) args w = some (r, w2) →
      w2.estim = w.estim ∧ w2.silenced = w.silenced) := by
  have hmv : ior_mv (fuel + 1) args w = ior_mv_exdev (ior_cp fuel) (ior_rm fuel) args w := by
    rw [ior_mv]
    simp only [hren]
    rw [if_neg hfail, if_neg happ, if_pos True.intro]
  have hgen : ∀ cp rm : io_args_t → World → Option (Int × World),
      (cp args w = none → ior_mv_exdev cp rm args w = none) ∧
      (∀ r w1, cp args w = some (r, w1) → r ≠ 0 →
        ior_mv_exdev cp rm args w = some (r, w1)) ∧
      (∀ w1, cp args w = some (0, w1) →
        (w1.withSilent true).silenced ≠ some false ∧
        (w1.withSilent true).fs = w1.fs ∧
        ior_mv_exdev cp rm args w =
          (rm (rmArgsOf args.arg1 args) (w1.withSilent true)).map
            (fun p => (p.1, p.2.withSilent (w1.silenced == some true)))) := by
    intro cp rm
    refine ⟨?_, ?_, ?_⟩
    · intro h; simp only [ior_mv_exdev, h]
    · intro r w1 h hr; simp only [ior_mv_exdev, h, if_neg hr]
    · intro w1 h
      refine ⟨withSilent_silenced w1 true, rfl, ?_⟩
      simp only [ior_mv_exdev, h, if_true, ioeta_silent_on_eq, ioeta_silent_set_eq, rmArgsOf]
      cases rm { arg1 := args.arg1, cancellable := args.cancellable } (w1.withSilent true) with
      | none => rfl
      | some p => rfl
  refine ⟨hmv, hgen, ?_, ?_⟩
  · intro r w1 h hr
    refine ⟨?_, fun hx => ior_cp_keeps_source fuel args w w1 r h hx
      (os_rename_xdev_source w _ _ hren)⟩
    rw [hmv]
    exact (hgen (ior_cp fuel) (ior_rm fuel)).2.1 r w1 h hr
  · intro r w2 h
    have hest : w2.estim = w.estim := by
      rw [hmv] at h
      cases hcp : ior_cp fuel args w with
      | none => rw [(hgen _ (ior_rm fuel)).1 hcp] at h; cases h
      | some res =>
        obtain ⟨r1, w1⟩ := res
        have h1 := ior_cp_estim _ _ _ _ _ hcp
        by_cases hr1 : r1 = 0
        · subst hr1
          rw [((hgen _ (ior_rm fuel)).2.2 w1 hcp).2.2] at h
          cases hrm : ior_rm fuel (rmArgsOf args.arg1 args) (w1.withSilent true) with
          | none => rw [hrm] at h; cases h
          | some res2 =>
            obtain ⟨r2, w3⟩ := res2
            rw [hrm] at h
            simp only [Option.map_some', Option.some.injEq, Prod.mk.injEq] at h
            rw [← h.2, withSilent_restore w1 w3 (ior_rm_estim _ _ _ _ _ hrm), h1]
        · rw [(hgen _ (ior_rm fuel)).2.1 r1 w1 hcp hr1] at h
          cases h
          exact h1
    exact ⟨hest, by unfold World.silenced; rw [hest]⟩

theorem ior_mv_xdev_fallback_witness :
    (∃ w2, ior_mv 4 demoMvTreeCancellable (demoTrackedWorld 8) = some (VR_CANCELLED, w2) ∧
      w2.estim = (demoTrackedWorld 8).estim ∧ w2.silenced = (demoTrackedWorld 8).silenced) ∧
    (∃ w2, ior_mv 4 demoMvTreeCancellable (demoTrackedWorld 11) = some (0, w2) ∧
      w2.estim = (demoTrackedWorld 11).estim ∧
      w2.silenced = (demoTrackedWorld 11).silenced) ∧
    (∃ w1, ior_cp 3 demoMvTreeCancellable (demoTrackedWorld 2) = some (VR_ERROR, w1) ∧
      ior_mv 4 demoMvTreeCancellable (demoTrackedWorld 2) = some (VR_ERROR, w1) ∧
      (os_lstat w1 demoMvTreeCancellable.arg1).isSome = true) ∧
    (∃ w1, ior_cp 3 demoMvTreeCancellable (demoTrackedWorld 11) = some (0, w1) ∧
      w1.silenced = some false ∧
      ior_mv_exdev (ior_cp 3) probeSilenced demoMvTreeCancellable (demoTrackedWorld 11)
        = some (0, w1)) :=
  ⟨⟨_, rfl, (ior_mv_xdev_fallback 3 demoMvTreeCancellable (demoTrackedWorld 8) (by decide)
      (by decide) rfl).2.2.2 _ _ rfl⟩,
   ⟨_, rfl, (ior_mv_xdev_fallback 3 demoMvTreeCancellable (demoTrackedWorld 11) (by decide)
      (by decide) rfl).2.2.2 _ _ rfl⟩,
   ⟨_, rfl, ((ior_mv_xdev_fallback 3 demoMvTreeCancellable (demoTrackedWorld 2) (by decide)
      (by decide) rfl).2.2.1 _ _ rfl (by decide)).1,
    ((ior_mv_xdev_fallback 3 demoMvTreeCancellable (demoTrackedWorld 2) (by decide)
      (by decide) rfl).2.2.1 _ _ rfl (by decide)).2 (by decide)⟩,
   ⟨_, rfl, by decide,
    (((ior_mv_xdev_fallback 3 demoMvTreeCancellable (demoTrackedWorld 11) (by decide)
      (by decide) rfl).2.1 (ior_cp 3) probeSilenced).2.2 _ rfl).2.2.trans (by decide)⟩⟩

/-- C13 (as stated) fails.  In the sample tree on two devices, moving the file
`a/f` onto the directory `a` with policy ReplaceAll: rename fails with EXDEV,
`ior_cp` first clears the destination `a`, and with it the source, and then
fails to copy; `ior_mv` returns that failure, and the source is gone. -/
theorem ior_mv_xdev_source_removed :
    os_rename demoWorld.crossDevice demoMvOntoParent.arg1 demoMvOntoParent.arg2
      = .error .EXDEV ∧
    (os_lstat demoWorld.crossDevice demoMvOntoParent.arg1).isSome = true ∧
    ∃ w1, ior_cp 3 demoMvOntoParent demoWorld.crossDevice = some (VR_ERROR, w1) ∧
      ior_mv 4 demoMvOntoParent demoWorld.crossDevice = some (VR_ERROR, w1) ∧
      os_lstat w1 demoMvOntoParent.arg1 = none :=
  ⟨rfl, by decide, _, rfl, rfl, by decide⟩

/-- C14: when the guards of `ior_mv` let the move through and rename fails with
an error that is not EXDEV, and either is outside the family EISDIR, ENOTEMPTY,
EEXIST or the policy selects no recovery (Fail, or AppendToFiles with atomic
file replace), `ior_mv` returns the code of that error, which is non-zero, and
hands back the state it was given. -/
theorem ior_mv_errno_verbatim (fuel : Nat) (args : io_args_t) (w : World) (e : Errno)
    (hfail : ¬ (args.crs = .IO_CRS_FAIL ∧ path_exists w args.arg2 true = true ∧
      is_case_change args.arg1 args.arg2 = false))
    (happ : ¬ (args.crs = .IO_CRS_APPEND_TO_FILES ∧
      (is_file w args.arg1 = false ∨ is_file w args.arg2 = false)))
    (hren : os_rename w args.arg1 args.arg2 = .error e)
    (hxd : e ≠ .EXDEV)
    (hsel : (e = .EISDIR ∨ e = .ENOTEMPTY ∨ e = .EEXIST) →
      args.crs = .IO_CRS_FAIL ∨
        (args.crs = .IO_CRS_APPEND_TO_FILES ∧ w.atomic_replace = true)) :
    ior_mv (fuel + 1) args w = some (e.code, w) ∧ e.code ≠ 0 := by
  refine ⟨?_, by cases e <;> decide⟩
  unfold ior_mv
  simp only [hren]
  rw [if_neg hfail, if_neg happ, if_neg hxd]
  by_cases hfam : e = .EISDIR ∨ e = .ENOTEMPTY ∨ e = .EEXIST
  · rw [if_pos hfam]
    rcases hsel hfam with h | ⟨h, hat⟩
    · simp [h]
    · simp [h, hat]
  · rw [if_neg hfam]

theorem ior_mv_errno_verbatim_witness :
    (ior_mv 1 demoMvAbsent demoWorld = some (2, demoWorld) ∧ Errno.ENOENT.code ≠ 0) ∧
    (ior_mv 1 demoMvCase demoCaseWorld = some (39, demoCaseWorld) ∧
      Errno.ENOTEMPTY.code ≠ 0) :=
  ⟨ior_mv_errno_verbatim 0 demoMvAbsent demoWorld .ENOENT (by decide) (by decide) rfl
      (by decide) (by decide),
   ior_mv_errno_verbatim 0 demoMvCase demoCaseWorld .ENOTEMPTY (by decide) (by decide)
      rfl (by decide) (by decide)⟩

/-- C15 (failing input): a cancellable `ior_cp` of the directory `d`, which
holds the two-block file `big`, with a cancellation request that the poll
before the second block is the first to see (polls 0 and 1 are those of the
visitor for `d` and for `d/big`, poll 2 that before the first block): the
first block is written, and `ior_cp` returns VR_ERROR, which is not
VR_CANCELLED. -/
theorem ior_cp_cancel_in_blocks_is_error :
    ∃ w2, ior_cp 2 demoCpBigTree (demoBigWorld 3) = some (VR_ERROR, w2) ∧
      fopen_rb w2 "b/c/big".toList = some (demoBigContent.take 8192) ∧
      w2.clock = 4 ∧ VR_ERROR ≠ VR_CANCELLED := by
  have he : cp_visitor demoCpBigTree "d".toList .VA_DIR_ENTER (demoBigWorld 3)
      = some (VR_OK, demoBigWorldEntered 3) := rfl
  have hl : listdir (demoBigWorldEntered 3) "d".toList = ["big".toList] := rfl
  have hd : entry_is_dir (demoBigWorldEntered 3) (join_paths "d".toList "big".toList)
      = false := rfl
  have hp : (polled demoCpBigTree (demoBigWorldEntered 3)).1 = false := rfl
  have hseen : (3 - (polled demoCpBigTree (demoBigWorldEntered 3)).2.clock) * BLOCK_SIZE
      < demoBigContent.length := by
    have h1 : (polled demoCpBigTree (demoBigWorldEntered 3)).2.clock = 2 := rfl
    rw [h1, demoBigContent_length]
    decide
  obtain ⟨fs1, fs2, _, hfs2, hcp⟩ := iop_cp_cancelled
    (visitCpArgs demoCpBigTree (join_paths "d".toList "big".toList))
    (polled demoCpBigTree (demoBigWorldEntered 3)).2 0o640 demoBigContent
    ["b".toList, "c".toList] "big".toList 0o755 .nil 3 rfl rfl rfl rfl (Or.inl rfl) rfl rfl hseen
  have hv := cp_visitor_file_answer demoCpBigTree (join_paths "d".toList "big".toList)
    (demoBigWorldEntered 3) hp
  rw [hcp] at hv
  have h10 : ¬ ((1 : Int) = 0) := by decide
  simp only [h10, if_false] at hv
  have htr := traverse_subtree_first_file (cp_visitor demoCpBigTree) 1 "d".toList
    (demoBigWorld 3) (demoBigWorldEntered 3) _ "big".toList [] _ he hl hd hv (by decide)
  have hior : ior_cp 2 demoCpBigTree (demoBigWorld 3) =
      traverse_subtree (cp_visitor demoCpBigTree) (1 + 1) "d".toList (demoBigWorld 3) := by
    unfold ior_cp
    have hin : is_in_subtree demoCpBigTree.arg2 demoCpBigTree.arg1 = false := by decide
    have hdir : entry_is_dir (demoBigWorld 3) demoCpBigTree.arg1 = true := rfl
    simp only [hin, Bool.false_eq_true, if_false]
    rw [if_neg (by decide)]
    simp only [ne_eq, not_true_eq_false, if_false, traverse, hdir, if_true]
    rfl
  rw [htr] at hior
  refine ⟨_, hior, ?_, ?_, by decide⟩
  · have hl2 := lookupIn_setEntry_self _ _ _ _ _ hfs2
    have hres : resolve "b/c/big".toList = some (["b".toList, "c".toList] ++ ["big".toList]) := by
      decide
    unfold fopen_rb
    rw [os_stat_of_plain _ _ _ hres (by simp only [hl2]; simp)]
    simp only [hl2]
    rfl
  · rfl

/-- C16: `iop_ln` returns 0 when the first creation succeeds.  When it fails
with EEXIST, the policy is not IO_CRS_FAIL and the link path is a symbolic
link, the link is removed and creation is tried once more, the result being
that of the second try (for a link path with a last name: the entry now is the
new link and the result 0); when the removal fails, -1 is returned and nothing
has changed.  In every other failure case -1 is returned and nothing has
changed. -/
theorem iop_ln_retry_once (args : io_args_t) (w : World) :
    (∀ w2, os_symlink w args.arg1 args.arg2 = .ok w2 → iop_ln args w = (0, w2)) ∧
    (os_symlink w args.arg1 args.arg2 = .error .EEXIST → args.crs ≠ .IO_CRS_FAIL →
      is_symlink w args.arg2 = true →
      (∀ w1, os_unlink w args.arg2 = .ok w1 →
        iop_ln args w = match os_symlink w1 args.arg1 args.arg2 with
          | .ok w3 => (0, w3)
          | .error _ => (-1, w1)) ∧
      (∀ e, os_unlink w args.arg2 = .error e → iop_ln args w = (-1, w)) ∧
      (∀ P x, resolve args.arg2 = some (P ++ [x]) →
        ∃ fs1 fs2, setEntry w.fs (P ++ [x]) none = .ok fs1 ∧
          setEntry fs1 (P ++ [x]) (some (.link args.arg1)) = .ok fs2 ∧
          iop_ln args w = (0, { w with fs := fs2 }))) ∧
    (∀ e, os_symlink w args.arg1 args.arg2 = .error e →
      ¬ (e = .EEXIST ∧ args.crs ≠ .IO_CRS_FAIL ∧ is_symlink w args.arg2 = true) →
      iop_ln args w = (-1, w)) := by
  refine ⟨?_, ?_, ?_⟩
  · intro w2 h
    simp [iop_ln, h]
  · intro h hcrs hlink
    have hov : (args.crs != IoCrs.IO_CRS_FAIL) = true := by simpa using hcrs
    refine ⟨?_, ?_, ?_⟩
    · intro w1 hu
      simp only [iop_ln, h, hu, hov, hlink, and_self, if_true]
    · intro e hu
      simp [iop_ln, h, hu, hov, hlink]
    · intro P x hr
      have hl : ∃ t0, lookupIn w.fs (P ++ [x]) = some (.link t0) := by
        unfold is_symlink at hlink
        rw [os_lstat_eq w _ _ hr] at hlink
        split at hlink
        · rename_i t0 ht0; exact ⟨t0, ht0⟩
        · cases hlink
      obtain ⟨t0, hl⟩ := hl
      obtain ⟨_, fs1, fs2, h1, h2, h3, h4⟩ := os_symlink_over_link w args.arg1 args.arg2 P x t0 hr hl
      refine ⟨fs1, fs2, h1, h2, ?_⟩
      simp [iop_ln, h, hov, hlink, h3, h4]
  · intro e h hno
    unfold iop_ln
    simp only [h]
    rw [if_neg]
    intro hc
    exact hno ⟨hc.1, by simpa using hc.2.1, hc.2.2⟩

theorem iop_ln_retry_once_witness :
    (iop_ln demoLnReplace demoLinkWorld).1 = 0 ∧
    os_lstat (iop_ln demoLnReplace demoLinkWorld).2 "l".toList = some (.link "a".toList) ∧
    (∃ fs1 fs2, setEntry demoLinkWorld.fs ([] ++ ["l".toList]) none = .ok fs1 ∧
      setEntry fs1 ([] ++ ["l".toList]) (some (.link demoLnReplace.arg1)) = .ok fs2 ∧
      iop_ln demoLnReplace demoLinkWorld = (0, { demoLinkWorld with fs := fs2 })) ∧
    iop_ln demoLnFail demoLinkWorld = (-1, demoLinkWorld) ∧
    iop_ln demoLnOverFile demoLinkWorld = (-1, demoLinkWorld) :=
  ⟨by decide, by decide,
   (iop_ln_retry_once demoLnReplace demoLinkWorld).2.1 rfl (by decide) (by decide) |>.2.2
      [] "l".toList rfl,
   (iop_ln_retry_once demoLnFail demoLinkWorld).2.2 .EEXIST rfl (by decide),
   (iop_ln_retry_once demoLnOverFile demoLinkWorld).2.2 .EEXIST rfl (by decide)⟩

/-- C17 (failing input): moving the regular file `a/f` onto the non-empty
directory `b` with policy ReplaceFiles, with no cancellation request, never
returns.  Rename fails with EISDIR, the traversal visits the source itself as a
file, and the visitor calls `ior_mv` with the same source, destination and
policy in the same state; so no recursion bound is large enough. -/
theorem ior_mv_replace_files_onto_dir_diverges :
    os_rename demoWorld2 demoMvFileOntoDir.arg1 demoMvFileOntoDir.arg2 = .error .EISDIR ∧
    entry_is_dir demoWorld2 demoMvFileOntoDir.arg1 = false ∧
    entry_is_dir demoWorld2 demoMvFileOntoDir.arg2 = true ∧
    listdir demoWorld2 demoMvFileOntoDir.arg2 ≠ [] ∧
    demoWorld2.cancelAt = none ∧
    visitCpArgs demoMvFileOntoDir demoMvFileOntoDir.arg1 = demoMvFileOntoDir ∧
    ∀ fuel, ior_mv fuel demoMvFileOntoDir demoWorld2 = none :=
  ⟨rfl, by decide, by decide, by decide, rfl, by decide,
   fun fuel => ior_mv_same_request_loops demoWorld2 .EISDIR fuel demoMvFileOntoDir rfl rfl rfl
     (by decide) (by decide) (by decide)⟩

/-- C18 (as amended): a cancellable `iop_cp` of a regular file of content `C`
to a destination that is missing (or is a regular file that the policy
overwrites), with no write fault, under a cancellation request that becomes
visible at poll number `k` of the signal.  When one of the polls of the block
loop sees it, the poll before block `j` (counted from 0) being the first,
`iop_cp` returns non-zero and the destination is left in place holding the
first `j * 8192` bytes of `C`, which is `j` full blocks and at most the length
of `C`.  When the request comes after the last poll of the loop, no poll sees
it: `iop_cp` returns 0 and the destination holds all of `C`. -/
theorem iop_cp_cancel_full_blocks (args : io_args_t) (w : World) (m : Nat) (C : List Nat)
    (P : Path) (x : Name) (mP : Nat) (kP : Forest) (k : Nat)
    (hcan : args.cancellable = true)
    (hsrc : os_lstat w args.arg1 = some (.file m C))
    (hres : resolve args.arg2 = some (P ++ [x]))
    (hpar : lookupIn w.fs P = some (.dir mP kP))
    (hdst : lookupIn w.fs (P ++ [x]) = none ∨
      (args.crs ≠ .IO_CRS_FAIL ∧ ∃ m2 C2, lookupIn w.fs (P ++ [x]) = some (.file m2 C2)))
    (hwf : w.wfault = none) (hreq : w.cancelAt = some k) :
    ((k - w.clock) * BLOCK_SIZE < C.length →
      (iop_cp args w).1 ≠ 0 ∧
      (∃ md, os_lstat (iop_cp args w).2 args.arg2
        = some (.file md (C.take ((k - w.clock) * BLOCK_SIZE)))) ∧
      fopen_rb (iop_cp args w).2 args.arg2 = some (C.take ((k - w.clock) * BLOCK_SIZE)) ∧
      (C.take ((k - w.clock) * BLOCK_SIZE)).length = (k - w.clock) * 8192 ∧
      (k - w.clock) * 8192 ≤ C.length) ∧
    (C.length ≤ (k - w.clock) * BLOCK_SIZE →
      (iop_cp args w).1 = 0 ∧
      (∃ md, os_lstat (iop_cp args w).2 args.arg2 = some (.file md C)) ∧
      fopen_rb (iop_cp args w).2 args.arg2 = some C) := by
  refine ⟨fun hseen => ?_, fun hun =>
    have h := iop_cp_unseen_whole args w m C P x mP kP k hcan hsrc hres hpar hdst hwf hreq hun
    ⟨h.1, h.2.1, h.2.2.1⟩⟩
  cases hrs : resolve args.arg1 with
  | none => simp [os_lstat, hrs] at hsrc
  | some sp =>
    have hsp : lookupIn w.fs sp = some (.file m C) := by
      rwa [os_lstat_eq w _ sp hrs] at hsrc
    have hstat : os_stat w args.arg1 = some (.file m C) := by
      rw [os_stat_of_plain w _ sp hrs (by simp [hsp]), hsp]
    have hdst2 : lookupIn w.fs (P ++ [x]) = none ∨
        (args.crs ≠ .IO_CRS_FAIL ∧
          ((∃ m2 C2, lookupIn w.fs (P ++ [x]) = some (.file m2 C2)) ∨
           (∃ t, lookupIn w.fs (P ++ [x]) = some (.link t)))) := by
      rcases hdst with h | ⟨h1, h2⟩
      · exact Or.inl h
      · exact Or.inr ⟨h1, Or.inl h2⟩
    obtain ⟨fs1, fs2, _, hfs2, hcp⟩ :=
      iop_cp_cancelled args w m C P x mP kP k hcan hstat hres hpar hdst2 hwf hreq hseen
    have hl := lookupIn_setEntry_self _ _ _ _ _ hfs2
    have hls : os_lstat (iop_cp args w).2 args.arg2
        = some (.file (maskMode 0o666 w.umask) (C.take ((k - w.clock) * BLOCK_SIZE))) := by
      rw [hcp, os_lstat_eq _ _ _ hres]
      exact hl
    have hle : (k - w.clock) * 8192 ≤ C.length := by
      simp only [BLOCK_SIZE] at hseen
      omega
    refine ⟨by rw [hcp]; simp, ⟨_, hls⟩, ?_, ?_, hle⟩
    · unfold fopen_rb
      rw [hcp, os_stat_of_plain _ _ _ hres (by simp [hl])]
      simp [hl]
    · rw [List.length_take]
      simp only [BLOCK_SIZE]
      omega

theorem iop_cp_cancel_full_blocks_witness :
    (iop_cp demoCpBig (demoBigWorld 1)).1 ≠ 0 ∧
    (∃ md, os_lstat (iop_cp demoCpBig (demoBigWorld 1)).2 demoCpBig.arg2
      = some (.file md (demoBigContent.take 8192))) ∧
    fopen_rb (iop_cp demoCpBig (demoBigWorld 1)).2 demoCpBig.arg2
      = some (demoBigContent.take 8192) ∧
    (demoBigContent.take 8192).length = 1 * 8192 ∧
    1 * 8192 ≤ demoBigContent.length :=
  (iop_cp_cancel_full_blocks demoCpBig (demoBigWorld 1) 0o640 demoBigContent
    ["b".toList] "g".toList 0o755 .nil 1 rfl rfl rfl rfl (Or.inl rfl) rfl rfl).1
    (by
      have h1 : (demoBigWorld 1).clock = 0 := rfl
      rw [h1, demoBigContent_length]
      decide)

/-- C18 (as stated) fails.  In the sample tree the file `d/big` has 9000 bytes,
so the block loop polls twice (polls 0 and 1).  A cancellation request that
comes after poll 1, while the second block is written, is seen by no poll:
`iop_cp` returns 0 and the destination holds all 9000 bytes, which is no
multiple of 8192. -/
theorem iop_cp_cancel_after_last_poll :
    (demoBigWorld 2).cancelAt = some 2 ∧ (demoBigWorld 2).clock = 0 ∧
    demoCpBig.cancellable = true ∧
    (iop_cp demoCpBig (demoBigWorld 2)).1 = 0 ∧
    (iop_cp demoCpBig (demoBigWorld 2)).2.clock = 2 ∧
    fopen_rb (iop_cp demoCpBig (demoBigWorld 2)).2 demoCpBig.arg2 = some demoBigContent ∧
    demoBigContent.length = 9000 ∧ ¬ ∃ j, j * 8192 = demoBigContent.length := by
  have h := iop_cp_unseen_whole demoCpBig (demoBigWorld 2) 0o640 demoBigContent
    ["b".toList] "g".toList 0o755 .nil 2 rfl rfl rfl rfl (Or.inl rfl) rfl rfl
    (by
      have h1 : (demoBigWorld 2).clock = 0 := rfl
      rw [h1, demoBigContent_length]
      decide)
  have hclk : (iop_cp demoCpBig (demoBigWorld 2)).2.clock = 2 := by
    rw [h.2.2.2, demoBigContent_length]
    rfl
  refine ⟨rfl, rfl, rfl, h.1, hclk, h.2.2.1, demoBigContent_length, ?_⟩
  rw [demoBigContent_length]
  rintro ⟨j, hj⟩
  omega

/-- C19 (as amended): unless its poll sees a cancellation request, the file
event of `cp_mv_visitor` hands on the destination path `d` itself for the
visited path `s`, and for the visited path `s/r` the string made of `d`, a
separator and the remainder of the visited path after `s`, which begins with a
separator itself: `d//r`.  That string names the same entry as `d/r`, the names
of `d` followed by the names of `r`. -/
theorem cp_mv_visitor_dst_path (mv : io_args_t → World → Option (Int × World))
    (args : io_args_t) (r : CStr) (w : World) :
    cp_mv_visitor mv args.arg1 .VA_FILE args false w =
      (if (polled args w).1 = true then some (VR_CANCELLED, (polled args w).2)
       else asVisit (mv (leafArgs args args.arg1 args.arg2) (polled args w).2)) ∧
    cp_mv_visitor mv (args.arg1 ++ '/' :: r) .VA_FILE args false w =
      (if (polled args w).1 = true then some (VR_CANCELLED, (polled args w).2)
       else asVisit (mv (leafArgs args (args.arg1 ++ '/' :: r) (args.arg2 ++ '/' :: '/' :: r))
         (polled args w).2)) ∧
    dstOf args args.arg1 = args.arg2 ∧
    dstOf args (args.arg1 ++ '/' :: r) = args.arg2 ++ '/' :: '/' :: r ∧
    components (args.arg2 ++ '/' :: '/' :: r) = components args.arg2 ++ components r ∧
    components (args.arg2 ++ '/' :: r) = components args.arg2 ++ components r := by
  have h1 : List.drop args.arg1.length args.arg1 = [] := by simp
  have h2 : List.drop args.arg1.length (args.arg1 ++ '/' :: r) = '/' :: r := by simp
  refine ⟨?_, ?_, by simp [dstOf], by simp [dstOf], ?_, ?_⟩
  · unfold cp_mv_visitor
    simp only [h1, if_true, Bool.false_eq_true, if_false, polled, leafArgs, asVisit]
  · unfold cp_mv_visitor
    simp only [h2, Bool.false_eq_true, if_false, polled, leafArgs, asVisit]
    simp
  · unfold components
    rw [comps_append_sep]
    simp [comps]
  · unfold components
    rw [comps_append_sep]

/-- C19 (as stated) fails: for the source `a`, the destination `b/c` and the
visited path `a/f`, the destination path that `cp_mv_visitor` hands on is
`b/c//f`, with two separators, and not `b/c/f`. -/
theorem cp_mv_visitor_double_separator :
    cp_mv_visitor (probeDst "b/c/f".toList) "a/f".toList .VA_FILE demoMvTree false demoWorld
      = some (VR_ERROR, demoWorld) ∧
    cp_mv_visitor (probeDst "b/c//f".toList) "a/f".toList .VA_FILE demoMvTree false demoWorld
      = some (VR_OK, demoWorld) ∧
    dstOf demoMvTree "a/f".toList = "b/c//f".toList ∧
    dstOf demoMvTree "a/f".toList ≠ "b/c/f".toList := by
  decide

/-- C20 (failing input): for the path `d` with parent creation, `iop_mkdir`
returns 0 after one iteration, and the search for the next separator that
closes this iteration starts at offset 2 of `path_copy`, past the terminator at
offset 1. -/
theorem iop_mkdir_search_past_terminator :
    demoMkdirParents.arg1.length = 1 ∧
    iop_mkdir demoMkdirParents demoWorld =
      ((iop_mkdir_run demoMkdirParents demoWorld).result,
        (iop_mkdir_run demoMkdirParents demoWorld).world) ∧
    (iop_mkdir_run demoMkdirParents demoWorld).result = 0 ∧
    (iop_mkdir_run demoMkdirParents demoWorld).iterations = 1 ∧
    (iop_mkdir_run demoMkdirParents demoWorld).exhausted = false ∧
    (iop_mkdir_run demoMkdirParents demoWorld).searches = [0, 2] ∧
    ∃ s ∈ (iop_mkdir_run demoMkdirParents demoWorld).searches,
      demoMkdirParents.arg1.length < s := by
  decide

/-- C21 (failing input): for a menu of 4 lines in a window of 5 rows with the
cursor on the last line, which meets every condition of the claim, `cmd_zz`
chooses the top line 2, above the largest correct value `len - (win_rows - 2)`,
which is 1 and which `change_menu_top` would have kept to; the last line of the
window is then line 4, past the last line 3 of the menu.  The cursor line is
inside the window. -/
theorem cmd_zz_top_past_end :
    3 ≤ demoMenu.win_rows ∧ 0 ≤ demoMenu.pos ∧ demoMenu.pos < demoMenu.len ∧
    all_lines_visible demoMenu = false ∧
    cmd_zz demoMenu = { demoMenu with top := 2 } ∧
    demoMenu.len - (demoMenu.win_rows - 2) = 1 ∧
    ¬ (cmd_zz demoMenu).top ≤ demoMenu.len - (demoMenu.win_rows - 2) ∧
    get_last_visible_line (cmd_zz demoMenu) = 4 ∧
    ¬ get_last_visible_line (cmd_zz demoMenu) ≤ demoMenu.len - 1 ∧
    (change_menu_top (cmd_zz demoMenu) 0).top = 1 ∧
    (cmd_zz demoMenu).top ≤ (cmd_zz demoMenu).pos ∧
    (cmd_zz demoMenu).pos ≤ get_last_visible_line (cmd_zz demoMenu) := by
  decide

end Vifm
